import Mathlib

/-!
# Verification of the sJSON parser / tree library (src/sjson.cpp, src/sjson.h)

Shallow embedding conventions:

* C strings and input buffers are modelled as `List Nat` of byte values; the
  terminating NUL is the end of the list.  Reading at or past the end of the
  buffer yields the byte 0, exactly as a read of the terminating NUL does.
* C `double` arithmetic is idealised as exact rational arithmetic (`ℚ`);
  the `(int)` cast is integer truncation toward zero.
* Pointers into the input text are represented either as a byte position
  (`Nat`, for the whitespace skipper, whose cursor can legally move past the
  NUL) or as the remaining suffix of the input (`List Nat`, for the
  recursive-descent parser, which mirrors the C pointer-into-buffer style).
* The process-wide error pointer `ep` is modelled by the `Except` error
  channel: a failing parse returns `.error s` where `s` is the suffix of the
  input starting at the failing cursor position (the value `ep` would hold).
* Allocation (`sJSON_malloc`) is assumed to succeed; out-of-memory paths of
  the C code are not modelled.
* Loops whose termination depends on the input length are given explicit
  fuel `length + 2`, which is shown (or used) to be sufficient; the
  recursive-descent parser takes an explicit fuel argument standing for the
  available call-stack depth (the C code has no depth limit).
-/

set_option autoImplicit false

namespace SJSON

/-- Byte at position `p` of a NUL-terminated buffer: positions at or past the
end of the list read as 0 (the terminating NUL / zeroed memory). -/
def getByte (l : List Nat) (p : Nat) : Nat := l.getD p 0

/-- First byte of a suffix-view of the buffer (0 = NUL at end of input). -/
def headByte (l : List Nat) : Nat := l.headD 0

@[simp] theorem getByte_nil (p : Nat) : getByte [] p = 0 := by
  simp [getByte]

@[simp] theorem headByte_nil : headByte [] = 0 := rfl

@[simp] theorem headByte_cons (c : Nat) (l : List Nat) : headByte (c :: l) = c := rfl

/-! ## String codec (src/sjson.cpp lines 195-300)

`parse_string` reads a quoted string, translating the escapes
`\b \f \n \r \t` to control characters, `\uXXXX` to 1-3 UTF-8 bytes
(no surrogate-pair reassembly), and copying the character after any other
backslash verbatim (which handles `\\` and `\"`).
`print_string_ptr` renders a byte string with the reverse escaping. -/

/-- `firstByteMark` table of `parse_string` (line 195), indexed by the UTF-8
length computed there. -/
def firstByteMark : Nat → Nat
  | 2 => 0xC0
  | 3 => 0xE0
  | _ => 0x00

/-- The UTF-8 transcoding step of the `u` case of `parse_string`
(lines 228-237): byte length 1/2/3 by code-point range, then the bytes are
written back-to-front with `(uc | 0x80) & 0xBF` continuation bytes and a
`firstByteMark`-tagged first byte. -/
def utf8encode (uc : Nat) : List Nat :=
  if uc < 0x80 then
    [uc ||| firstByteMark 1]
  else if uc < 0x800 then
    [(uc >>> 6) ||| firstByteMark 2, (uc ||| 0x80) &&& 0xBF]
  else
    [(uc >>> 12) ||| firstByteMark 3,
     ((uc >>> 6) ||| 0x80) &&& 0xBF,
     (uc ||| 0x80) &&& 0xBF]

/-- Value of an ASCII hex digit, as accepted by `sscanf("%4x")`. -/
def hexDigit (c : Nat) : Option Nat :=
  if 48 ≤ c ∧ c ≤ 57 then some (c - 48)
  else if 97 ≤ c ∧ c ≤ 102 then some (c - 87)
  else if 65 ≤ c ∧ c ≤ 70 then some (c - 55)
  else none

/-- The copy loop of `parse_string` (lines 217-243), applied to the bytes
after the opening quote.  Returns the decoded bytes and the remaining input
after the closing quote (the quote is consumed when present; reaching the
NUL also ends the string, as in the C code).  The two C behaviours that are
undefined (a backslash as the last byte before the NUL, and a `\u` escape
not followed by 4 hex digits, where `sscanf` leaves `uc` unset and the C
code still skips 4 bytes) are modelled as `none`. -/
def parse_string_loop : List Nat → Option (List Nat × List Nat)
  | [] => some ([], [])
  | c :: rest =>
    if c = 34 then some ([], rest)
    else if c = 92 then
      match rest with
      | [] => none
      | e :: rest2 =>
        if e = 98 then (parse_string_loop rest2).map (fun p => (8 :: p.1, p.2))
        else if e = 102 then (parse_string_loop rest2).map (fun p => (12 :: p.1, p.2))
        else if e = 110 then (parse_string_loop rest2).map (fun p => (10 :: p.1, p.2))
        else if e = 114 then (parse_string_loop rest2).map (fun p => (13 :: p.1, p.2))
        else if e = 116 then (parse_string_loop rest2).map (fun p => (9 :: p.1, p.2))
        else if e = 117 then
          match rest2 with
          | h1 :: h2 :: h3 :: h4 :: rest6 =>
            match hexDigit h1, hexDigit h2, hexDigit h3, hexDigit h4 with
            | some d1, some d2, some d3, some d4 =>
              (parse_string_loop rest6).map
                (fun p => (utf8encode (((d1 * 16 + d2) * 16 + d3) * 16 + d4) ++ p.1, p.2))
            | _, _, _, _ => none
          | _ => none
        else (parse_string_loop rest2).map (fun p => (e :: p.1, p.2))
    else (parse_string_loop rest).map (fun p => (c :: p.1, p.2))

/-- A failing parser outcome.  A C parser signals failure by storing the
cursor in the process-wide `ep` and returning NULL (`.ep`, carrying the
`ep` suffix).  Several call sites, however, pass such a NULL straight to
`skip`, whose line-319 read `*in` dereferences it without a null guard —
undefined behaviour, modelled as `.crash`. -/
inductive PErr where
  | ep : List Nat → PErr
  | crash : PErr

/-- `parse_string` (lines 196-250): fails (recording the cursor in `ep`)
unless the input starts with a double quote, then decodes up to the closing
quote.  The C length-measuring first pass and the allocation are immaterial
here. -/
def parse_string (l : List Nat) : Except PErr (List Nat × List Nat) :=
  if headByte l = 34 then
    match parse_string_loop l.tail with
    | some (out, rem) => .ok (out, rem)
    | none => .error (.ep l)
  else .error (.ep l)

/-- Lower-case hex digit byte produced by `sprintf("%04x")`. -/
def hexChar (d : Nat) : Nat := if d < 10 then 48 + d else 87 + d

/-- The four bytes of `sprintf("u%04x", token)` for a byte value, without
the leading `u`. -/
def hex4 (n : Nat) : List Nat :=
  [hexChar (n / 4096 % 16), hexChar (n / 256 % 16), hexChar (n / 16 % 16), hexChar (n % 16)]

/-- Escaping of one byte by `print_string_ptr` (lines 276-292): bytes above
31 other than quote and backslash pass through; the seven standard escapes
get their letter; any other byte below 32 is printed as `\u%04x`. -/
def escapeByte (b : Nat) : List Nat :=
  if 31 < b ∧ b ≠ 34 ∧ b ≠ 92 then [b]
  else
    92 ::
      (if b = 92 then [92]
       else if b = 34 then [34]
       else if b = 8 then [98]
       else if b = 12 then [102]
       else if b = 10 then [110]
       else if b = 13 then [114]
       else if b = 9 then [116]
       else 117 :: hex4 b)

/-- `print_string_ptr` (lines 253-296): wraps the escaped bytes in double
quotes.  The C loop reads the source up to its NUL terminator, hence the
`takeWhile`; a null pointer (not representable here) aside, the length
bookkeeping and allocation are immaterial. -/
def print_string_ptr (s : List Nat) : List Nat :=
  34 :: (s.takeWhile (fun c => c ≠ 0)).flatMap escapeByte ++ [34]

/-! ### Bit-arithmetic helpers for the UTF-8 continuation bytes -/

theorem lor128_land191 (x : Nat) : (x ||| 128) &&& 191 = x % 64 + 128 := by
  have h64 : ∀ y, y < 64 → y ||| 128 = y + 128 := by decide
  rw [← h64 (x % 64) (Nat.mod_lt _ (by norm_num))]
  apply Nat.eq_of_testBit_eq
  intro i
  rw [show (64:Nat) = 2^6 by norm_num]
  simp only [Nat.testBit_lor, Nat.testBit_land, Nat.testBit_mod_two_pow]
  generalize x.testBit i = b
  rcases lt_or_ge i 8 with h | h
  · interval_cases i <;> cases b <;> decide
  · have h128 : Nat.testBit 128 i = false := Nat.testBit_eq_false_of_lt (by
      calc (128:Nat) < 2^8 := by norm_num
      _ ≤ 2^i := Nat.pow_le_pow_right (by norm_num) h)
    have h191 : Nat.testBit 191 i = false := Nat.testBit_eq_false_of_lt (by
      calc (191:Nat) < 2^8 := by norm_num
      _ ≤ 2^i := Nat.pow_le_pow_right (by norm_num) h)
    simp [h128, h191, show ¬ (i < 6) by omega]

theorem sr6_lor192 (x : Nat) (h : x < 2048) : (x >>> 6) ||| 192 = x / 64 + 192 := by
  rw [Nat.shiftRight_eq_div_pow]
  have hx : x / 2^6 < 32 := by omega
  have h32 : ∀ y, y < 32 → y ||| 192 = y + 192 := by decide
  rw [h32 _ hx]
  norm_num

theorem sr12_lor224 (x : Nat) (h : x < 65536) : (x >>> 12) ||| 224 = x / 4096 + 224 := by
  rw [Nat.shiftRight_eq_div_pow]
  have hx : x / 2^12 < 16 := by omega
  have h16 : ∀ y, y < 16 → y ||| 224 = y + 224 := by decide
  rw [h16 _ hx]
  norm_num

theorem sr6_lor_land (x : Nat) : ((x >>> 6) ||| 128) &&& 191 = x / 64 % 64 + 128 := by
  rw [Nat.shiftRight_eq_div_pow, lor128_land191]

/-- `utf8encode` written in the standard arithmetic form of UTF-8:
1 byte below `0x80`, 2 bytes below `0x800`, 3 bytes up to `0xFFFF`. -/
theorem utf8encode_eq (uc : Nat) :
    (uc < 0x80 → utf8encode uc = [uc]) ∧
    (0x80 ≤ uc → uc < 0x800 → utf8encode uc = [192 + uc / 64, 128 + uc % 64]) ∧
    (0x800 ≤ uc → uc < 0x10000 →
      utf8encode uc = [224 + uc / 4096, 128 + uc / 64 % 64, 128 + uc % 64]) := by
  refine ⟨fun h1 => ?_, fun h2 h2' => ?_, fun h3 h3' => ?_⟩
  · simp [utf8encode, h1, firstByteMark]
  · rw [utf8encode, if_neg (by omega), if_pos h2',
      show firstByteMark 2 = 192 from rfl, sr6_lor192 uc h2', lor128_land191]
    simp only [List.cons.injEq, and_true]
    omega
  · rw [utf8encode, if_neg (by omega), if_neg (by omega),
      show firstByteMark 3 = 224 from rfl, sr12_lor224 uc h3', sr6_lor_land, lor128_land191]
    simp only [List.cons.injEq, and_true]
    omega

/-- Each hex digit rendered by `hexChar` is read back by `hexDigit`. -/
theorem hexDigit_hexChar (d : Nat) (h : d < 16) : hexDigit (hexChar d) = some d := by
  interval_cases d <;> decide

/-- One step of the `parse_string` copy loop applied to the `print_string_ptr`
escape of one byte: the byte is recovered and decoding continues. -/
theorem escape_step (b : Nat) (h1 : 1 ≤ b) (t : List Nat) :
    parse_string_loop (escapeByte b ++ t) =
      (parse_string_loop t).map (fun p => (b :: p.1, p.2)) := by
  by_cases hp : 31 < b ∧ b ≠ 34 ∧ b ≠ 92
  · obtain ⟨h31, h34, h92⟩ := hp
    have hb : escapeByte b = [b] := by rw [escapeByte, if_pos ⟨h31, h34, h92⟩]
    rw [hb, List.cons_append, List.nil_append, parse_string_loop.eq_def]
    simp [h34, h92]
  · rcases Decidable.not_and_iff_or_not.mp hp with h31 | h'
    · have hb : b ≤ 31 := by omega
      interval_cases b <;>
        (simp only [escapeByte, hex4, hexChar]
         norm_num
         rw [parse_string_loop.eq_def]
         simp [hexDigit, utf8encode, firstByteMark])
    · rcases Decidable.not_and_iff_or_not.mp h' with h34 | h92
      · have hb : b = 34 := by omega
        subst hb
        rw [show escapeByte 34 = [92, 34] from rfl, List.cons_append, List.cons_append,
          List.nil_append, parse_string_loop.eq_def]
        simp
      · have hb : b = 92 := by omega
        subst hb
        rw [show escapeByte 92 = [92, 92] from rfl, List.cons_append, List.cons_append,
          List.nil_append, parse_string_loop.eq_def]
        simp

theorem parse_print_loop (s : List Nat) (hs : ∀ b ∈ s, 1 ≤ b) (t : List Nat) :
    parse_string_loop (s.flatMap escapeByte ++ t) =
      (parse_string_loop t).map (fun p => (s ++ p.1, p.2)) := by
  induction s with
  | nil => simp
  | cons b s ih =>
    have hb := hs b (by simp)
    have hs' : ∀ c ∈ s, 1 ≤ c := fun c hc => hs c (by simp [hc])
    rw [List.flatMap_cons, List.append_assoc, escape_step b hb, ih hs']
    cases parse_string_loop t <;> simp

/-- Decoding the encoding of any NUL-free byte string gives the string back
(with nothing left over).  This is the general string round-trip used both
for the string-escape claim and for the document round-trip. -/
theorem parse_print_string (s : List Nat) (hs : ∀ b ∈ s, 1 ≤ b) :
    parse_string (print_string_ptr s) = .ok (s, []) := by
  have htw : s.takeWhile (fun c => c ≠ 0) = s := by
    rw [List.takeWhile_eq_self_iff]
    intro c hc
    have := hs c hc
    show decide (c ≠ 0) = true
    exact decide_eq_true (by omega)
  rw [print_string_ptr, htw]
  simp only [parse_string, List.cons_append, headByte_cons, List.tail_cons, if_true]
  rw [parse_print_loop s hs [34]]
  simp [parse_string_loop]

/-- C7: the string decoder translates each escape `\b \f \n \r \t \\ \"` to
its single-character equivalent and each `\uXXXX` escape to the UTF-8
encoding of the code point using 1 to 3 bytes — each escape is translated
on its own, for every 16-bit code point including surrogate halves, so
surrogate pairs are never reassembled; in particular a literal containing
`é` decodes to the two-byte UTF-8 sequence 0xC3 0xA9. -/
theorem claim_C7 :
    (∀ t, parse_string_loop (92 :: 98 :: t) =
      (parse_string_loop t).map (fun p => (8 :: p.1, p.2))) ∧
    (∀ t, parse_string_loop (92 :: 102 :: t) =
      (parse_string_loop t).map (fun p => (12 :: p.1, p.2))) ∧
    (∀ t, parse_string_loop (92 :: 110 :: t) =
      (parse_string_loop t).map (fun p => (10 :: p.1, p.2))) ∧
    (∀ t, parse_string_loop (92 :: 114 :: t) =
      (parse_string_loop t).map (fun p => (13 :: p.1, p.2))) ∧
    (∀ t, parse_string_loop (92 :: 116 :: t) =
      (parse_string_loop t).map (fun p => (9 :: p.1, p.2))) ∧
    (∀ t, parse_string_loop (92 :: 92 :: t) =
      (parse_string_loop t).map (fun p => (92 :: p.1, p.2))) ∧
    (∀ t, parse_string_loop (92 :: 34 :: t) =
      (parse_string_loop t).map (fun p => (34 :: p.1, p.2))) ∧
    (∀ h1 h2 h3 h4 d1 d2 d3 d4 t, hexDigit h1 = some d1 → hexDigit h2 = some d2 →
      hexDigit h3 = some d3 → hexDigit h4 = some d4 →
      parse_string_loop (92 :: 117 :: h1 :: h2 :: h3 :: h4 :: t) =
        (parse_string_loop t).map
          (fun p => (utf8encode (((d1 * 16 + d2) * 16 + d3) * 16 + d4) ++ p.1, p.2))) ∧
    (∀ uc, (uc < 0x80 → utf8encode uc = [uc]) ∧
      (0x80 ≤ uc → uc < 0x800 → utf8encode uc = [192 + uc / 64, 128 + uc % 64]) ∧
      (0x800 ≤ uc → uc < 0x10000 →
        utf8encode uc = [224 + uc / 4096, 128 + uc / 64 % 64, 128 + uc % 64])) ∧
    parse_string [34, 92, 117, 48, 48, 101, 57, 34] = .ok ([195, 169], []) := by
  refine ⟨?_, ?_, ?_, ?_, ?_, ?_, ?_, ?_, utf8encode_eq, by rfl⟩
  · intro t; rw [parse_string_loop.eq_def]; simp
  · intro t; rw [parse_string_loop.eq_def]; simp
  · intro t; rw [parse_string_loop.eq_def]; simp
  · intro t; rw [parse_string_loop.eq_def]; simp
  · intro t; rw [parse_string_loop.eq_def]; simp
  · intro t; rw [parse_string_loop.eq_def]; simp
  · intro t; rw [parse_string_loop.eq_def]; simp
  · intro h1 h2 h3 h4 d1 d2 d3 d4 t hd1 hd2 hd3 hd4
    rw [parse_string_loop.eq_def]
    simp [hd1, hd2, hd3, hd4]

theorem claim_C7_witness :
    (hexDigit 48 = some 0 ∧ hexDigit 101 = some 14 ∧ hexDigit 57 = some 9) ∧
    parse_string_loop (92 :: 117 :: 48 :: 48 :: 101 :: 57 :: [34]) =
      (parse_string_loop [34]).map
        (fun p => (utf8encode (((0 * 16 + 0) * 16 + 14) * 16 + 9) ++ p.1, p.2)) ∧
    (0x80 ≤ 233 ∧ 233 < 0x800) ∧ utf8encode 233 = [192 + 233 / 64, 128 + 233 % 64] := by
  obtain ⟨hb, hf, hn, hr, ht, hbs, hq, hu, hutf, hconc⟩ := claim_C7
  exact ⟨⟨rfl, rfl, rfl⟩, hu 48 48 101 57 0 0 14 9 [34] rfl rfl rfl rfl,
    ⟨by norm_num, by norm_num⟩, (hutf 233).2.1 (by norm_num) (by norm_num)⟩

/-- C8: for every ASCII string (NUL-free bytes up to 127, so no code points
needing surrogate pairs arise), including control characters, double quotes
and backslashes, decoding the `print_string_ptr` encoding with
`parse_string` yields the string again. -/
theorem claim_C8 (s : List Nat) (hs : ∀ b ∈ s, 1 ≤ b ∧ b ≤ 127) :
    parse_string (print_string_ptr s) = .ok (s, []) :=
  parse_print_string s (fun b hb => (hs b hb).1)

theorem claim_C8_witness :
    (∀ b ∈ [8, 34, 92, 65, 7], 1 ≤ b ∧ b ≤ 127) ∧
      parse_string (print_string_ptr [8, 34, 92, 65, 7]) = .ok ([8, 34, 92, 65, 7], []) :=
  ⟨by decide, claim_C8 [8, 34, 92, 65, 7] (by decide)⟩

/-! ## Number codec (src/sjson.cpp lines 108-151)

`parse_number` accumulates a mantissa digit by digit, an optional fractional
part (decrementing a power-of-ten `scale` per fractional digit) and an
optional signed exponent, then combines them as
`sign * n * 10^(scale + subscale*signsubscale)`.  C `double` arithmetic is
idealised as exact rational arithmetic; the `(int)` cast on line 126 is
integer truncation toward zero (`ratTrunc`). -/

/-- Truncation toward zero of a rational, the idealised `(int)` cast. -/
def ratTrunc (q : ℚ) : Int := q.num.tdiv q.den

/-- The integer-part loop of `parse_number` (line 116):
`do n = n*10 + (*num - '0') while digit`. Entered on a digit, it keeps
consuming digits. -/
def digitsLoop (n : ℚ) : List Nat → ℚ × List Nat
  | [] => (n, [])
  | c :: t =>
    if 48 ≤ c ∧ c ≤ 57 then digitsLoop (n * 10 + ((c : ℚ) - 48)) t else (n, c :: t)

/-- The fractional-digit while-part of line 117, which also decrements
`scale` once per digit. -/
def fracDigitsLoop (n : ℚ) (scale : Int) : List Nat → ℚ × Int × List Nat
  | [] => (n, scale, [])
  | c :: t =>
    if 48 ≤ c ∧ c ≤ 57 then fracDigitsLoop (n * 10 + ((c : ℚ) - 48)) (scale - 1) t
    else (n, scale, c :: t)

/-- The do-while of line 117: after the dot one byte is consumed
unconditionally (reading the NUL as byte 0 when the input ends, as the C
code does before running past the buffer), then digits are consumed. -/
def fracLoop (n : ℚ) (scale : Int) : List Nat → ℚ × Int × List Nat
  | [] => (n * 10 + ((0 : ℚ) - 48), scale - 1, [])
  | c :: t => fracDigitsLoop (n * 10 + ((c : ℚ) - 48)) (scale - 1) t

/-- The exponent-digit loop of line 120: `subscale = subscale*10 + digit`. -/
def expLoop (sub : Int) : List Nat → Int × List Nat
  | [] => (sub, [])
  | c :: t =>
    if 48 ≤ c ∧ c ≤ 57 then expLoop (sub * 10 + ((c : Int) - 48)) t else (sub, c :: t)

/-- The exponent stage of `parse_number` (lines 118-121): on `e`/`E`, an
optional sign, then exponent digits into `subscale`/`signsubscale`. -/
def expStage (n4 : List Nat) : Int × Int × List Nat :=
  if headByte n4 = 101 ∨ headByte n4 = 69 then
    if headByte n4.tail = 43 then
      let p := expLoop 0 n4.tail.tail
      (p.1, 1, p.2)
    else if headByte n4.tail = 45 then
      let p := expLoop 0 n4.tail.tail
      (p.1, -1, p.2)
    else
      let p := expLoop 0 n4.tail
      (p.1, 1, p.2)
  else (0, 1, n4)

/-- `parse_number` (lines 109-129).  It never fails; it returns the value
(`valueDouble`), its truncation (`valueInt`) and the rest of the input. -/
def parse_number (num : List Nat) : ℚ × Int × List Nat :=
  let s1 : ℚ × List Nat := if headByte num = 45 then (-1, num.tail) else (1, num)
  let n2 : List Nat := if headByte s1.2 = 48 then s1.2.tail else s1.2
  let s3 : ℚ × List Nat :=
    if 49 ≤ headByte n2 ∧ headByte n2 ≤ 57 then digitsLoop 0 n2 else (0, n2)
  let s4 : ℚ × Int × List Nat :=
    if headByte s3.2 = 46 then fracLoop s3.1 0 s3.2.tail else (s3.1, 0, s3.2)
  let s5 : Int × Int × List Nat := expStage s4.2.2
  let value : ℚ := s1.1 * s4.1 * (10 : ℚ) ^ (s4.2.1 + s5.1 * s5.2.1)
  (value, ratTrunc value, s5.2.2)

/-! ### Specification-side description of a numeric literal (for C6) -/

/-- Value of a list of decimal digit values (most significant first). -/
def digitsVal (ds : List Nat) : Nat := ds.foldl (fun a d => a * 10 + d) 0

/-- A decomposed numeric literal: sign, integer digits, optional fractional
digits, optional exponent (uppercase flag, optional explicit sign where
`true` means minus, digits). Digit lists hold digit values 0-9. -/
structure NumLit where
  neg : Bool
  intDs : List Nat
  fracDs : Option (List Nat)
  expPart : Option (Bool × Option Bool × List Nat)

/-- Well-formedness of a literal as accepted by the sJSON number grammar:
nonempty integer part without leading zeros (except `0` itself), nonempty
fractional part when the dot is present, digits in range, and an exponent
with digits or an explicit sign (`1e` directly followed by a sign byte in
the remaining input would be consumed by the C parser). -/
def NumLit.wf (lit : NumLit) : Prop :=
  lit.intDs ≠ [] ∧ (∀ d ∈ lit.intDs, d ≤ 9) ∧
  (lit.intDs = [0] ∨ lit.intDs.headD 0 ≠ 0) ∧
  (∀ ds, lit.fracDs = some ds → ds ≠ [] ∧ ∀ d ∈ ds, d ≤ 9) ∧
  (∀ u sgn ds, lit.expPart = some (u, sgn, ds) →
    (∀ d ∈ ds, d ≤ 9) ∧ (sgn = none → ds ≠ []))

/-- Bytes of the fractional part of a literal. -/
def fracRender : Option (List Nat) → List Nat
  | some ds => 46 :: ds.map (· + 48)
  | none => []

/-- Bytes of the exponent part of a literal. -/
def expRender : Option (Bool × Option Bool × List Nat) → List Nat
  | some (u, sgn, ds) =>
    (if u then [69] else [101]) ++
    (match sgn with
     | some true => [45]
     | some false => [43]
     | none => []) ++ ds.map (· + 48)
  | none => []

/-- The byte rendering of a decomposed literal. -/
def NumLit.render (lit : NumLit) : List Nat :=
  (if lit.neg then [45] else []) ++ lit.intDs.map (· + 48) ++
    fracRender lit.fracDs ++ expRender lit.expPart

/-- The mathematical value denoted by a decomposed literal:
`sign * mantissa * 10^(scale + exponent)` with the mantissa the integer and
fractional digits read as one integer and `scale` minus the number of
fractional digits. -/
def NumLit.value (lit : NumLit) : ℚ :=
  (if lit.neg then (-1 : ℚ) else 1) *
    (digitsVal (lit.intDs ++ (lit.fracDs.getD [])) : ℚ) *
    (10 : ℚ) ^ (-(((lit.fracDs.getD []).length : Int)) +
      (match lit.expPart with
       | some (_, sgn, ds) => (if sgn = some true then -1 else 1) * (digitsVal ds : Int)
       | none => 0))

/-- A byte that would extend a numeric literal if it directly followed it:
a digit, a dot, or an exponent letter. -/
def numCont (b : Nat) : Prop := (48 ≤ b ∧ b ≤ 57) ∨ b = 46 ∨ b = 101 ∨ b = 69

theorem digitsVal_foldl (a : Nat) (ds : List Nat) :
    ds.foldl (fun x d => x * 10 + d) a = a * 10 ^ ds.length + digitsVal ds := by
  induction ds generalizing a with
  | nil => simp [digitsVal]
  | cons d ds ih =>
    have hv : digitsVal (d :: ds) = d * 10 ^ ds.length + digitsVal ds := by
      have h0 : digitsVal (d :: ds) = ds.foldl (fun x d => x * 10 + d) d := by
        rw [digitsVal, List.foldl_cons, Nat.zero_mul, Nat.zero_add]
      rw [h0, ih]
    rw [List.foldl_cons, ih, hv, List.length_cons, pow_succ]
    ring

theorem digitsVal_cons (d : Nat) (ds : List Nat) :
    digitsVal (d :: ds) = d * 10 ^ ds.length + digitsVal ds := by
  have h0 : digitsVal (d :: ds) = ds.foldl (fun x d => x * 10 + d) d := by
    rw [digitsVal, List.foldl_cons, Nat.zero_mul, Nat.zero_add]
  rw [h0, digitsVal_foldl]

theorem digitsVal_append (xs ys : List Nat) :
    digitsVal (xs ++ ys) = digitsVal xs * 10 ^ ys.length + digitsVal ys := by
  have h1 : digitsVal (xs ++ ys) = (xs ++ ys).foldl (fun a d => a * 10 + d) 0 := rfl
  have h2 : digitsVal xs = xs.foldl (fun a d => a * 10 + d) 0 := rfl
  rw [h1, List.foldl_append, digitsVal_foldl, ← h2]

theorem digitsLoop_run (ds : List Nat) (hds : ∀ d ∈ ds, d ≤ 9) (n : ℚ) (r : List Nat)
    (hr : ¬(48 ≤ headByte r ∧ headByte r ≤ 57)) :
    digitsLoop n (ds.map (· + 48) ++ r) =
      (n * 10 ^ ds.length + (digitsVal ds : ℚ), r) := by
  induction ds generalizing n with
  | nil =>
    cases r with
    | nil => simp [digitsLoop, digitsVal]
    | cons c t =>
      rw [List.map_nil, List.nil_append, digitsLoop, if_neg (by simpa using hr)]
      simp [digitsVal]
  | cons d ds ih =>
    have hd : d ≤ 9 := hds d (by simp)
    rw [List.map_cons, List.cons_append, digitsLoop, if_pos (by omega)]
    rw [ih (fun x hx => hds x (by simp [hx]))]
    have hcast : ((d + 48 : ℕ) : ℚ) - 48 = (d : ℚ) := by push_cast; ring
    rw [hcast, digitsVal_cons, List.length_cons, pow_succ]
    simp only [Prod.mk.injEq]
    refine ⟨by push_cast; ring, trivial⟩

theorem fracDigitsLoop_run (ds : List Nat) (hds : ∀ d ∈ ds, d ≤ 9) (n : ℚ) (scale : Int)
    (r : List Nat) (hr : ¬(48 ≤ headByte r ∧ headByte r ≤ 57)) :
    fracDigitsLoop n scale (ds.map (· + 48) ++ r) =
      (n * 10 ^ ds.length + (digitsVal ds : ℚ), scale - ds.length, r) := by
  induction ds generalizing n scale with
  | nil =>
    cases r with
    | nil => simp [fracDigitsLoop, digitsVal]
    | cons c t =>
      rw [List.map_nil, List.nil_append, fracDigitsLoop, if_neg (by simpa using hr)]
      simp [digitsVal]
  | cons d ds ih =>
    have hd : d ≤ 9 := hds d (by simp)
    rw [List.map_cons, List.cons_append, fracDigitsLoop, if_pos (by omega)]
    rw [ih (fun x hx => hds x (by simp [hx]))]
    have hcast : ((d + 48 : ℕ) : ℚ) - 48 = (d : ℚ) := by push_cast; ring
    rw [hcast, digitsVal_cons, List.length_cons, pow_succ]
    simp only [Prod.mk.injEq]
    refine ⟨by push_cast; ring, by push_cast; ring, trivial⟩

theorem expLoop_run (ds : List Nat) (hds : ∀ d ∈ ds, d ≤ 9) (sub : Int) (r : List Nat)
    (hr : ¬(48 ≤ headByte r ∧ headByte r ≤ 57)) :
    expLoop sub (ds.map (· + 48) ++ r) = (sub * 10 ^ ds.length + (digitsVal ds : Int), r) := by
  induction ds generalizing sub with
  | nil =>
    cases r with
    | nil => simp [expLoop, digitsVal]
    | cons c t =>
      rw [List.map_nil, List.nil_append, expLoop, if_neg (by simpa using hr)]
      simp [digitsVal]
  | cons d ds ih =>
    have hd : d ≤ 9 := hds d (by simp)
    rw [List.map_cons, List.cons_append, expLoop, if_pos (by omega)]
    rw [ih (fun x hx => hds x (by simp [hx]))]
    have hcast : ((d + 48 : ℕ) : Int) - 48 = (d : Int) := by push_cast; ring
    rw [hcast, digitsVal_cons, List.length_cons, pow_succ]
    simp only [Prod.mk.injEq]
    refine ⟨by push_cast; ring, trivial⟩

/-- Exponent magnitude denoted by the exponent part (`subscale`). -/
def expSub : Option (Bool × Option Bool × List Nat) → Int
  | some (_, _, ds) => (digitsVal ds : Int)
  | none => 0

/-- Exponent sign denoted by the exponent part (`signsubscale`). -/
def expSign : Option (Bool × Option Bool × List Nat) → Int
  | some (_, some true, _) => -1
  | _ => 1

theorem expRest_head (E : Option (Bool × Option Bool × List Nat)) (rest : List Nat)
    (hrest : ¬ numCont (headByte rest)) :
    headByte (expRender E ++ rest) = 101 ∨ headByte (expRender E ++ rest) = 69 ∨
      (¬ numCont (headByte (expRender E ++ rest)) ∧ expRender E ++ rest = rest) := by
  rcases E with _ | ⟨u, sgn, ds⟩
  · right; right; exact ⟨by simpa [expRender] using hrest, by simp [expRender]⟩
  · rcases u <;> simp [expRender]

theorem fracExpRest_nodigit (F : Option (List Nat))
    (E : Option (Bool × Option Bool × List Nat)) (rest : List Nat)
    (hrest : ¬ numCont (headByte rest)) :
    ¬(48 ≤ headByte (fracRender F ++ (expRender E ++ rest)) ∧
      headByte (fracRender F ++ (expRender E ++ rest)) ≤ 57) := by
  rcases F with _ | ds
  · rw [fracRender, List.nil_append]
    rcases expRest_head E rest hrest with h | h | ⟨h, _⟩
    · omega
    · omega
    · rw [numCont] at h
      omega
  · simp [fracRender]

theorem fracExpRest_nodot (E : Option (Bool × Option Bool × List Nat)) (rest : List Nat)
    (hrest : ¬ numCont (headByte rest)) :
    headByte (expRender E ++ rest) ≠ 46 := by
  rcases expRest_head E rest hrest with h | h | ⟨h, _⟩
  · omega
  · omega
  · rw [numCont] at h
    omega

/-- The exponent stage of `parse_number` applied to a rendered exponent
part: it yields `subscale = digitsVal ds` and the rendered sign. -/
theorem expStage_run (E : Option (Bool × Option Bool × List Nat)) (rest : List Nat)
    (hE : ∀ u sgn ds, E = some (u, sgn, ds) →
      (∀ d ∈ ds, d ≤ 9) ∧ (sgn = none → ds ≠ []))
    (hrest : ¬ numCont (headByte rest)) :
    expStage (expRender E ++ rest) = (expSub E, expSign E, rest) := by
  rcases E with _ | ⟨u, sgn, ds⟩
  · rw [expRender, List.nil_append, expStage]
    rw [if_neg (by rw [numCont] at hrest; omega)]
    rfl
  · obtain ⟨hds, hsgn⟩ := hE u sgn ds rfl
    have hrd : ¬(48 ≤ headByte rest ∧ headByte rest ≤ 57) := by
      rw [numCont] at hrest; omega
    have hexp : expLoop 0 (ds.map (· + 48) ++ rest) = ((digitsVal ds : Int), rest) := by
      rw [expLoop_run ds hds 0 rest hrd]
      simp
    rcases sgn with _ | b
    · -- no explicit exponent sign: a digit follows the letter directly
      have hds' : ds ≠ [] := hsgn rfl
      obtain ⟨e0, ds', hds0⟩ := List.exists_cons_of_ne_nil hds'
      have he0 : e0 ≤ 9 := hds e0 (by rw [hds0]; simp)
      have hshape2 : expRender (some (u, none, ds)) ++ rest =
          (if u then [69] else [101]) ++ (ds.map (· + 48) ++ rest) := by
        simp [expRender, List.append_assoc]
      rw [hshape2]
      have hhead : headByte (ds.map (· + 48) ++ rest) = e0 + 48 := by
        rw [hds0, List.map_cons, List.cons_append, headByte_cons]
      have h43 : ¬(headByte (ds.map (· + 48) ++ rest) = 43) := by rw [hhead]; omega
      have h45 : ¬(headByte (ds.map (· + 48) ++ rest) = 45) := by rw [hhead]; omega
      rcases u <;> simp [expStage, h43, h45, hexp, expSub, expSign]
    · have hshape2 : expRender (some (u, some b, ds)) ++ rest =
          (if u then [69] else [101]) ++
            ((if b then [45] else [43]) ++ (ds.map (· + 48) ++ rest)) := by
        rcases b <;> simp [expRender, List.append_assoc]
      rw [hshape2]
      rcases u <;> rcases b <;>
        simp [expStage, hexp, expSub, expSign, List.append_assoc]

/-- `NumLit.value` of an unsigned literal, written with `expSub`/`expSign`. -/
theorem value_unsigned (I : List Nat) (F : Option (List Nat))
    (E : Option (Bool × Option Bool × List Nat)) :
    NumLit.value ⟨false, I, F, E⟩ =
      (1 : ℚ) * (digitsVal (I ++ F.getD []) : ℚ) *
        (10 : ℚ) ^ (-(((F.getD []).length : Int)) + expSub E * expSign E) := by
  rw [NumLit.value]
  have hexp : (match (⟨false, I, F, E⟩ : NumLit).expPart with
      | some (_, sgn, ds) => (if sgn = some true then -1 else 1) * (digitsVal ds : Int)
      | none => 0) = expSub E * expSign E := by
    show (match E with
      | some (_, sgn, ds) => (if sgn = some true then -1 else 1) * (digitsVal ds : Int)
      | none => 0) = expSub E * expSign E
    rcases E with _ | ⟨u, sgn, ds⟩
    · simp [expSub, expSign]
    · rcases sgn with _ | b
      · simp [expSub, expSign]
      · rcases b <;> simp [expSub, expSign]
  rw [hexp]
  simp

/-- The heart of C6 for an unsigned literal: `parse_number` on the rendered
literal evaluates to `sign * mantissa * 10^(scale+exponent)` (with sign 1). -/
theorem parse_number_render (I : List Nat) (F : Option (List Nat))
    (E : Option (Bool × Option Bool × List Nat)) (rest : List Nat)
    (hwf : NumLit.wf ⟨false, I, F, E⟩) (hrest : ¬ numCont (headByte rest)) :
    parse_number (NumLit.render ⟨false, I, F, E⟩ ++ rest) =
      (NumLit.value ⟨false, I, F, E⟩, ratTrunc (NumLit.value ⟨false, I, F, E⟩), rest) := by
  obtain ⟨hInt, hIR, hLead, hF, hE⟩ := hwf
  simp only at hInt hIR hLead hF hE
  obtain ⟨d0, I', hI0⟩ := List.exists_cons_of_ne_nil hInt
  have hd0 : d0 ≤ 9 := by
    apply hIR
    rw [hI0]
    simp
  -- the input shape
  have hshape : NumLit.render ⟨false, I, F, E⟩ ++ rest =
      I.map (· + 48) ++ (fracRender F ++ (expRender E ++ rest)) := by
    simp [NumLit.render, List.append_assoc]
  rw [hshape]
  set X := I.map (· + 48) ++ (fracRender F ++ (expRender E ++ rest)) with hXdef
  set B3 := fracRender F ++ (expRender E ++ rest) with hB3def
  have hheadX : headByte X = d0 + 48 := by
    rw [hXdef, hI0, List.map_cons, List.cons_append, headByte_cons]
  have hB3 : ¬(48 ≤ headByte B3 ∧ headByte B3 ≤ 57) := fracExpRest_nodigit F E rest hrest
  simp only [parse_number]
  -- stage 1 (sign): the first byte is a digit, not a minus
  rw [if_neg (show ¬(headByte X = 45) by rw [hheadX]; omega)]
  -- stages 2-3 (leading-zero skip and integer digits)
  have h23 : (if 49 ≤ headByte (if headByte X = 48 then X.tail else X) ∧
        headByte (if headByte X = 48 then X.tail else X) ≤ 57
      then digitsLoop 0 (if headByte X = 48 then X.tail else X)
      else (0, if headByte X = 48 then X.tail else X)) = ((digitsVal I : ℚ), B3) := by
    rcases hLead with hLead | hLead
    · -- I = [0]
      rw [hI0] at hLead
      have hd00 : d0 = 0 := by injection hLead
      have hI'0 : I' = [] := by injection hLead
      subst hd00
      subst hI'0
      have hX0 : X = 48 :: B3 := by rw [hXdef, hI0]; rfl
      rw [if_pos (show headByte X = 48 by rw [hheadX])]
      rw [hX0, List.tail_cons]
      rw [if_neg (by omega)]
      rw [hI0]
      rfl
    · -- leading digit 1-9
      have hd0ne : d0 ≠ 0 := by
        rw [hI0] at hLead
        simpa using hLead
      rw [if_neg (show ¬(headByte X = 48) by rw [hheadX]; omega)]
      rw [if_pos (show 49 ≤ headByte X ∧ headByte X ≤ 57 by rw [hheadX]; omega)]
      rw [hXdef, digitsLoop_run I hIR 0 B3 hB3]
      simp
  rw [h23]
  -- stage 4 (fractional part)
  have h4 : (if headByte B3 = 46 then fracLoop (digitsVal I : ℚ) 0 B3.tail
        else ((digitsVal I : ℚ), 0, B3)) =
      ((digitsVal (I ++ F.getD []) : ℚ), -(((F.getD []).length : Int)),
        expRender E ++ rest) := by
    rcases hFr : F with _ | ds
    · rw [hB3def, hFr, fracRender, List.nil_append]
      rw [if_neg (fracExpRest_nodot E rest hrest)]
      simp
    · obtain ⟨hds, hdsR⟩ := hF ds hFr
      obtain ⟨f0, F', hds0⟩ := List.exists_cons_of_ne_nil hds
      have hB3shape : B3 = 46 :: (ds.map (· + 48) ++ (expRender E ++ rest)) := by
        rw [hB3def, hFr, fracRender, List.cons_append]
      rw [hB3shape]
      simp only [headByte_cons, List.tail_cons]
      simp only [eq_self_iff_true, if_true]
      have hEr : ¬(48 ≤ headByte (expRender E ++ rest) ∧
          headByte (expRender E ++ rest) ≤ 57) := by
        rcases expRest_head E rest hrest with h | h | ⟨h, _⟩
        · omega
        · omega
        · rw [numCont] at h; omega
      rw [hds0, List.map_cons, List.cons_append, fracLoop,
        fracDigitsLoop_run F' (fun x hx => hdsR x (by simp [hds0, hx])) _ _ _ hEr]
      have hcast : ((f0 + 48 : ℕ) : ℚ) - 48 = (f0 : ℚ) := by push_cast; ring
      rw [hcast]
      have hval : digitsVal (I ++ f0 :: F') =
          (digitsVal I * 10 + f0) * 10 ^ F'.length + digitsVal F' := by
        rw [digitsVal_append, digitsVal_cons, List.length_cons, pow_succ]
        ring
      simp only [hds0, Option.getD_some, Prod.mk.injEq]
      refine ⟨by rw [hval]; push_cast; ring,
        by simp only [List.length_cons]; push_cast; ring, trivial⟩
  rw [h4]
  -- stage 5 (exponent)
  rw [expStage_run E rest hE hrest]
  -- assemble the value
  rw [value_unsigned]

/-- A leading minus negates the parsed value (line 114): `parse_number` on
`'-' :: X` is `parse_number X` with the value and its truncation negated,
when `X` itself carries no sign. -/
theorem parse_number_neg (X : List Nat) (hX : headByte X ≠ 45) :
    parse_number (45 :: X) =
      (-(parse_number X).1, ratTrunc (-(parse_number X).1), (parse_number X).2.2) := by
  simp only [parse_number, headByte_cons, List.tail_cons, eq_self_iff_true, if_true,
    if_neg hX]
  simp [neg_mul, one_mul]

/-- A well-formed rendered literal parses to its denoted value and the
value's integer truncation, consuming exactly the rendered bytes. -/
theorem parse_number_lit (lit : NumLit) (hwf : lit.wf) (rest : List Nat)
    (hrest : ¬ numCont (headByte rest)) :
    parse_number (lit.render ++ rest) = (lit.value, ratTrunc lit.value, rest) := by
  rcases lit with ⟨neg, I, F, E⟩
  rcases neg
  · exact parse_number_render I F E rest hwf hrest
  · have hwf' : NumLit.wf ⟨false, I, F, E⟩ := hwf
    have hrend : NumLit.render ⟨true, I, F, E⟩ ++ rest =
        45 :: (NumLit.render ⟨false, I, F, E⟩ ++ rest) := by
      simp [NumLit.render]
    have hcore := parse_number_render I F E rest hwf' hrest
    have hhead : headByte (NumLit.render ⟨false, I, F, E⟩ ++ rest) ≠ 45 := by
      obtain ⟨hInt, _, _, _, _⟩ := hwf'
      simp only at hInt
      obtain ⟨d0, I', hI0⟩ := List.exists_cons_of_ne_nil hInt
      have hsh : NumLit.render ⟨false, I, F, E⟩ ++ rest =
          (d0 + 48) :: (I'.map (· + 48) ++ (fracRender F ++ (expRender E ++ rest))) := by
        simp [NumLit.render, hI0, List.append_assoc]
      rw [hsh, headByte_cons]
      omega
    rw [hrend, parse_number_neg _ hhead, hcore]
    have hv : NumLit.value ⟨true, I, F, E⟩ = -(NumLit.value ⟨false, I, F, E⟩) := by
      simp only [NumLit.value]
      simp
    rw [hv]

/-- C6: for every well-formed numeric literal, the value stored by
`parse_number` equals `sign * mantissa * 10^(scale + exponent)`, where the
mantissa is the integer and fractional digits read as one integer and the
scale counts a negative power of ten per fractional digit; the node stores
this value (`valueDouble`) together with its integer truncation
(`valueInt`). -/
theorem claim_C6 (lit : NumLit) (hwf : lit.wf) (rest : List Nat)
    (hrest : ¬ numCont (headByte rest)) :
    parse_number (lit.render ++ rest) = (lit.value, ratTrunc lit.value, rest) :=
  parse_number_lit lit hwf rest hrest

theorem claim_C6_witness :
    (NumLit.wf ⟨true, [1, 2], some [2, 5], some (false, some true, [1])⟩ ∧
      ¬ numCont (headByte ([] : List Nat))) ∧
    parse_number (NumLit.render ⟨true, [1, 2], some [2, 5], some (false, some true, [1])⟩ ++
        ([] : List Nat)) =
      (NumLit.value ⟨true, [1, 2], some [2, 5], some (false, some true, [1])⟩,
       ratTrunc (NumLit.value ⟨true, [1, 2], some [2, 5], some (false, some true, [1])⟩),
       ([] : List Nat)) := by
  have hwf : NumLit.wf ⟨true, [1, 2], some [2, 5], some (false, some true, [1])⟩ := by
    refine ⟨by simp, by decide, by simp, ?_, ?_⟩
    · intro ds h
      injection h with h
      subst h
      exact ⟨by simp, by decide⟩
    · intro u sgn ds h
      simp only [Option.some.injEq, Prod.mk.injEq] at h
      obtain ⟨h1, h2, h3⟩ := h
      subst h1
      subst h2
      subst h3
      exact ⟨by decide, by simp⟩
  have hrest : ¬ numCont (headByte ([] : List Nat)) := by
    rw [numCont]
    simp
  exact ⟨⟨hwf, hrest⟩, claim_C6 _ hwf [] hrest⟩

/-! ## Whitespace / comment skipper (src/sjson.cpp lines 313-342)

`skip` advances a cursor past bytes ≤ 32, `//` line comments and `/* */`
block comments.  Two views of the same C function are used:

* a position-level version (`skipF`/`skip`) where the cursor is a byte
  index, needed because on an unterminated block comment the C cursor
  moves *past* the terminating NUL (`in += 2` at line 336);
* a suffix-level version (`skipC`), used inside the parser embedding,
  where the cursor is the remaining input and an overrun clamps at the
  empty suffix (every read there yields the NUL byte in both views).

Each loop carries explicit fuel; `l.length + 2` is proved sufficient. -/

/-- The whitespace loop (line 317): `while (in && *in && *in <= 32) ++in`. -/
def skipWsF : Nat → List Nat → Nat → Option Nat
  | 0, _, _ => none
  | fuel + 1, l, p =>
    if 0 < getByte l p ∧ getByte l p ≤ 32 then skipWsF fuel l (p + 1) else some p

/-- The line-comment loop (line 322): advance until NUL, LF or CR. -/
def skipLineF : Nat → List Nat → Nat → Option Nat
  | 0, _, _ => none
  | fuel + 1, l, p =>
    if getByte l p ≠ 0 ∧ getByte l p ≠ 10 ∧ getByte l p ≠ 13 then skipLineF fuel l (p + 1)
    else some p

/-- The star-scan loop inside `find_next` (line 330). -/
def skipStarF : Nat → List Nat → Nat → Option Nat
  | 0, _, _ => none
  | fuel + 1, l, p =>
    if getByte l p ≠ 0 ∧ getByte l p ≠ 42 then skipStarF fuel l (p + 1) else some p

/-- The `find_next` goto-loop of the block-comment branch (lines 329-336):
scan to a `*` (or the NUL), then either resume one byte further or jump two
bytes ahead — even when that lands past the terminating NUL. -/
def findNextF : Nat → List Nat → Nat → Option Nat
  | 0, _, _ => none
  | fuel + 1, l, p =>
    match skipStarF (l.length + 1) l p with
    | none => none
    | some q =>
      if getByte l (q + 1) ≠ 0 ∧ getByte l (q + 1) ≠ 47 then findNextF fuel l (q + 1)
      else some (q + 2)

/-- The outer do-while of `skip` (lines 315-340). -/
def skipF : Nat → List Nat → Nat → Option Nat
  | 0, _, _ => none
  | fuel + 1, l, p =>
    match skipWsF (l.length + 1) l p with
    | none => none
    | some q =>
      if getByte l q ≠ 0 ∧ getByte l q = 47 then
        if getByte l (q + 1) ≠ 0 ∧ getByte l (q + 1) = 47 then
          match skipLineF (l.length + 1) l q with
          | none => none
          | some q2 => skipF fuel l q2
        else if getByte l (q + 1) ≠ 0 ∧ getByte l (q + 1) = 42 then
          match findNextF (l.length + 2) l q with
          | none => none
          | some q2 => skipF fuel l q2
        else some q
      else some q

/-- `skip` from position `p`; `none` would mean the fuel (shown sufficient)
ran out. -/
def skip (l : List Nat) (p : Nat) : Option Nat := skipF (l.length + 2) l p

/-- Suffix view of the whitespace loop. -/
def skipWsC : List Nat → List Nat
  | [] => []
  | c :: t => if 0 < c ∧ c ≤ 32 then skipWsC t else c :: t

/-- Suffix view of the line-comment loop. -/
def skipLineC : List Nat → List Nat
  | [] => []
  | c :: t => if c ≠ 0 ∧ c ≠ 10 ∧ c ≠ 13 then skipLineC t else c :: t

/-- Suffix view of the star-scan loop. -/
def skipStarC : List Nat → List Nat
  | [] => []
  | c :: t => if c ≠ 0 ∧ c ≠ 42 then skipStarC t else c :: t

/-- Suffix view of `find_next`; the `in += 2` clamps at the end of input. -/
def findNextC : Nat → List Nat → List Nat
  | 0, l => l
  | fuel + 1, l =>
    let l2 := skipStarC l
    if headByte (l2.drop 1) ≠ 0 ∧ headByte (l2.drop 1) ≠ 47 then findNextC fuel (l2.drop 1)
    else l2.drop 2

/-- Suffix view of the outer do-while of `skip`. -/
def skipLoopC : Nat → List Nat → List Nat
  | 0, l => l
  | fuel + 1, l =>
    let l1 := skipWsC l
    if headByte l1 = 47 ∧ headByte (l1.drop 1) = 47 then skipLoopC fuel (skipLineC l1)
    else if headByte l1 = 47 ∧ headByte (l1.drop 1) = 42 then
      skipLoopC fuel (findNextC (l1.length + 2) l1)
    else l1

/-- Suffix view of `skip`, used by the parser embedding. -/
def skipC (l : List Nat) : List Nat := skipLoopC (l.length + 2) l

theorem getByte_eq_zero (l : List Nat) (p : Nat) (h : l.length ≤ p) : getByte l p = 0 := by
  rw [getByte, List.getD_eq_default]
  exact h

theorem lt_length_of_getByte_ne_zero (l : List Nat) (p : Nat) (h : getByte l p ≠ 0) :
    p < l.length := by
  by_contra hcon
  push_neg at hcon
  exact h (getByte_eq_zero l p hcon)

theorem skipWsF_spec (l : List Nat) : ∀ fuel p, l.length < fuel + p → 0 < fuel →
    ∃ q, skipWsF fuel l p = some q ∧ p ≤ q ∧ (q ≤ l.length ∨ q = p) ∧
      ¬(0 < getByte l q ∧ getByte l q ≤ 32) := by
  intro fuel
  induction fuel with
  | zero => intro p h1 h2; omega
  | succ fuel ih =>
    intro p h1 h2
    rw [skipWsF]
    by_cases hc : 0 < getByte l p ∧ getByte l p ≤ 32
    · rw [if_pos hc]
      have hplen : p < l.length := lt_length_of_getByte_ne_zero l p (by omega)
      obtain ⟨q, hq, hpq, hqb, hqc⟩ := ih (p + 1) (by omega) (by omega)
      exact ⟨q, hq, by omega, by omega, hqc⟩
    · rw [if_neg hc]
      exact ⟨p, rfl, le_refl p, Or.inr rfl, hc⟩

theorem skipLineF_spec (l : List Nat) : ∀ fuel p, l.length < fuel + p → 0 < fuel →
    ∃ q, skipLineF fuel l p = some q ∧ p ≤ q ∧ (q ≤ l.length ∨ q = p) := by
  intro fuel
  induction fuel with
  | zero => intro p h1 h2; omega
  | succ fuel ih =>
    intro p h1 h2
    rw [skipLineF]
    by_cases hc : getByte l p ≠ 0 ∧ getByte l p ≠ 10 ∧ getByte l p ≠ 13
    · rw [if_pos hc]
      have hplen : p < l.length := lt_length_of_getByte_ne_zero l p hc.1
      obtain ⟨q, hq, hpq, hqb⟩ := ih (p + 1) (by omega) (by omega)
      exact ⟨q, hq, by omega, by omega⟩
    · rw [if_neg hc]
      exact ⟨p, rfl, le_refl p, Or.inr rfl⟩

theorem skipLineF_exit (l : List Nat) : ∀ fuel p q, skipLineF fuel l p = some q →
    getByte l q = 0 ∨ getByte l q = 10 ∨ getByte l q = 13 := by
  intro fuel
  induction fuel with
  | zero => intro p q h; exact absurd h (by rw [skipLineF]; simp)
  | succ fuel ih =>
    intro p q h
    rw [skipLineF] at h
    by_cases hc : getByte l p ≠ 0 ∧ getByte l p ≠ 10 ∧ getByte l p ≠ 13
    · rw [if_pos hc] at h
      exact ih (p + 1) q h
    · rw [if_neg hc] at h
      injection h with h
      subst h
      by_cases h0 : getByte l p = 0
      · exact Or.inl h0
      · rcases Decidable.not_and_iff_or_not.mp hc with h' | h'
        · omega
        · rcases Decidable.not_and_iff_or_not.mp h' with h'' | h'' <;> omega

theorem skipStarF_spec (l : List Nat) : ∀ fuel p, l.length < fuel + p → 0 < fuel →
    p ≤ l.length →
    ∃ q, skipStarF fuel l p = some q ∧ p ≤ q ∧ q ≤ l.length := by
  intro fuel
  induction fuel with
  | zero => intro p h1 h2 h3; omega
  | succ fuel ih =>
    intro p h1 h2 h3
    rw [skipStarF]
    by_cases hc : getByte l p ≠ 0 ∧ getByte l p ≠ 42
    · rw [if_pos hc]
      have hplen : p < l.length := lt_length_of_getByte_ne_zero l p hc.1
      obtain ⟨q, hq, hpq, hqb⟩ := ih (p + 1) (by omega) (by omega) (by omega)
      exact ⟨q, hq, by omega, hqb⟩
    · rw [if_neg hc]
      exact ⟨p, rfl, le_refl p, h3⟩

theorem findNextF_spec (l : List Nat) : ∀ fuel p, l.length < fuel + p → 0 < fuel →
    p ≤ l.length →
    ∃ q, findNextF fuel l p = some q ∧ p + 2 ≤ q ∧ q ≤ l.length + 2 := by
  intro fuel
  induction fuel with
  | zero => intro p h1 h2 h3; omega
  | succ fuel ih =>
    intro p h1 h2 h3
    rw [findNextF]
    obtain ⟨q1, hq1, hpq1, hq1b⟩ :=
      skipStarF_spec l (l.length + 1) p (by omega) (by omega) h3
    rw [hq1]
    dsimp only
    by_cases hc : getByte l (q1 + 1) ≠ 0 ∧ getByte l (q1 + 1) ≠ 47
    · rw [if_pos hc]
      have hlen : q1 + 1 < l.length := lt_length_of_getByte_ne_zero l (q1 + 1) hc.1
      obtain ⟨q, hq, hb1, hb2⟩ := ih (q1 + 1) (by omega) (by omega) (by omega)
      exact ⟨q, hq, by omega, hb2⟩
    · rw [if_neg hc]
      exact ⟨q1 + 2, rfl, by omega, by omega⟩

theorem skipF_spec (l : List Nat) : ∀ fuel p, l.length < fuel + p → 0 < fuel →
    ∃ q, skipF fuel l p = some q ∧ p ≤ q ∧ (q ≤ l.length + 2 ∨ q = p) ∧
      (getByte l q = 0 ∨ 32 < getByte l q) ∧
      ¬(getByte l q = 47 ∧ (getByte l (q + 1) = 47 ∨ getByte l (q + 1) = 42)) := by
  intro fuel
  induction fuel with
  | zero => intro p h1 h2; omega
  | succ fuel ih =>
    intro p h1 h2
    rw [skipF]
    obtain ⟨q1, hq1, hpq1, hq1b, hq1c⟩ := skipWsF_spec l (l.length + 1) p (by omega) (by omega)
    rw [hq1]
    dsimp only
    by_cases hA : getByte l q1 ≠ 0 ∧ getByte l q1 = 47
    · rw [if_pos hA]
      have hq1len : q1 < l.length := lt_length_of_getByte_ne_zero l q1 hA.1
      by_cases hB : getByte l (q1 + 1) ≠ 0 ∧ getByte l (q1 + 1) = 47
      · rw [if_pos hB]
        obtain ⟨q2, hq2, hq2a, hq2b⟩ := skipLineF_spec l (l.length + 1) q1 (by omega) (by omega)
        rw [hq2]
        dsimp only
        have hexit := skipLineF_exit l (l.length + 1) q1 q2 hq2
        have hq2gt : q1 < q2 := by
          rcases Nat.eq_or_lt_of_le hq2a with heq | hlt
          · subst heq
            omega
          · exact hlt
        obtain ⟨q, hq, ha, hb, hc, hd⟩ := ih q2 (by omega) (by omega)
        exact ⟨q, hq, by omega, by omega, hc, hd⟩
      · rw [if_neg hB]
        by_cases hC : getByte l (q1 + 1) ≠ 0 ∧ getByte l (q1 + 1) = 42
        · rw [if_pos hC]
          obtain ⟨q2, hq2, hq2a, hq2b⟩ :=
            findNextF_spec l (l.length + 2) q1 (by omega) (by omega) (by omega)
          rw [hq2]
          dsimp only
          obtain ⟨q, hq, ha, hb, hc, hd⟩ := ih q2 (by omega) (by omega)
          exact ⟨q, hq, by omega, by omega, hc, hd⟩
        · rw [if_neg hC]
          refine ⟨q1, rfl, hpq1, by omega, by omega, ?_⟩
          intro ⟨hx, hy⟩
          rcases hy with hy | hy
          · exact hB ⟨by omega, hy⟩
          · exact hC ⟨by omega, hy⟩
    · rw [if_neg hA]
      refine ⟨q1, rfl, hpq1, by omega, by omega, ?_⟩
      intro ⟨hx, hy⟩
      exact hA ⟨by omega, hx⟩

/-- C9 (amended): for every NUL-terminated input and start position within
it, the skipper terminates, advances monotonically past all whitespace and
comments (no skippable content remains at the result), and its cursor stays
at most TWO bytes past the terminating NUL — but not necessarily within the
input: an unterminated block comment makes `in += 2` step past the NUL (see
the counterexample). -/
theorem claim_C9 (l : List Nat) (p : Nat) (hp : p ≤ l.length) :
    ∃ q, skip l p = some q ∧ p ≤ q ∧ q ≤ l.length + 2 ∧
      (getByte l q = 0 ∨ 32 < getByte l q) ∧
      ¬(getByte l q = 47 ∧ (getByte l (q + 1) = 47 ∨ getByte l (q + 1) = 42)) := by
  obtain ⟨q, hq, ha, hb, hc, hd⟩ := skipF_spec l (l.length + 2) p (by omega) (by omega)
  exact ⟨q, hq, ha, by omega, hc, hd⟩

/-- C9 counterexample: on the unterminated block comment `/*` the skipper
returns position 3, one byte past the terminating NUL (which sits at
position 2 = length), refuting the claim that the cursor always lies within
the input. -/
theorem claim_C9_counterexample :
    skip [47, 42] 0 = some 3 ∧ ¬(3 ≤ ([47, 42] : List Nat).length) := by
  constructor
  · rfl
  · decide

theorem claim_C9_witness :
    (0 ≤ ([32, 47, 47, 65] : List Nat).length) ∧
    ∃ q, skip [32, 47, 47, 65] 0 = some q ∧ 0 ≤ q ∧ q ≤ ([32, 47, 47, 65] : List Nat).length + 2 ∧
      (getByte [32, 47, 47, 65] q = 0 ∨ 32 < getByte [32, 47, 47, 65] q) ∧
      ¬(getByte [32, 47, 47, 65] q = 47 ∧
        (getByte [32, 47, 47, 65] (q + 1) = 47 ∨ getByte [32, 47, 47, 65] (q + 1) = 42)) :=
  ⟨by decide, claim_C9 [32, 47, 47, 65] 0 (by decide)⟩

/-! ## Key index (src/sjson.h line 38, src/sjson.cpp lines 555, 767, 800)

The member-name hash comes from `eastl::murmurString`, whose header is not
part of this repository's sources. -/

/-- Modelled from the spec: `eastl::murmurString` (header `eastl/extra/
murmurhash.h`, not under src/) is described only as "a well-known 32-bit
string hash (order- and case-sensitive)" computed from the NUL-terminated
key text.  Any fixed 32-bit string hash realises that description; the
claims proved here depend only on it being a deterministic function of the
bytes up to the first NUL, never on particular hash values.  A 32-bit
FNV-1a-style fold is used. -/
def murmurString (s : List Nat) : Nat :=
  (s.takeWhile (fun c => c ≠ 0)).foldl
    (fun h c => ((h ^^^ c) * 16777619) % 4294967296) 2166136261

/-! ## Sibling-chain model of array/object children (src/sjson.cpp 694-813)

The traversal and lookup functions (`sJSONgetArraySize`,
`sJSONgetArrayItem`, `sJSONgetObjectItem`, `sJSONaddItemToArray/Object`,
`sJSONdetachItemFromObject`) only ever walk the `child`/`next` chain of one
parent node, so the chain is modelled as the list of its member nodes (in
sibling order); a node keeps its `nameHash` and an abstract `payload`
standing for all remaining fields.  The pointer-level `prev`/`next`
patching of detachment is verified separately in the heap model below. -/

namespace ChainModel

/-- One child node of an array/object: its `nameHash` field and an abstract
payload standing for the type/value fields. -/
structure Node where
  nameHash : Nat
  payload : Nat
deriving DecidableEq

/-- `sJSONgetArraySize` (lines 695-703): count the `child`→`next` chain. -/
def sJSONgetArraySize : List Node → Nat
  | [] => 0
  | _ :: t => sJSONgetArraySize t + 1

/-- `sJSONgetArrayItem` (lines 704-711): walk `next` while `item > 0`;
negative indices are not rejected, the walk just does not start. -/
def sJSONgetArrayItem : List Node → Int → Option Node
  | [], _ => none
  | c :: t, item => if item > 0 then sJSONgetArrayItem t (item - 1) else some c

/-- `sJSONgetObjectItem` (lines 719-724): first child whose `nameHash`
equals the searched hash. -/
def sJSONgetObjectItem : List Node → Nat → Option Node
  | [], _ => none
  | c :: t, h => if c.nameHash ≠ h then sJSONgetObjectItem t h else some c

/-- `sJSONaddItemToArray` (lines 747-758): append at the tail of the child
list. -/
def sJSONaddItemToArray (children : List Node) (item : Node) : List Node :=
  children ++ [item]

/-- `sJSONaddItemToObject` (lines 759-769): set the item's `nameHash` from
the key, then append as for arrays. -/
def sJSONaddItemToObject (children : List Node) (key : List Nat) (item : Node) : List Node :=
  sJSONaddItemToArray children { item with nameHash := murmurString key }

/-- `sJSONdetachItemFromArray` (lines 777-793) at the chain level: walk
`which` steps, unlink the node found (if any) and return it; the heap-level
version below does the pointer patching itself. -/
def sJSONdetachItemFromArray : List Node → Int → List Node × Option Node
  | [], _ => ([], none)
  | c :: t, which =>
    if which > 0 then
      let p := sJSONdetachItemFromArray t (which - 1)
      (c :: p.1, p.2)
    else (t, some c)

/-- The index-scanning loop of `sJSONdetachItemFromObject` (lines 797-808):
find the index of the first hash match. -/
def findIndexHash : List Node → Nat → Option Nat
  | [], _ => none
  | c :: t, h =>
    if c.nameHash ≠ h then (findIndexHash t h).map (· + 1) else some 0

/-- `sJSONdetachItemFromObject` (lines 797-809): find the index of the
first member with the key's hash, then detach by index. -/
def sJSONdetachItemFromObject (children : List Node) (key : List Nat) :
    List Node × Option Node :=
  match findIndexHash children (murmurString key) with
  | some i => sJSONdetachItemFromArray children (i : Int)
  | none => (children, none)

theorem getObjectItem_none (h : Nat) :
    ∀ o : List Node, (∀ m ∈ o, m.nameHash ≠ h) → sJSONgetObjectItem o h = none := by
  intro o
  induction o with
  | nil => intro _; rfl
  | cons m o ih =>
    intro hfresh
    rw [sJSONgetObjectItem, if_pos (hfresh m (by simp))]
    exact ih (fun x hx => hfresh x (by simp [hx]))

theorem getObjectItem_append (h : Nat) (v : Node) (hv : v.nameHash = h) :
    ∀ o : List Node, (∀ m ∈ o, m.nameHash ≠ h) →
      sJSONgetObjectItem (o ++ [v]) h = some v := by
  intro o
  induction o with
  | nil =>
    intro _
    rw [List.nil_append, sJSONgetObjectItem, if_neg (by omega)]
  | cons m o ih =>
    intro hfresh
    rw [List.cons_append, sJSONgetObjectItem, if_pos (hfresh m (by simp))]
    exact ih (fun x hx => hfresh x (by simp [hx]))

theorem findIndexHash_append (h : Nat) (v : Node) (hv : v.nameHash = h) :
    ∀ o : List Node, (∀ m ∈ o, m.nameHash ≠ h) →
      findIndexHash (o ++ [v]) h = some o.length := by
  intro o
  induction o with
  | nil =>
    intro _
    rw [List.nil_append, findIndexHash, if_neg (by omega)]
    rfl
  | cons m o ih =>
    intro hfresh
    rw [List.cons_append, findIndexHash, if_pos (hfresh m (by simp)),
      ih (fun x hx => hfresh x (by simp [hx]))]
    rfl

theorem detach_at_length (v : Node) :
    ∀ o : List Node, sJSONdetachItemFromArray (o ++ [v]) (o.length : Int) = (o, some v) := by
  intro o
  induction o with
  | nil =>
    rw [List.nil_append, sJSONdetachItemFromArray, if_neg (by simp)]
  | cons m o ih =>
    rw [List.cons_append, sJSONdetachItemFromArray,
      if_pos (by simp only [List.length_cons]; push_cast; omega)]
    have harg : ((m :: o).length : Int) - 1 = (o.length : Int) := by
      simp only [List.length_cons]
      push_cast
      ring
    rw [harg, ih]

end ChainModel

/-- C2 counterexample: with a pre-existing member of the same key (duplicate
keys are permitted by this library), the lookup after `addItemToObject`
returns the first, older member (payload 1), not the added node `v`
(payload 2); and after `detachItemFromObject` — which removes only the
first match — the lookup still finds the remaining member rather than
none. -/
theorem claim_C2_counterexample :
    (ChainModel.sJSONgetObjectItem
        (ChainModel.sJSONaddItemToObject [⟨murmurString [107], 1⟩] [107] ⟨0, 2⟩)
        (murmurString [107]) ≠
      some ⟨murmurString [107], 2⟩) ∧
    (ChainModel.sJSONgetObjectItem
        (ChainModel.sJSONdetachItemFromObject
          (ChainModel.sJSONaddItemToObject [⟨murmurString [107], 1⟩] [107] ⟨0, 2⟩)
          [107]).1
        (murmurString [107]) ≠ none) := by
  constructor
  · intro h
    simp [ChainModel.sJSONaddItemToObject, ChainModel.sJSONaddItemToArray,
      ChainModel.sJSONgetObjectItem] at h
  · intro h
    rw [show ChainModel.sJSONgetObjectItem
        (ChainModel.sJSONdetachItemFromObject
          (ChainModel.sJSONaddItemToObject [⟨murmurString [107], 1⟩] [107] ⟨0, 2⟩)
          [107]).1
        (murmurString [107]) = some ⟨murmurString [107], 2⟩ from rfl] at h
    exact Option.noConfusion h

/-- C2 (amended): provided the object has no existing member whose
`nameHash` equals `hash(k)` (in particular no duplicate of the key `k`),
after `sJSONaddItemToObject(o, k, v)` the lookup
`sJSONgetObjectItem(o, hash(k))` yields exactly the added node (`v` with
its `nameHash` field set to `hash(k)`, as the C code mutates `v` in
place), and after `sJSONdetachItemFromObject(o, k)` the same lookup yields
none.  Without that proviso the lookup returns the first matching sibling
instead of `v`, and detachment removes only that first match (see the
counterexample). -/
theorem claim_C2 (o : List ChainModel.Node) (k : List Nat) (v : ChainModel.Node)
    (hfresh : ∀ m ∈ o, m.nameHash ≠ murmurString k) :
    ChainModel.sJSONgetObjectItem (ChainModel.sJSONaddItemToObject o k v)
        (murmurString k) = some { v with nameHash := murmurString k } ∧
    ChainModel.sJSONgetObjectItem
        (ChainModel.sJSONdetachItemFromObject
          (ChainModel.sJSONaddItemToObject o k v) k).1
        (murmurString k) = none := by
  constructor
  · exact ChainModel.getObjectItem_append (murmurString k) _ rfl o hfresh
  · rw [ChainModel.sJSONdetachItemFromObject, ChainModel.sJSONaddItemToObject,
      ChainModel.sJSONaddItemToArray,
      ChainModel.findIndexHash_append (murmurString k) _ rfl o hfresh]
    dsimp only
    rw [ChainModel.detach_at_length _ o]
    exact ChainModel.getObjectItem_none (murmurString k) o hfresh

theorem claim_C2_witness :
    (∀ m ∈ ([⟨5, 7⟩] : List ChainModel.Node), m.nameHash ≠ murmurString [107]) ∧
    ChainModel.sJSONgetObjectItem
        (ChainModel.sJSONaddItemToObject [⟨5, 7⟩] [107] ⟨0, 2⟩) (murmurString [107]) =
      some ⟨murmurString [107], 2⟩ ∧
    ChainModel.sJSONgetObjectItem
        (ChainModel.sJSONdetachItemFromObject
          (ChainModel.sJSONaddItemToObject [⟨5, 7⟩] [107] ⟨0, 2⟩) [107]).1
        (murmurString [107]) = none := by
  have hfresh : ∀ m ∈ ([⟨5, 7⟩] : List ChainModel.Node), m.nameHash ≠ murmurString [107] := by
    decide
  obtain ⟨h1, h2⟩ := claim_C2 [⟨5, 7⟩] [107] ⟨0, 2⟩ hfresh
  exact ⟨hfresh, h1, h2⟩

/-- C10: for every array child chain and index `i ≤ 0`,
`sJSONgetArrayItem` returns the first child (none exactly when the array
is empty) — negative indices are treated like index 0; and for every
`i ≥` the array size it returns none. -/
theorem claim_C10 (a : List ChainModel.Node) (i : Int) :
    (i ≤ 0 → ChainModel.sJSONgetArrayItem a i = a.head?) ∧
    ((a.length : Int) ≤ i → ChainModel.sJSONgetArrayItem a i = none) := by
  constructor
  · intro hi
    cases a with
    | nil => rfl
    | cons c t =>
      rw [ChainModel.sJSONgetArrayItem, if_neg (by omega)]
      rfl
  · intro hi
    induction a generalizing i with
    | nil => rfl
    | cons c t ih =>
      simp only [List.length_cons] at hi
      rw [ChainModel.sJSONgetArrayItem, if_pos (by push_cast at hi; omega)]
      exact ih (i - 1) (by push_cast at hi ⊢; omega)

theorem claim_C10_witness :
    ((-1 : Int) ≤ 0 ∧
      ChainModel.sJSONgetArrayItem [⟨0, 1⟩, ⟨0, 2⟩] (-1) = some ⟨0, 1⟩) ∧
    ((([⟨0, 1⟩, ⟨0, 2⟩] : List ChainModel.Node).length : Int) ≤ 5 ∧
      ChainModel.sJSONgetArrayItem [⟨0, 1⟩, ⟨0, 2⟩] 5 = none) :=
  ⟨⟨by decide, ((claim_C10 [⟨0, 1⟩, ⟨0, 2⟩] (-1)).1 (by decide)).trans rfl⟩,
   ⟨by decide, (claim_C10 [⟨0, 1⟩, ⟨0, 2⟩] 5).2 (by decide)⟩⟩

/-! ## Heap model of the doubly-linked sibling chain (src/sjson.cpp 777-793)

`sJSONdetachItemFromArray` patches raw `prev`/`next` pointers, so it is
verified on a pointer-level model: a heap maps addresses to cells holding
the `next`, `prev` and `child` pointers and an abstract payload for the
remaining fields. -/

namespace HeapModel

/-- A node cell: its three pointers and an abstract payload standing for
the type/value/name fields. -/
structure Cell where
  next : Option Nat
  prev : Option Nat
  child : Option Nat
  payload : Nat
deriving DecidableEq

/-- A heap: a partial map from addresses to cells. -/
def Heap : Type := Nat → Option Cell

/-- Overwrite the cell at one address. -/
def update (h : Heap) (a : Nat) (c : Cell) : Heap :=
  fun x => if x = a then some c else h x

/-- `p->next = v` (no-op on a dangling address, which well-formed chains
never produce). -/
def setNext (h : Heap) (a : Nat) (v : Option Nat) : Heap :=
  match h a with
  | some c => update h a { c with next := v }
  | none => h

/-- `p->prev = v`. -/
def setPrev (h : Heap) (a : Nat) (v : Option Nat) : Heap :=
  match h a with
  | some c => update h a { c with prev := v }
  | none => h

/-- `p->child = v`. -/
def setChild (h : Heap) (a : Nat) (v : Option Nat) : Heap :=
  match h a with
  | some c => update h a { c with child := v }
  | none => h

/-- `c->prev = c->next = 0` (line 791). -/
def clearLinks (h : Heap) (a : Nat) : Heap :=
  match h a with
  | some c => update h a { c with prev := none, next := none }
  | none => h

/-- The `while (c && which > 0) { c = c->next; which--; }` walk
(lines 778-782). -/
def walkChain (h : Heap) : Option Nat → Int → Option Nat
  | none, _ => none
  | some a, which =>
    if which > 0 then
      match h a with
      | some c => walkChain h c.next (which - 1)
      | none => none
    else some a
termination_by _ which => which.toNat
decreasing_by omega

/-- `sJSONdetachItemFromArray` (lines 777-793): walk to the node, patch the
neighbours' `next`/`prev`, the parent's `child` when the head is removed,
clear the detached node's links, and return its address (the node is not
destroyed). -/
def sJSONdetachItemFromArray (h : Heap) (arr : Nat) (which : Int) : Heap × Option Nat :=
  let child0 : Option Nat :=
    match h arr with
    | some ac => ac.child
    | none => none
  match walkChain h child0 which with
  | none => (h, none)
  | some ca =>
    match h ca with
    | none => (h, none)
    | some c =>
      let h1 := match c.prev with
        | some pa => setNext h pa c.next
        | none => h
      let h2 := match c.next with
        | some na => setPrev h1 na c.prev
        | none => h1
      let h3 := if some ca = child0 then setChild h2 arr c.next else h2
      (clearLinks h3 ca, some ca)

/-- `chainSegB h pr s l stop` holds when following `next` from the pointer
`s` visits exactly the addresses `l`, each cell's `prev` pointing back
correctly (the first to `pr`), ending with the pointer `stop`. -/
def chainSegB (h : Heap) : Option Nat → Option Nat → List Nat → Option Nat → Bool
  | _, s, [], stop => s == stop
  | pr, s, a :: rest, stop =>
    (s == some a) &&
      match h a with
      | some c => (c.prev == pr) && chainSegB h (some a) c.next rest stop
      | none => false

/-- A complete child chain: a segment ending in the null pointer. -/
def chainB (h : Heap) (pr s : Option Nat) (l : List Nat) : Bool := chainSegB h pr s l none

/-- The `prev` pointer the element after segment `xs` must carry. -/
def endPrev (pr : Option Nat) (xs : List Nat) : Option Nat :=
  match xs.getLast? with
  | some a => some a
  | none => pr

/-- The pointer at which a list starts (`stop` when it is empty). -/
def startOf (l : List Nat) (stop : Option Nat) : Option Nat :=
  match l with
  | [] => stop
  | a :: _ => some a

@[simp] theorem chainSegB_nil (h : Heap) (pr s stop : Option Nat) :
    chainSegB h pr s [] stop = (s == stop) := rfl

theorem chainSegB_cons (h : Heap) (pr s : Option Nat) (a : Nat) (rest : List Nat)
    (stop : Option Nat) :
    chainSegB h pr s (a :: rest) stop =
      ((s == some a) &&
        match h a with
        | some c => (c.prev == pr) && chainSegB h (some a) c.next rest stop
        | none => false) := rfl

theorem endPrev_cons (pr : Option Nat) (a : Nat) (xs : List Nat) :
    endPrev pr (a :: xs) = endPrev (some a) xs := by
  cases xs with
  | nil => rfl
  | cons b xs2 =>
    rw [endPrev, endPrev, List.getLast?_cons_cons]
    cases hgl : (b :: xs2).getLast? with
    | none => exact absurd hgl (by simp)
    | some x => rfl

/-- A chain segment only looks at the heap on its own addresses. -/
theorem chainSegB_congr (h h2 : Heap) :
    ∀ (l : List Nat) (pr s stop : Option Nat), (∀ a ∈ l, h2 a = h a) →
      chainSegB h2 pr s l stop = chainSegB h pr s l stop := by
  intro l
  induction l with
  | nil => intro pr s stop _; rfl
  | cons a rest ih =>
    intro pr s stop hag
    rw [chainSegB_cons, chainSegB_cons, hag a (by simp)]
    cases h a with
    | none => rfl
    | some c =>
      dsimp only
      rw [ih (some a) c.next stop (fun x hx => hag x (by simp [hx]))]

/-- Splitting a chain segment at a list append. -/
theorem chainSegB_append_elim (h : Heap) :
    ∀ (xs ys : List Nat) (pr s stop : Option Nat),
      chainSegB h pr s (xs ++ ys) stop = true →
      chainSegB h pr s xs (startOf ys stop) = true ∧
        chainSegB h (endPrev pr xs) (startOf ys stop) ys stop = true := by
  intro xs
  induction xs with
  | nil =>
    intro ys pr s stop hch
    rw [List.nil_append] at hch
    have hs : s = startOf ys stop := by
      cases ys with
      | nil => exact eq_of_beq hch
      | cons a rest =>
        rw [chainSegB_cons] at hch
        simp only [Bool.and_eq_true] at hch
        exact eq_of_beq hch.1
    constructor
    · rw [chainSegB_nil, hs]
      simp
    · have hep : endPrev pr ([] : List Nat) = pr := rfl
      rw [hep, ← hs]
      exact hch
  | cons a xs ih =>
    intro ys pr s stop hch
    rw [List.cons_append, chainSegB_cons] at hch
    simp only [Bool.and_eq_true] at hch
    obtain ⟨hs, hrest⟩ := hch
    cases hcell : h a with
    | none => rw [hcell] at hrest; exact absurd hrest (by simp)
    | some c =>
      rw [hcell] at hrest
      dsimp only at hrest
      simp only [Bool.and_eq_true] at hrest
      obtain ⟨hprev, hseg⟩ := hrest
      obtain ⟨h1, h2⟩ := ih ys (some a) c.next stop hseg
      refine ⟨?_, by rw [endPrev_cons]; exact h2⟩
      rw [chainSegB_cons, hcell]
      dsimp only
      rw [h1, hprev, hs]
      rfl

/-- Joining two chain segments into one. -/
theorem chainSegB_append_intro (h : Heap) :
    ∀ (xs ys : List Nat) (pr s stop : Option Nat),
      chainSegB h pr s xs (startOf ys stop) = true →
      chainSegB h (endPrev pr xs) (startOf ys stop) ys stop = true →
      chainSegB h pr s (xs ++ ys) stop = true := by
  intro xs
  induction xs with
  | nil =>
    intro ys pr s stop h1 h2
    rw [List.nil_append]
    have hs : s = startOf ys stop := by
      rw [chainSegB_nil] at h1
      exact eq_of_beq h1
    rw [hs]
    exact h2
  | cons a xs ih =>
    intro ys pr s stop h1 h2
    rw [List.cons_append, chainSegB_cons]
    rw [chainSegB_cons] at h1
    simp only [Bool.and_eq_true] at h1
    obtain ⟨hs, hrest⟩ := h1
    cases hcell : h a with
    | none => rw [hcell] at hrest; exact absurd hrest (by simp)
    | some c =>
      rw [hcell] at hrest
      dsimp only at hrest
      simp only [Bool.and_eq_true] at hrest
      obtain ⟨hprev, hseg⟩ := hrest
      rw [endPrev_cons] at h2
      dsimp only
      rw [ih ys (some a) c.next stop hseg h2, hprev, hs]
      rfl

theorem update_at (h : Heap) (a : Nat) (c : Cell) : update h a c a = some c := by
  rw [update]
  simp

theorem update_ne (h : Heap) (a : Nat) (c : Cell) (x : Nat) (hx : x ≠ a) :
    update h a c x = h x := by
  rw [update]
  simp [hx]

theorem setNext_eq (h : Heap) (a : Nat) (v : Option Nat) :
    setNext h a v = match h a with
      | some c => update h a { c with next := v }
      | none => h := rfl

theorem setPrev_eq (h : Heap) (a : Nat) (v : Option Nat) :
    setPrev h a v = match h a with
      | some c => update h a { c with prev := v }
      | none => h := rfl

theorem setChild_eq (h : Heap) (a : Nat) (v : Option Nat) :
    setChild h a v = match h a with
      | some c => update h a { c with child := v }
      | none => h := rfl

theorem clearLinks_eq (h : Heap) (a : Nat) :
    clearLinks h a = match h a with
      | some c => update h a { c with prev := none, next := none }
      | none => h := rfl

theorem setNext_ne (h : Heap) (a : Nat) (v : Option Nat) (x : Nat) (hx : x ≠ a) :
    setNext h a v x = h x := by
  rw [setNext_eq]
  cases h a with
  | none => rfl
  | some c => exact update_ne h a _ x hx

theorem setNext_at (h : Heap) (a : Nat) (v : Option Nat) (c : Cell) (hc : h a = some c) :
    setNext h a v a = some { c with next := v } := by
  rw [setNext_eq, hc]
  exact update_at h a _

theorem setPrev_ne (h : Heap) (a : Nat) (v : Option Nat) (x : Nat) (hx : x ≠ a) :
    setPrev h a v x = h x := by
  rw [setPrev_eq]
  cases h a with
  | none => rfl
  | some c => exact update_ne h a _ x hx

theorem setPrev_at (h : Heap) (a : Nat) (v : Option Nat) (c : Cell) (hc : h a = some c) :
    setPrev h a v a = some { c with prev := v } := by
  rw [setPrev_eq, hc]
  exact update_at h a _

theorem setChild_ne (h : Heap) (a : Nat) (v : Option Nat) (x : Nat) (hx : x ≠ a) :
    setChild h a v x = h x := by
  rw [setChild_eq]
  cases h a with
  | none => rfl
  | some c => exact update_ne h a _ x hx

theorem setChild_at (h : Heap) (a : Nat) (v : Option Nat) (c : Cell) (hc : h a = some c) :
    setChild h a v a = some { c with child := v } := by
  rw [setChild_eq, hc]
  exact update_at h a _

theorem clearLinks_ne (h : Heap) (a : Nat) (x : Nat) (hx : x ≠ a) :
    clearLinks h a x = h x := by
  rw [clearLinks_eq]
  cases h a with
  | none => rfl
  | some c => exact update_ne h a _ x hx

theorem clearLinks_at (h : Heap) (a : Nat) (c : Cell) (hc : h a = some c) :
    clearLinks h a a = some { c with prev := none, next := none } := by
  rw [clearLinks_eq, hc]
  exact update_at h a _

theorem setNext_keep (h : Heap) (a : Nat) (v : Option Nat) (x : Nat) :
    (setNext h a v x).isSome = (h x).isSome ∧
      (setNext h a v x).map Cell.payload = (h x).map Cell.payload := by
  by_cases hx : x = a
  · subst hx
    rw [setNext_eq]
    cases hc : h x with
    | none => dsimp only; rw [hc]; exact ⟨rfl, rfl⟩
    | some c => dsimp only; rw [update_at]; exact ⟨rfl, rfl⟩
  · rw [setNext_ne h a v x hx]
    exact ⟨rfl, rfl⟩

theorem setPrev_keep (h : Heap) (a : Nat) (v : Option Nat) (x : Nat) :
    (setPrev h a v x).isSome = (h x).isSome ∧
      (setPrev h a v x).map Cell.payload = (h x).map Cell.payload := by
  by_cases hx : x = a
  · subst hx
    rw [setPrev_eq]
    cases hc : h x with
    | none => dsimp only; rw [hc]; exact ⟨rfl, rfl⟩
    | some c => dsimp only; rw [update_at]; exact ⟨rfl, rfl⟩
  · rw [setPrev_ne h a v x hx]
    exact ⟨rfl, rfl⟩

theorem setChild_keep (h : Heap) (a : Nat) (v : Option Nat) (x : Nat) :
    (setChild h a v x).isSome = (h x).isSome ∧
      (setChild h a v x).map Cell.payload = (h x).map Cell.payload := by
  by_cases hx : x = a
  · subst hx
    rw [setChild_eq]
    cases hc : h x with
    | none => dsimp only; rw [hc]; exact ⟨rfl, rfl⟩
    | some c => dsimp only; rw [update_at]; exact ⟨rfl, rfl⟩
  · rw [setChild_ne h a v x hx]
    exact ⟨rfl, rfl⟩

theorem clearLinks_keep (h : Heap) (a : Nat) (x : Nat) :
    (clearLinks h a x).isSome = (h x).isSome ∧
      (clearLinks h a x).map Cell.payload = (h x).map Cell.payload := by
  by_cases hx : x = a
  · subst hx
    rw [clearLinks_eq]
    cases hc : h x with
    | none => dsimp only; rw [hc]; exact ⟨rfl, rfl⟩
    | some c => dsimp only; rw [update_at]; exact ⟨rfl, rfl⟩
  · rw [clearLinks_ne h a x hx]
    exact ⟨rfl, rfl⟩

/-- The `which`-step walk lands on the element after the first `xs.length`
chain entries. -/
theorem walkChain_seg (h : Heap) :
    ∀ (xs : List Nat) (s pr : Option Nat) (y : Nat) (ys : List Nat) (stop : Option Nat),
      chainSegB h pr s (xs ++ y :: ys) stop = true →
      walkChain h s ((xs.length : Nat) : Int) = some y := by
  intro xs
  induction xs with
  | nil =>
    intro s pr y ys stop hch
    rw [List.nil_append, chainSegB_cons] at hch
    simp only [Bool.and_eq_true] at hch
    have hs : s = some y := eq_of_beq hch.1
    subst hs
    rw [walkChain]
    simp
  | cons a xs ih =>
    intro s pr y ys stop hch
    rw [List.cons_append, chainSegB_cons] at hch
    simp only [Bool.and_eq_true] at hch
    obtain ⟨hs, hrest⟩ := hch
    have hs' : s = some a := eq_of_beq hs
    subst hs'
    cases hcell : h a with
    | none => rw [hcell] at hrest; exact absurd hrest (by simp)
    | some c =>
      rw [hcell] at hrest
      dsimp only at hrest
      simp only [Bool.and_eq_true] at hrest
      have hpos : (((a :: xs).length : Nat) : Int) > 0 := by
        simp only [List.length_cons]
        push_cast
        omega
      rw [walkChain, if_pos hpos, hcell]
      have harg : (((a :: xs).length : Nat) : Int) - 1 = ((xs.length : Nat) : Int) := by
        simp only [List.length_cons]
        push_cast
        ring
      rw [harg]
      exact ih c.next (some a) y ys stop hrest.2

/-- Re-pointing the `next` of the last element of a segment. -/
theorem chainSegB_set_last_next (h h2 : Heap) :
    ∀ (xs : List Nat) (la : Nat) (pr s : Option Nat) (y : Nat) (v : Option Nat),
      chainSegB h pr s (xs ++ [la]) (some y) = true →
      (∀ a ∈ xs, h2 a = h a) →
      (∀ cla, h la = some cla → h2 la = some { cla with next := v }) →
      la ∉ xs →
      chainSegB h2 pr s (xs ++ [la]) v = true := by
  intro xs
  induction xs with
  | nil =>
    intro la pr s y v hch _ hla _
    rw [List.nil_append, chainSegB_cons] at hch
    simp only [Bool.and_eq_true] at hch
    obtain ⟨hs, hrest⟩ := hch
    cases hcell : h la with
    | none => rw [hcell] at hrest; exact absurd hrest (by simp)
    | some cla =>
      rw [hcell] at hrest
      dsimp only at hrest
      simp only [Bool.and_eq_true] at hrest
      rw [List.nil_append, chainSegB_cons, hla cla hcell]
      dsimp only
      rw [hs, hrest.1]
      simp
  | cons a xs ih =>
    intro la pr s y v hch hag hla hmem
    rw [List.cons_append, chainSegB_cons] at hch
    simp only [Bool.and_eq_true] at hch
    obtain ⟨hs, hrest⟩ := hch
    cases hcell : h a with
    | none => rw [hcell] at hrest; exact absurd hrest (by simp)
    | some c =>
      rw [hcell] at hrest
      dsimp only at hrest
      simp only [Bool.and_eq_true] at hrest
      obtain ⟨hprev, hseg⟩ := hrest
      rw [List.cons_append, chainSegB_cons, hag a (by simp), hcell]
      dsimp only
      rw [hs, hprev,
        ih la (some a) c.next y v hseg (fun x hx => hag x (by simp [hx])) hla
          (fun hx => hmem (by simp [hx]))]
      rfl

/-- Re-pointing the `prev` of the head of a segment. -/
theorem chainSegB_set_head_prev (h h2 : Heap) (y1 : Nat) (ys : List Nat)
    (oldpr newpr stop : Option Nat)
    (hch : chainSegB h oldpr (some y1) (y1 :: ys) stop = true)
    (hy1 : ∀ cy1, h y1 = some cy1 → h2 y1 = some { cy1 with prev := newpr })
    (hag : ∀ a ∈ ys, h2 a = h a) :
    chainSegB h2 newpr (some y1) (y1 :: ys) stop = true := by
  rw [chainSegB_cons] at hch
  simp only [Bool.and_eq_true] at hch
  obtain ⟨_, hrest⟩ := hch
  cases hcell : h y1 with
  | none => rw [hcell] at hrest; exact absurd hrest (by simp)
  | some cy1 =>
    rw [hcell] at hrest
    dsimp only at hrest
    simp only [Bool.and_eq_true] at hrest
    obtain ⟨_, hseg⟩ := hrest
    rw [chainSegB_cons, hy1 cy1 hcell]
    dsimp only
    rw [chainSegB_congr h h2 ys (some y1) cy1.next stop (fun x hx => hag x hx), hseg]
    simp

theorem endPrev_concat (pr : Option Nat) (zs : List Nat) (la : Nat) :
    endPrev pr (zs ++ [la]) = some la := by
  rw [endPrev, List.getLast?_concat]

/-- The start pointer of a non-empty chain segment is its first address. -/
theorem chainSegB_start_eq (h : Heap) (pr s stop : Option Nat) (a : Nat) (l : List Nat)
    (hch : chainSegB h pr s (a :: l) stop = true) : s = some a := by
  rw [chainSegB_cons] at hch
  simp only [Bool.and_eq_true] at hch
  exact eq_of_beq hch.1

/-- The head of a chain segment is an allocated cell whose `prev` matches. -/
theorem chainSegB_cell (h : Heap) (pr s stop : Option Nat) (a : Nat) (l : List Nat)
    (hch : chainSegB h pr s (a :: l) stop = true) :
    ∃ c, h a = some c ∧ c.prev = pr ∧ chainSegB h (some a) c.next l stop = true := by
  rw [chainSegB_cons] at hch
  simp only [Bool.and_eq_true] at hch
  obtain ⟨_, hrest⟩ := hch
  cases hcell : h a with
  | none => rw [hcell] at hrest; exact absurd hrest (by simp)
  | some c =>
    rw [hcell] at hrest
    dsimp only at hrest
    simp only [Bool.and_eq_true] at hrest
    exact ⟨c, rfl, eq_of_beq hrest.1, hrest.2⟩

/-- `Keeps h h2`: heap `h2` allocates exactly the addresses of `h`, with the
same payloads (only pointer fields may differ). -/
def Keeps (h h2 : Heap) : Prop :=
  ∀ x, (h2 x).isSome = (h x).isSome ∧ (h2 x).map Cell.payload = (h x).map Cell.payload

theorem keeps_id (h : Heap) : Keeps h h := fun _ => ⟨rfl, rfl⟩

theorem keeps_trans {h1 h2 h3 : Heap} (a : Keeps h1 h2) (b : Keeps h2 h3) : Keeps h1 h3 :=
  fun x => ⟨(b x).1.trans (a x).1, (b x).2.trans (a x).2⟩

theorem keeps_setNext (h : Heap) (a : Nat) (v : Option Nat) : Keeps h (setNext h a v) :=
  fun x => setNext_keep h a v x

theorem keeps_setPrev (h : Heap) (a : Nat) (v : Option Nat) : Keeps h (setPrev h a v) :=
  fun x => setPrev_keep h a v x

theorem keeps_setChild (h : Heap) (a : Nat) (v : Option Nat) : Keeps h (setChild h a v) :=
  fun x => setChild_keep h a v x

theorem keeps_clearLinks (h : Heap) (a : Nat) : Keeps h (clearLinks h a) :=
  fun x => clearLinks_keep h a x

/-- Main lemma behind C3: detaching at an index given as the length of the
prefix `xs` of the child chain `xs ++ y :: ys` unlinks exactly `y`. -/
theorem detach_split (h : Heap) (arr : Nat) (ac : Cell) (xs : List Nat) (y : Nat)
    (ys : List Nat)
    (harr : h arr = some ac)
    (hch : chainSegB h none ac.child (xs ++ y :: ys) none = true)
    (hnd : (arr :: (xs ++ y :: ys)).Nodup) :
    ∃ hf cy ac2,
      sJSONdetachItemFromArray h arr (xs.length : Int) = (hf, some y) ∧
      h y = some cy ∧
      hf y = some { cy with prev := none, next := none } ∧
      hf arr = some ac2 ∧
      ac2.payload = ac.payload ∧
      chainB hf none ac2.child (xs ++ ys) = true ∧
      (∀ x, (hf x).isSome = (h x).isSome ∧ (hf x).map Cell.payload = (h x).map Cell.payload) := by
  rw [List.nodup_cons] at hnd
  obtain ⟨harrnot, hnda⟩ := hnd
  rw [List.nodup_append] at hnda
  obtain ⟨hxsnd, hyysnd, hdisj⟩ := hnda
  rw [List.nodup_cons] at hyysnd
  obtain ⟨hyys, hysnd⟩ := hyysnd
  have hyxs : y ∉ xs := fun hm => hdisj hm (List.mem_cons_self y ys)
  have harrxs : ∀ a ∈ xs, arr ≠ a := by
    intro a ha he
    subst he
    exact harrnot (List.mem_append_left _ ha)
  have harrY : arr ≠ y := by
    intro he
    subst he
    exact harrnot (List.mem_append_right _ (List.mem_cons_self arr ys))
  have harrys : ∀ a ∈ ys, arr ≠ a := by
    intro a ha he
    subst he
    exact harrnot (List.mem_append_right _ (List.mem_cons_of_mem y ha))
  have hyarr : y ≠ arr := fun he => harrY he.symm
  obtain ⟨hxsseg, hyseg⟩ := chainSegB_append_elim h xs (y :: ys) none ac.child none hch
  have hSO : startOf (y :: ys) none = some y := rfl
  rw [hSO] at hxsseg hyseg
  obtain ⟨cy, hy, hcyprev, hysseg⟩ := chainSegB_cell h (endPrev none xs) (some y) none y ys hyseg
  have hw : walkChain h ac.child ((xs.length : Nat) : Int) = some y :=
    walkChain_seg h xs ac.child none y ys none hch
  rcases List.eq_nil_or_concat' xs with hxs | ⟨zs, la, hxs⟩
  · subst hxs
    have hacchild : ac.child = some y :=
      chainSegB_start_eq h none ac.child none y ys hch
    have hprev : cy.prev = none := hcyprev
    cases ys with
    | nil =>
      have hnext : cy.next = none := eq_of_beq hysseg
      refine ⟨clearLinks (setChild h arr none) y, cy, { ac with child := none },
        ?_, hy, ?_, ?_, rfl, ?_, ?_⟩
      · simp only [sJSONdetachItemFromArray]
        rw [harr]
        dsimp only
        rw [hw]
        dsimp only
        rw [hy]
        dsimp only
        rw [hprev, hnext]
        dsimp only
        rw [if_pos hacchild.symm]
      · exact clearLinks_at _ y cy (by rw [setChild_ne h arr none y hyarr]; exact hy)
      · rw [clearLinks_ne _ y arr harrY]
        exact setChild_at h arr none ac harr
      · rfl
      · exact keeps_trans (keeps_setChild h arr none) (keeps_clearLinks _ y)
    | cons y1 ys' =>
      have hnext : cy.next = some y1 :=
        chainSegB_start_eq h (some y) cy.next none y1 ys' hysseg
      have hyny1 : y ≠ y1 := by
        intro he
        exact hyys (by rw [he]; exact List.mem_cons_self y1 ys')
      have harry1 : arr ≠ y1 := harrys y1 (List.mem_cons_self y1 ys')
      refine ⟨clearLinks (setChild (setPrev h y1 none) arr (some y1)) y, cy,
        { ac with child := some y1 }, ?_, hy, ?_, ?_, rfl, ?_, ?_⟩
      · simp only [sJSONdetachItemFromArray]
        rw [harr]
        dsimp only
        rw [hw]
        dsimp only
        rw [hy]
        dsimp only
        rw [hprev, hnext]
        dsimp only
        rw [if_pos hacchild.symm]
      · exact clearLinks_at _ y cy
          (by rw [setChild_ne _ arr _ y hyarr, setPrev_ne h y1 none y hyny1]; exact hy)
      · rw [clearLinks_ne _ y arr harrY]
        have h2arr : setPrev h y1 none arr = some ac := by
          rw [setPrev_ne h y1 none arr harry1]
          exact harr
        exact setChild_at _ arr (some y1) ac h2arr
      · have hys2 : chainSegB h (some y) (some y1) (y1 :: ys') none = true := by
          rw [← hnext]
          exact hysseg
        have hy1nd := (List.nodup_cons.mp hysnd).1
        refine chainSegB_set_head_prev h _ y1 ys' (some y) none none hys2 ?_ ?_
        · intro cy1 hcy1
          rw [clearLinks_ne _ y y1 (Ne.symm hyny1), setChild_ne _ arr _ y1 (Ne.symm harry1)]
          exact setPrev_at h y1 none cy1 hcy1
        · intro a ha
          have hane1 : a ≠ y1 := fun he => hy1nd (he ▸ ha)
          have hane2 : a ≠ arr := fun he => harrys a (List.mem_cons_of_mem y1 ha) he.symm
          have hane3 : a ≠ y := fun he =>
            hyys (by rw [← he]; exact List.mem_cons_of_mem y1 ha)
          rw [clearLinks_ne _ y a hane3, setChild_ne _ arr _ a hane2,
            setPrev_ne h y1 none a hane1]
      · exact keeps_trans
          (keeps_trans (keeps_setPrev h y1 none) (keeps_setChild _ arr (some y1)))
          (keeps_clearLinks _ y)
  · subst hxs
    have hprev : cy.prev = some la := by
      rw [hcyprev, endPrev_concat]
    have hlamem : la ∈ zs ++ [la] := List.mem_append_right _ (List.mem_cons_self la [])
    have hyla : y ≠ la := by
      intro he
      exact hyxs (by rw [he]; exact hlamem)
    have harrla : arr ≠ la := harrxs la hlamem
    have hlazs : la ∉ zs := by
      rw [List.nodup_append] at hxsnd
      intro hm
      exact hxsnd.2.2 hm (List.mem_cons_self la [])
    have hx0 : ∃ x0 t, zs ++ [la] = x0 :: t := by
      cases zs with
      | nil => exact ⟨la, [], rfl⟩
      | cons z0 zt => exact ⟨z0, zt ++ [la], rfl⟩
    obtain ⟨x0, t, hx0⟩ := hx0
    have hacchild : ac.child = some x0 := by
      have hxsseg2 := hxsseg
      rw [hx0] at hxsseg2
      exact chainSegB_start_eq h none ac.child (some y) x0 t hxsseg2
    have hyx0 : y ≠ x0 := by
      intro he
      exact hyxs (by rw [hx0, he]; exact List.mem_cons_self x0 t)
    have hne : ¬(some y = ac.child) := by
      rw [hacchild]
      intro he
      exact hyx0 (Option.some.inj he)
    cases ys with
    | nil =>
      have hnext : cy.next = none := eq_of_beq hysseg
      refine ⟨clearLinks (setNext h la none) y, cy, ac, ?_, hy, ?_, ?_, rfl, ?_, ?_⟩
      · simp only [sJSONdetachItemFromArray]
        rw [harr]
        dsimp only
        rw [hw]
        dsimp only
        rw [hy]
        dsimp only
        rw [hprev, hnext]
        dsimp only
        rw [if_neg hne]
      · exact clearLinks_at _ y cy (by rw [setNext_ne h la none y hyla]; exact hy)
      · rw [clearLinks_ne _ y arr harrY, setNext_ne h la none arr harrla]
        exact harr
      · rw [List.append_nil]
        refine chainSegB_set_last_next h _ zs la none ac.child y none hxsseg ?_ ?_ hlazs
        · intro a ha
          have ha1 : a ≠ la := fun he => hlazs (he ▸ ha)
          have ha2 : a ≠ y := fun he =>
            hyxs (by rw [← he]; exact List.mem_append_left _ ha)
          rw [clearLinks_ne _ y a ha2, setNext_ne h la none a ha1]
        · intro cla hcla
          rw [clearLinks_ne _ y la (Ne.symm hyla)]
          exact setNext_at h la none cla hcla
      · exact keeps_trans (keeps_setNext h la none) (keeps_clearLinks _ y)
    | cons y1 ys' =>
      have hnext : cy.next = some y1 :=
        chainSegB_start_eq h (some y) cy.next none y1 ys' hysseg
      have hyny1 : y ≠ y1 := by
        intro he
        exact hyys (by rw [he]; exact List.mem_cons_self y1 ys')
      have harry1 : arr ≠ y1 := harrys y1 (List.mem_cons_self y1 ys')
      have hlay1 : la ≠ y1 := by
        intro he
        exact hdisj hlamem
          (by rw [he]; exact List.mem_cons_of_mem y (List.mem_cons_self y1 ys'))
      have hy1nd := (List.nodup_cons.mp hysnd).1
      refine ⟨clearLinks (setPrev (setNext h la (some y1)) y1 (some la)) y, cy, ac,
        ?_, hy, ?_, ?_, rfl, ?_, ?_⟩
      · simp only [sJSONdetachItemFromArray]
        rw [harr]
        dsimp only
        rw [hw]
        dsimp only
        rw [hy]
        dsimp only
        rw [hprev, hnext]
        dsimp only
        rw [if_neg hne]
      · exact clearLinks_at _ y cy
          (by rw [setPrev_ne _ y1 (some la) y hyny1, setNext_ne h la (some y1) y hyla]
              exact hy)
      · rw [clearLinks_ne _ y arr harrY, setPrev_ne _ y1 (some la) arr harry1,
          setNext_ne h la (some y1) arr harrla]
        exact harr
      · have hSO2 : startOf (y1 :: ys') none = some y1 := rfl
        refine chainSegB_append_intro _ (zs ++ [la]) (y1 :: ys') none ac.child none ?_ ?_
        · rw [hSO2]
          refine chainSegB_set_last_next h _ zs la none ac.child y (some y1) hxsseg
            ?_ ?_ hlazs
          · intro a ha
            have ha1 : a ≠ la := fun he => hlazs (he ▸ ha)
            have ha2 : a ≠ y := fun he =>
              hyxs (by rw [← he]; exact List.mem_append_left _ ha)
            have ha3 : a ≠ y1 := by
              intro he
              exact hdisj (List.mem_append_left _ ha)
                (by rw [he]; exact List.mem_cons_of_mem y (List.mem_cons_self y1 ys'))
            rw [clearLinks_ne _ y a ha2, setPrev_ne _ y1 (some la) a ha3,
              setNext_ne h la (some y1) a ha1]
          · intro cla hcla
            rw [clearLinks_ne _ y la (Ne.symm hyla), setPrev_ne _ y1 (some la) la hlay1]
            exact setNext_at h la (some y1) cla hcla
        · rw [hSO2, endPrev_concat]
          have hys2 : chainSegB h (some y) (some y1) (y1 :: ys') none = true := by
            rw [← hnext]
            exact hysseg
          refine chainSegB_set_head_prev h _ y1 ys' (some y) (some la) none hys2 ?_ ?_
          · intro cy1 hcy1
            rw [clearLinks_ne _ y y1 (Ne.symm hyny1)]
            have hstep : setNext h la (some y1) y1 = some cy1 := by
              rw [setNext_ne h la (some y1) y1 (Ne.symm hlay1)]
              exact hcy1
            exact setPrev_at _ y1 (some la) cy1 hstep
          · intro a ha
            have ha1 : a ≠ y1 := fun he => hy1nd (he ▸ ha)
            have ha2 : a ≠ y := fun he =>
              hyys (by rw [← he]; exact List.mem_cons_of_mem y1 ha)
            have ha3 : a ≠ la := by
              intro he
              exact hdisj hlamem
                (by rw [← he]
                    exact List.mem_cons_of_mem y (List.mem_cons_of_mem y1 ha))
            rw [clearLinks_ne _ y a ha2, setPrev_ne _ y1 (some la) a ha1,
              setNext_ne h la (some y1) a ha3]
      · exact keeps_trans
          (keeps_trans (keeps_setNext h la (some y1)) (keeps_setPrev _ y1 (some la)))
          (keeps_clearLinks _ y)

/-- **C3.** For every heap whose cell at `arr` is an array node with child
chain visiting the distinct addresses `addrs`, and every index
`i < addrs.length`: `sJSONdetachItemFromArray` returns the address of the
`i`-th child; that cell survives with only its `prev`/`next` cleared (it is
not destroyed: every address keeps its allocation status and payload); the
array cell keeps its payload; and the new child chain visits exactly the
original addresses with index `i` removed — the remaining children in their
original relative order, the size dropping by one. -/
theorem claim_C3 (h : Heap) (arr : Nat) (addrs : List Nat) (i : Nat) (ac : Cell)
    (harr : h arr = some ac)
    (hch : chainB h none ac.child addrs = true)
    (hnd : (arr :: addrs).Nodup)
    (hi : i < addrs.length) :
    ∃ hf cy ac2,
      sJSONdetachItemFromArray h arr (i : Int) = (hf, some (addrs.get ⟨i, hi⟩)) ∧
      h (addrs.get ⟨i, hi⟩) = some cy ∧
      hf (addrs.get ⟨i, hi⟩) = some { cy with prev := none, next := none } ∧
      hf arr = some ac2 ∧
      ac2.payload = ac.payload ∧
      chainB hf none ac2.child (addrs.eraseIdx i) = true ∧
      (addrs.eraseIdx i).length = addrs.length - 1 ∧
      (∀ x, (hf x).isSome = (h x).isSome ∧ (hf x).map Cell.payload = (h x).map Cell.payload) := by
  have hdrop : addrs.drop i = addrs.get ⟨i, hi⟩ :: addrs.drop (i + 1) := by
    rw [List.get_eq_getElem]
    exact List.drop_eq_getElem_cons hi
  have hsplit : addrs = addrs.take i ++ addrs.get ⟨i, hi⟩ :: addrs.drop (i + 1) := by
    rw [← hdrop, List.take_append_drop]
  have hxslen : (addrs.take i).length = i := by
    rw [List.length_take]
    exact Nat.min_eq_left (Nat.le_of_lt hi)
  have hch' : chainSegB h none ac.child
      (addrs.take i ++ addrs.get ⟨i, hi⟩ :: addrs.drop (i + 1)) none = true := by
    rw [← hsplit]
    exact hch
  have hnd' : (arr :: (addrs.take i ++ addrs.get ⟨i, hi⟩ :: addrs.drop (i + 1))).Nodup := by
    rw [← hsplit]
    exact hnd
  obtain ⟨hf, cy, ac2, hdet, hycell, hfy, hfarr, hpl, hchain, hkeep⟩ :=
    detach_split h arr ac (addrs.take i) (addrs.get ⟨i, hi⟩) (addrs.drop (i + 1))
      harr hch' hnd'
  rw [hxslen] at hdet
  refine ⟨hf, cy, ac2, hdet, hycell, hfy, hfarr, hpl, ?_, List.length_eraseIdx_of_lt hi, hkeep⟩
  rw [List.eraseIdx_eq_take_drop_succ]
  exact hchain

/-- A concrete four-cell heap: an array node at address 10 whose child chain
is 1 → 2 → 3. -/
def heapW : Heap := fun a =>
  if a = 10 then some ⟨none, none, some 1, 100⟩
  else if a = 1 then some ⟨some 2, none, none, 101⟩
  else if a = 2 then some ⟨some 3, some 1, none, 102⟩
  else if a = 3 then some ⟨none, some 2, none, 103⟩
  else none

theorem claim_C3_witness :
    ∃ hf cy ac2,
      sJSONdetachItemFromArray heapW 10 ((1 : Nat) : Int) = (hf, some 2) ∧
      heapW 2 = some cy ∧
      hf 2 = some { cy with prev := none, next := none } ∧
      hf 10 = some ac2 ∧
      ac2.payload = 100 ∧
      chainB hf none ac2.child [1, 3] = true ∧
      ([(1 : Nat), 3]).length = 2 ∧
      (∀ x, (hf x).isSome = (heapW x).isSome ∧
        (hf x).map Cell.payload = (heapW x).map Cell.payload) := by
  obtain ⟨hf, cy, ac2, h1, h2, h3, h4, h5, h6, _, h8⟩ :=
    claim_C3 heapW 10 [1, 2, 3] 1 ⟨none, none, some 1, 100⟩ rfl (by decide) (by decide)
      (by decide)
  exact ⟨hf, cy, ac2, h1, h2, h3, h4, h5, h6, rfl, h8⟩

end HeapModel

/-! ## The node tree and the value parsers (src/sjson.cpp 345-601)

A node is its type tag with the payload fields that type uses: `num`
stores `valueDouble` (idealised as an exact rational) and `valueInt`
(its integer truncation), `str` stores the decoded `valueString` bytes,
and an object member carries its `nameString` bytes (its `nameHash` is
`murmurString` of those bytes and is recomputable, so it is not stored
separately).  Parsers work on the remaining-suffix view of the input and
return `Except`: `.error e` models the C null return with the
process-wide error pointer `ep` at the suffix `e`.  The mutually
recursive parsers carry explicit fuel (one unit per `parse_value` /
loop-iteration nesting level); fuel exhaustion reports `.error` at the
current position and any fixed input is parsed exactly by every
sufficiently large fuel. -/

mutual
inductive SJson where
  | nullT : SJson
  | falseT : SJson
  | trueT : SJson
  | num : ℚ → Int → SJson
  | str : List Nat → SJson
  | arr : SJsonList → SJson
  | obj : MemberList → SJson

inductive SJsonList where
  | nil : SJsonList
  | cons : SJson → SJsonList → SJsonList

inductive MemberList where
  | nil : MemberList
  | cons : List Nat → SJson → MemberList → MemberList
end

/-- `strncmp(v, lit, lit.length) == 0` for a NUL-free literal `lit`: the
first `lit.length` bytes of `v` equal `lit` (reads past the end of `v`
yield the NUL byte 0, which mismatches every literal byte). -/
def matchLit (v : List Nat) : List Nat → Bool
  | [] => true
  | c :: cs => (headByte v == c) && matchLit v.tail cs

/-- Identifier head byte accepted at line 161: `_`, `a`-`z`, `A`-`Z`. -/
def identHead (c : Nat) : Bool :=
  (c == 95) || (97 ≤ c && c ≤ 122) || (65 ≤ c && c ≤ 90)

/-- Identifier continuation byte (lines 165-168): head bytes or digits
(the `*ptr` NUL check is the byte-0 test, and `identByte 0 = false`). -/
def identByte (c : Nat) : Bool := identHead c || (48 ≤ c && c ≤ 57)

/-- `parse_string_or_identifier` (lines 155-192): a quoted string, or a
bare identifier copied byte-for-byte; anything else records the cursor
in `ep` and fails. -/
def parse_string_or_identifier (l : List Nat) : Except PErr (List Nat × List Nat) :=
  if headByte l = 34 then parse_string l
  else if identHead (headByte l) then
    .ok (l.takeWhile (fun c => identByte c), l.dropWhile (fun c => identByte c))
  else .error (.ep l)

mutual
/-- `parse_value` (lines 377-405): the dispatcher.  In order: the
literals `null`, `false`, `true` by fixed-length prefix comparison, a
number on `-` or a digit, an array on `[`, an object on `{` (consuming
the brace and skipping before the body), a string on `"`; anything else
records the cursor in `ep` and fails. -/
def parse_value : Nat → List Nat → Except PErr (SJson × List Nat)
  | 0, l => .error (.ep l)
  | fuel + 1, l =>
    if matchLit l [110, 117, 108, 108] then .ok (.nullT, l.drop 4)
    else if matchLit l [102, 97, 108, 115, 101] then .ok (.falseT, l.drop 5)
    else if matchLit l [116, 114, 117, 101] then .ok (.trueT, l.drop 4)
    else if headByte l = 45 ∨ (48 ≤ headByte l ∧ headByte l ≤ 57) then
      .ok (.num (parse_number l).1 (parse_number l).2.1, (parse_number l).2.2)
    else if headByte l = 91 then parse_array fuel l
    else if headByte l = 123 then parse_object fuel (skipC (l.drop 1))
    else if headByte l = 34 then
      match parse_string l with
      | .ok (s, rest) => .ok (.str s, rest)
      | .error e => .error e
    else .error (.ep l)

/-- `parse_array` (lines 427-465): `[`, an optional immediate `]`, else
a first value and the element loop.  Line 442 writes
`skip(parse_value(child, skip(value)))`: a NULL from `parse_value` goes
straight into `skip`, which dereferences it (line 319) — `.crash`. -/
def parse_array : Nat → List Nat → Except PErr (SJson × List Nat)
  | 0, l => .error (.ep l)
  | fuel + 1, l =>
    if headByte l = 91 then
      let l1 := skipC (l.drop 1)
      if headByte l1 = 93 then .ok (.arr .nil, l1.drop 1)
      else
        match parse_value fuel (skipC l1) with
        | .error _ => .error .crash
        | .ok (v, l2) =>
          match parse_array_elems fuel (skipC l2) with
          | .error e => .error e
          | .ok (vs, l3) => .ok (.arr (.cons v vs), l3)
    else .error (.ep l)

/-- The element loop of `parse_array` (lines 446-463): until `]`, an
optional comma then the next value.  Lines 453-458 again feed the
`parse_value` result to `skip` with no null guard — `.crash` on
failure. -/
def parse_array_elems : Nat → List Nat → Except PErr (SJsonList × List Nat)
  | 0, l => .error (.ep l)
  | fuel + 1, l =>
    if headByte l = 93 then .ok (.nil, l.drop 1)
    else
      match parse_value fuel (skipC (if headByte l = 44 then l.drop 1 else l)) with
      | .error _ => .error .crash
      | .ok (v, l2) =>
        match parse_array_elems fuel (skipC l2) with
        | .error e => .error e
        | .ok (vs, l3) => .ok (.cons v vs, l3)

/-- `parse_object` (lines 538-601).  The opening brace is consumed by
the caller (the line-543 check is commented out in the source); an
immediate `}` gives the empty object, else a first name (string or
identifier), `:` or `=`, a value, and the member loop.  Lines 552 and
564 pass the results of `parse_string_or_identifier` and `parse_value`
to `skip` without a null guard, so a failing name or value is a
`.crash`; only the missing-colon failure (`ep = value; return 0`)
returns cleanly. -/
def parse_object : Nat → List Nat → Except PErr (SJson × List Nat)
  | 0, l => .error (.ep l)
  | fuel + 1, l =>
    if headByte l = 125 then .ok (.obj .nil, l.drop 1)
    else
      match parse_string_or_identifier (skipC l) with
      | .error _ => .error .crash
      | .ok (name, r1) =>
        let l2 := skipC r1
        if headByte l2 = 58 ∨ headByte l2 = 61 then
          match parse_value fuel (skipC (l2.drop 1)) with
          | .error _ => .error .crash
          | .ok (v, r2) =>
            match parse_object_members fuel (skipC r2) with
            | .error e => .error e
            | .ok (ms, r3) => .ok (.obj (.cons name v ms), r3)
        else .error (.ep l2)

/-- The member loop of `parse_object` (lines 567-600): until `}`
(consumed) or the NUL at file end (not consumed), an optional comma then
the next name, `:` or `=`, and value.  As in the first iteration, lines
576-578 and 590-592 feed failing results to `skip` — `.crash`. -/
def parse_object_members : Nat → List Nat → Except PErr (MemberList × List Nat)
  | 0, l => .error (.ep l)
  | fuel + 1, l =>
    if headByte l = 125 then .ok (.nil, l.drop 1)
    else if headByte l = 0 then .ok (.nil, l)
    else
      match parse_string_or_identifier (skipC (if headByte l = 44 then l.drop 1 else l)) with
      | .error _ => .error .crash
      | .ok (name, r1) =>
        let l2 := skipC r1
        if headByte l2 = 58 ∨ headByte l2 = 61 then
          match parse_value fuel (skipC (l2.drop 1)) with
          | .error _ => .error .crash
          | .ok (v, r2) =>
            match parse_object_members fuel (skipC r2) with
            | .error e => .error e
            | .ok (ms, r3) => .ok (.cons name v ms, r3)
        else .error (.ep l2)
end

/-- `sJSONparse` (lines 345-364): reset `ep`, skip, then: a standard
document (`{` or `[` after skipping) goes through `parse_value`, any
other start is taken as an old-style brace-less object body. -/
def sJSONparse (fuel : Nat) (l : List Nat) : Except PErr (SJson × List Nat) :=
  let l1 := skipC l
  if headByte l1 = 123 ∨ headByte l1 = 91 then parse_value fuel (skipC l1)
  else parse_object fuel (skipC l1)

theorem matchLit_head_ne (l : List Nat) (c : Nat) (cs : List Nat) (h : headByte l ≠ c) :
    ¬ matchLit l (c :: cs) = true := by
  rw [matchLit]
  cases hb : (headByte l == c) with
  | false => rw [Bool.false_and]; exact Bool.false_ne_true
  | true => exact absurd (eq_of_beq hb) h

/-- C4: the `parse_value` dispatcher matches, in order: the literal
keywords `null`, `false`, `true` by fixed-length prefix comparison with
no check that a word boundary follows (an arbitrary continuation `rest`,
even an identifier byte, is left unconsumed); then a number when the
next byte is `-` or a digit; then an array on `[`; then an object on `{`
(the brace consumed, the body skipped); then a string on `"`; for any
other next byte it fails, recording the failing cursor (the `Except`
error payload models the process-wide `ep`). -/
theorem claim_C4 (fuel : Nat) (l rest : List Nat) :
    (parse_value (fuel + 1) ([110, 117, 108, 108] ++ rest) = .ok (.nullT, rest)) ∧
    (parse_value (fuel + 1) ([102, 97, 108, 115, 101] ++ rest) = .ok (.falseT, rest)) ∧
    (parse_value (fuel + 1) ([116, 114, 117, 101] ++ rest) = .ok (.trueT, rest)) ∧
    (headByte l = 45 ∨ (48 ≤ headByte l ∧ headByte l ≤ 57) →
      parse_value (fuel + 1) l =
        .ok (.num (parse_number l).1 (parse_number l).2.1, (parse_number l).2.2)) ∧
    (headByte l = 91 → parse_value (fuel + 1) l = parse_array fuel l) ∧
    (headByte l = 123 → parse_value (fuel + 1) l = parse_object fuel (skipC (l.drop 1))) ∧
    (headByte l = 34 → parse_value (fuel + 1) l =
      (match parse_string l with
       | .ok (s, r) => .ok (.str s, r)
       | .error e => .error e)) ∧
    (¬ matchLit l [110, 117, 108, 108] = true → ¬ matchLit l [102, 97, 108, 115, 101] = true →
      ¬ matchLit l [116, 114, 117, 101] = true →
      headByte l ≠ 45 → ¬ (48 ≤ headByte l ∧ headByte l ≤ 57) →
      headByte l ≠ 91 → headByte l ≠ 123 → headByte l ≠ 34 →
      parse_value (fuel + 1) l = .error (.ep l)) := by
  refine ⟨rfl, rfl, rfl, ?_, ?_, ?_, ?_, ?_⟩
  · intro h
    rw [parse_value,
      if_neg (matchLit_head_ne l 110 _ (by omega)),
      if_neg (matchLit_head_ne l 102 _ (by omega)),
      if_neg (matchLit_head_ne l 116 _ (by omega)),
      if_pos h]
  · intro h
    rw [parse_value,
      if_neg (matchLit_head_ne l 110 _ (by omega)),
      if_neg (matchLit_head_ne l 102 _ (by omega)),
      if_neg (matchLit_head_ne l 116 _ (by omega)),
      if_neg (by omega), if_pos h]
  · intro h
    rw [parse_value,
      if_neg (matchLit_head_ne l 110 _ (by omega)),
      if_neg (matchLit_head_ne l 102 _ (by omega)),
      if_neg (matchLit_head_ne l 116 _ (by omega)),
      if_neg (by omega), if_neg (by omega), if_pos h]
  · intro h
    rw [parse_value,
      if_neg (matchLit_head_ne l 110 _ (by omega)),
      if_neg (matchLit_head_ne l 102 _ (by omega)),
      if_neg (matchLit_head_ne l 116 _ (by omega)),
      if_neg (by omega), if_neg (by omega), if_neg (by omega), if_pos h]
  · intro h1 h2 h3 h4 h5 h6 h7 h8
    rw [parse_value, if_neg h1, if_neg h2, if_neg h3, if_neg (by omega),
      if_neg h6, if_neg h7, if_neg h8]

theorem claim_C4_witness :
    parse_value 6 ([110, 117, 108, 108] ++ [120, 121]) = .ok (.nullT, [120, 121]) ∧
    parse_value 6 [53, 93] =
      .ok (.num (parse_number [53, 93]).1 (parse_number [53, 93]).2.1,
        (parse_number [53, 93]).2.2) ∧
    parse_value 6 [64, 65] = .error (.ep [64, 65]) := by
  obtain ⟨p1, _, _, p4, _, _, _, p8⟩ := claim_C4 5 [64, 65] [120, 121]
  obtain ⟨_, _, _, q4, _, _, _, _⟩ := claim_C4 5 [53, 93] []
  exact ⟨p1, q4 (by decide),
    p8 (by decide) (by decide) (by decide) (by decide) (by decide) (by decide)
      (by decide) (by decide)⟩

/-! ### Rest and error positions are suffixes of the input (for C5)

Every parser returns, in both the success rest and the `ep` error
payload, a suffix of its input: positions only ever move forward. -/

theorem suffix_cons_lift {l t : List Nat} (a : Nat) (h : l <:+ t) : l <:+ a :: t :=
  h.trans (List.suffix_cons a t)

theorem skipWsC_suffix : ∀ l : List Nat, skipWsC l <:+ l := by
  intro l
  induction l with
  | nil => exact List.suffix_refl []
  | cons c t ih =>
    rw [skipWsC]
    by_cases hc : 0 < c ∧ c ≤ 32
    · rw [if_pos hc]
      exact suffix_cons_lift c ih
    · rw [if_neg hc]

theorem skipLineC_suffix : ∀ l : List Nat, skipLineC l <:+ l := by
  intro l
  induction l with
  | nil => exact List.suffix_refl []
  | cons c t ih =>
    rw [skipLineC]
    by_cases hc : c ≠ 0 ∧ c ≠ 10 ∧ c ≠ 13
    · rw [if_pos hc]
      exact suffix_cons_lift c ih
    · rw [if_neg hc]

theorem skipStarC_suffix : ∀ l : List Nat, skipStarC l <:+ l := by
  intro l
  induction l with
  | nil => exact List.suffix_refl []
  | cons c t ih =>
    rw [skipStarC]
    by_cases hc : c ≠ 0 ∧ c ≠ 42
    · rw [if_pos hc]
      exact suffix_cons_lift c ih
    · rw [if_neg hc]

theorem findNextC_suffix : ∀ (fuel : Nat) (l : List Nat), findNextC fuel l <:+ l := by
  intro fuel
  induction fuel with
  | zero => intro l; exact List.suffix_refl l
  | succ fuel ih =>
    intro l
    rw [findNextC]
    by_cases hc : headByte ((skipStarC l).drop 1) ≠ 0 ∧ headByte ((skipStarC l).drop 1) ≠ 47
    · rw [if_pos hc]
      exact (ih _).trans ((List.drop_suffix 1 _).trans (skipStarC_suffix l))
    · rw [if_neg hc]
      exact (List.drop_suffix 2 _).trans (skipStarC_suffix l)

theorem skipLoopC_suffix : ∀ (fuel : Nat) (l : List Nat), skipLoopC fuel l <:+ l := by
  intro fuel
  induction fuel with
  | zero => intro l; exact List.suffix_refl l
  | succ fuel ih =>
    intro l
    rw [skipLoopC]
    by_cases h1 : headByte (skipWsC l) = 47 ∧ headByte ((skipWsC l).drop 1) = 47
    · rw [if_pos h1]
      exact (ih _).trans ((skipLineC_suffix _).trans (skipWsC_suffix l))
    · rw [if_neg h1]
      by_cases h2 : headByte (skipWsC l) = 47 ∧ headByte ((skipWsC l).drop 1) = 42
      · rw [if_pos h2]
        exact (ih _).trans ((findNextC_suffix _ _).trans (skipWsC_suffix l))
      · rw [if_neg h2]
        exact skipWsC_suffix l

theorem skipC_suffix (l : List Nat) : skipC l <:+ l := skipLoopC_suffix (l.length + 2) l

theorem digitsLoop_suffix : ∀ (l : List Nat) (n : ℚ), (digitsLoop n l).2 <:+ l := by
  intro l
  induction l with
  | nil => intro n; exact List.suffix_refl []
  | cons c t ih =>
    intro n
    rw [digitsLoop]
    by_cases hc : 48 ≤ c ∧ c ≤ 57
    · rw [if_pos hc]
      exact suffix_cons_lift c (ih _)
    · rw [if_neg hc]

theorem fracDigitsLoop_suffix : ∀ (l : List Nat) (n : ℚ) (sc : Int),
    (fracDigitsLoop n sc l).2.2 <:+ l := by
  intro l
  induction l with
  | nil => intro n sc; exact List.suffix_refl []
  | cons c t ih =>
    intro n sc
    rw [fracDigitsLoop]
    by_cases hc : 48 ≤ c ∧ c ≤ 57
    · rw [if_pos hc]
      exact suffix_cons_lift c (ih _ _)
    · rw [if_neg hc]

theorem fracLoop_suffix (l : List Nat) (n : ℚ) (sc : Int) : (fracLoop n sc l).2.2 <:+ l := by
  cases l with
  | nil => exact List.suffix_refl _
  | cons c t =>
    rw [fracLoop]
    exact suffix_cons_lift c (fracDigitsLoop_suffix t _ _)

theorem expLoop_suffix : ∀ (l : List Nat) (sub : Int), (expLoop sub l).2 <:+ l := by
  intro l
  induction l with
  | nil => intro sub; exact List.suffix_refl []
  | cons c t ih =>
    intro sub
    rw [expLoop]
    by_cases hc : 48 ≤ c ∧ c ≤ 57
    · rw [if_pos hc]
      exact suffix_cons_lift c (ih _)
    · rw [if_neg hc]

theorem expStage_suffix (l : List Nat) : (expStage l).2.2 <:+ l := by
  rw [expStage]
  by_cases h1 : headByte l = 101 ∨ headByte l = 69
  · rw [if_pos h1]
    by_cases h2 : headByte l.tail = 43
    · rw [if_pos h2]
      dsimp only
      exact (expLoop_suffix _ _).trans ((List.tail_suffix _).trans (List.tail_suffix l))
    · rw [if_neg h2]
      by_cases h3 : headByte l.tail = 45
      · rw [if_pos h3]
        dsimp only
        exact (expLoop_suffix _ _).trans ((List.tail_suffix _).trans (List.tail_suffix l))
      · rw [if_neg h3]
        dsimp only
        exact (expLoop_suffix _ _).trans (List.tail_suffix l)
  · rw [if_neg h1]

theorem numStage1_suffix (num : List Nat) :
    (if headByte num = 45 then ((-1 : ℚ), num.tail) else ((1 : ℚ), num)).2 <:+ num := by
  by_cases hc : headByte num = 45
  · rw [if_pos hc]
    exact List.tail_suffix num
  · rw [if_neg hc]

theorem numStage2_suffix (l : List Nat) :
    (if headByte l = 48 then l.tail else l) <:+ l := by
  by_cases hc : headByte l = 48
  · rw [if_pos hc]
    exact List.tail_suffix l
  · rw [if_neg hc]

theorem numStage3_suffix (l : List Nat) :
    (if 49 ≤ headByte l ∧ headByte l ≤ 57 then digitsLoop 0 l else ((0 : ℚ), l)).2 <:+ l := by
  by_cases hc : 49 ≤ headByte l ∧ headByte l ≤ 57
  · rw [if_pos hc]
    exact digitsLoop_suffix l 0
  · rw [if_neg hc]

theorem numStage4_suffix (q : ℚ) (l : List Nat) :
    (if headByte l = 46 then fracLoop q 0 l.tail else (q, (0 : Int), l)).2.2 <:+ l := by
  by_cases hc : headByte l = 46
  · rw [if_pos hc]
    exact (fracLoop_suffix l.tail q 0).trans (List.tail_suffix l)
  · rw [if_neg hc]

theorem parse_number_suffix (num : List Nat) : (parse_number num).2.2 <:+ num := by
  rw [parse_number]
  exact (expStage_suffix _).trans ((numStage4_suffix _ _).trans
    ((numStage3_suffix _).trans ((numStage2_suffix _).trans (numStage1_suffix num))))

theorem map_pre_rem (o : Option (List Nat × List Nat)) (g : List Nat → List Nat)
    (out rem : List Nat)
    (h : o.map (fun p => (g p.1, p.2)) = some (out, rem)) :
    ∃ o1, o = some (o1, rem) := by
  cases o with
  | none => exact absurd h (by simp)
  | some p =>
    obtain ⟨o1, r1⟩ := p
    simp only [Option.map_some'] at h
    injection h with h
    injection h with h1 h2
    subst h2
    exact ⟨o1, rfl⟩

theorem parse_string_loop_suffix :
    ∀ (n : Nat) (l : List Nat), l.length ≤ n → ∀ out rem,
      parse_string_loop l = some (out, rem) → rem <:+ l := by
  intro n
  induction n with
  | zero =>
    intro l hl out rem h
    have hnil : l = [] := List.eq_nil_of_length_eq_zero (Nat.le_zero.mp hl)
    subst hnil
    rw [parse_string_loop] at h
    injection h with h
    injection h with h1 h2
    subst h2
    exact List.suffix_refl []
  | succ n ih =>
    intro l hl out rem h
    match l, hl, h with
    | [], hl, h =>
      rw [parse_string_loop] at h
      injection h with h
      injection h with h1 h2
      subst h2
      exact List.suffix_refl []
    | c :: rest, hl, h =>
      rw [parse_string_loop.eq_def] at h
      dsimp only at h
      by_cases h34 : c = 34
      · rw [if_pos h34] at h
        injection h with h
        injection h with h1 h2
        subst h2
        exact List.suffix_cons c rest
      · rw [if_neg h34] at h
        by_cases h92 : c = 92
        · rw [if_pos h92] at h
          match rest, hl, h with
          | [], hl, h => exact Option.noConfusion h
          | e :: rest2, hl, h =>
            dsimp only at h
            have hlen2 : rest2.length ≤ n := by
              simp only [List.length_cons] at hl
              omega
            by_cases he1 : e = 98
            · rw [if_pos he1] at h
              obtain ⟨o1, hrec⟩ := map_pre_rem _ _ _ _ h
              exact suffix_cons_lift c (suffix_cons_lift e (ih rest2 hlen2 o1 rem hrec))
            · rw [if_neg he1] at h
              by_cases he2 : e = 102
              · rw [if_pos he2] at h
                obtain ⟨o1, hrec⟩ := map_pre_rem _ _ _ _ h
                exact suffix_cons_lift c (suffix_cons_lift e (ih rest2 hlen2 o1 rem hrec))
              · rw [if_neg he2] at h
                by_cases he3 : e = 110
                · rw [if_pos he3] at h
                  obtain ⟨o1, hrec⟩ := map_pre_rem _ _ _ _ h
                  exact suffix_cons_lift c (suffix_cons_lift e (ih rest2 hlen2 o1 rem hrec))
                · rw [if_neg he3] at h
                  by_cases he4 : e = 114
                  · rw [if_pos he4] at h
                    obtain ⟨o1, hrec⟩ := map_pre_rem _ _ _ _ h
                    exact suffix_cons_lift c (suffix_cons_lift e (ih rest2 hlen2 o1 rem hrec))
                  · rw [if_neg he4] at h
                    by_cases he5 : e = 116
                    · rw [if_pos he5] at h
                      obtain ⟨o1, hrec⟩ := map_pre_rem _ _ _ _ h
                      exact suffix_cons_lift c (suffix_cons_lift e (ih rest2 hlen2 o1 rem hrec))
                    · rw [if_neg he5] at h
                      by_cases he6 : e = 117
                      · rw [if_pos he6] at h
                        match rest2, hlen2, h with
                        | [], _, h => exact Option.noConfusion h
                        | [k1], _, h => exact Option.noConfusion h
                        | [k1, k2], _, h => exact Option.noConfusion h
                        | [k1, k2, k3], _, h => exact Option.noConfusion h
                        | k1 :: k2 :: k3 :: k4 :: rest6, hlen2, h =>
                          dsimp only at h
                          have hlen6 : rest6.length ≤ n := by
                            simp only [List.length_cons] at hlen2
                            omega
                          rcases hd1 : hexDigit k1 with _ | d1 <;> rw [hd1] at h
                          · exact Option.noConfusion h
                          rcases hd2 : hexDigit k2 with _ | d2 <;> rw [hd2] at h
                          · exact Option.noConfusion h
                          rcases hd3 : hexDigit k3 with _ | d3 <;> rw [hd3] at h
                          · exact Option.noConfusion h
                          rcases hd4 : hexDigit k4 with _ | d4 <;> rw [hd4] at h
                          · exact Option.noConfusion h
                          obtain ⟨o1, hrec⟩ := map_pre_rem _ _ _ _ h
                          exact suffix_cons_lift c (suffix_cons_lift e (suffix_cons_lift k1
                            (suffix_cons_lift k2 (suffix_cons_lift k3 (suffix_cons_lift k4
                              (ih rest6 hlen6 o1 rem hrec))))))
                      · rw [if_neg he6] at h
                        obtain ⟨o1, hrec⟩ := map_pre_rem _ _ _ _ h
                        exact suffix_cons_lift c
                          (suffix_cons_lift e (ih rest2 hlen2 o1 rem hrec))
        · rw [if_neg h92] at h
          have hlen1 : rest.length ≤ n := by
            simp only [List.length_cons] at hl
            omega
          obtain ⟨o1, hrec⟩ := map_pre_rem _ _ _ _ h
          exact suffix_cons_lift c (ih rest hlen1 o1 rem hrec)

theorem parse_string_ok_suffix (l s r : List Nat) (h : parse_string l = .ok (s, r)) :
    r <:+ l := by
  rw [parse_string] at h
  by_cases h34 : headByte l = 34
  · rw [if_pos h34] at h
    cases hps : parse_string_loop l.tail with
    | none => rw [hps] at h; exact Except.noConfusion h
    | some p =>
      obtain ⟨out, rem⟩ := p
      rw [hps] at h
      dsimp only at h
      injection h with h
      injection h with h1 h2
      have hsuf := (parse_string_loop_suffix l.tail.length l.tail (Nat.le_refl _) out rem
        hps).trans (List.tail_suffix l)
      rw [h2] at hsuf
      exact hsuf
  · rw [if_neg h34] at h
    exact Except.noConfusion h

theorem parse_string_err_suffix (l e : List Nat) (h : parse_string l = .error (.ep e)) :
    e <:+ l := by
  rw [parse_string] at h
  by_cases h34 : headByte l = 34
  · rw [if_pos h34] at h
    cases hps : parse_string_loop l.tail with
    | none =>
      rw [hps] at h
      dsimp only at h
      injection h with h
      injection h with h
      subst h
      exact List.suffix_refl l
    | some p =>
      obtain ⟨out, rem⟩ := p
      rw [hps] at h
      dsimp only at h
      exact Except.noConfusion h
  · rw [if_neg h34] at h
    injection h with h
    injection h with h
    subst h
    exact List.suffix_refl l

theorem psoi_ok_suffix (l name r : List Nat)
    (h : parse_string_or_identifier l = .ok (name, r)) : r <:+ l := by
  rw [parse_string_or_identifier] at h
  by_cases h34 : headByte l = 34
  · rw [if_pos h34] at h
    exact parse_string_ok_suffix l name r h
  · rw [if_neg h34] at h
    by_cases hid : identHead (headByte l) = true
    · rw [if_pos hid] at h
      injection h with h
      injection h with h1 h2
      subst h2
      exact List.dropWhile_suffix _
    · rw [if_neg hid] at h
      exact Except.noConfusion h

theorem psoi_err_suffix (l e : List Nat)
    (h : parse_string_or_identifier l = .error (.ep e)) : e <:+ l := by
  rw [parse_string_or_identifier] at h
  by_cases h34 : headByte l = 34
  · rw [if_pos h34] at h
    exact parse_string_err_suffix l e h
  · rw [if_neg h34] at h
    by_cases hid : identHead (headByte l) = true
    · rw [if_pos hid] at h
      exact Except.noConfusion h
    · rw [if_neg hid] at h
      injection h with h
      injection h with h
      subst h
      exact List.suffix_refl l

/-- The outcomes of a parser seen as one predicate: the returned rest
(after a success) or the recorded `ep` position (after a clean failure)
is a suffix of `l`; a `.crash` constrains nothing — undefined behaviour
leaves no cursor to speak about. -/
def SuffView {α : Type} (l : List Nat) : Except PErr (α × List Nat) → Prop
  | .ok (_, r) => r <:+ l
  | .error (.ep e) => e <:+ l
  | .error .crash => True

theorem SuffView_mono {α : Type} {l1 l2 : List Nat}
    {res : Except PErr (α × List Nat)} (hsub : l1 <:+ l2)
    (h : SuffView l1 res) : SuffView l2 res := by
  cases res with
  | ok p =>
    obtain ⟨v, r⟩ := p
    exact List.IsSuffix.trans h hsub
  | error e =>
    cases e with
    | ep e => exact List.IsSuffix.trans h hsub
    | crash => trivial

/-- Every cursor any of the five mutually recursive parsers reports —
the rest after a success or the `ep` position after a failure — is a
suffix of that parser's input. -/
theorem parse_suffix : ∀ fuel : Nat,
    (∀ l, SuffView l (parse_value fuel l)) ∧
    (∀ l, SuffView l (parse_array fuel l)) ∧
    (∀ l, SuffView l (parse_array_elems fuel l)) ∧
    (∀ l, SuffView l (parse_object fuel l)) ∧
    (∀ l, SuffView l (parse_object_members fuel l)) := by
  intro fuel
  induction fuel with
  | zero =>
    exact ⟨fun l => List.suffix_refl l, fun l => List.suffix_refl l,
      fun l => List.suffix_refl l, fun l => List.suffix_refl l,
      fun l => List.suffix_refl l⟩
  | succ fuel ih =>
    obtain ⟨ihV, ihA, ihAE, ihO, ihM⟩ := ih
    refine ⟨?_, ?_, ?_, ?_, ?_⟩
    · -- parse_value
      intro l
      rw [parse_value]
      by_cases m1 : matchLit l [110, 117, 108, 108] = true
      · rw [if_pos m1]
        exact List.drop_suffix 4 l
      · rw [if_neg m1]
        by_cases m2 : matchLit l [102, 97, 108, 115, 101] = true
        · rw [if_pos m2]
          exact List.drop_suffix 5 l
        · rw [if_neg m2]
          by_cases m3 : matchLit l [116, 114, 117, 101] = true
          · rw [if_pos m3]
            exact List.drop_suffix 4 l
          · rw [if_neg m3]
            by_cases m4 : headByte l = 45 ∨ (48 ≤ headByte l ∧ headByte l ≤ 57)
            · rw [if_pos m4]
              exact parse_number_suffix l
            · rw [if_neg m4]
              by_cases m5 : headByte l = 91
              · rw [if_pos m5]
                exact ihA l
              · rw [if_neg m5]
                by_cases m6 : headByte l = 123
                · rw [if_pos m6]
                  exact SuffView_mono
                    ((skipC_suffix _).trans (List.drop_suffix 1 l))
                    (ihO (skipC (l.drop 1)))
                · rw [if_neg m6]
                  by_cases m7 : headByte l = 34
                  · rw [if_pos m7]
                    cases hps : parse_string l with
                    | ok p =>
                      obtain ⟨s, r⟩ := p
                      dsimp only
                      exact parse_string_ok_suffix l s r hps
                    | error e =>
                      dsimp only
                      cases e with
                      | ep e => exact parse_string_err_suffix l e hps
                      | crash => exact trivial
                  · rw [if_neg m7]
                    exact List.suffix_refl l
    · -- parse_array
      intro l
      rw [parse_array]
      dsimp only
      by_cases m1 : headByte l = 91
      · rw [if_pos m1]
        by_cases m2 : headByte (skipC (l.drop 1)) = 93
        · rw [if_pos m2]
          exact (List.drop_suffix 1 _).trans
            ((skipC_suffix _).trans (List.drop_suffix 1 l))
        · rw [if_neg m2]
          have hin1 : skipC (skipC (l.drop 1)) <:+ l :=
            (skipC_suffix _).trans ((skipC_suffix _).trans (List.drop_suffix 1 l))
          cases hv : parse_value fuel (skipC (skipC (l.drop 1))) with
          | error e =>
            dsimp only
            exact trivial
          | ok p =>
            obtain ⟨v, l2⟩ := p
            dsimp only
            have hsv := ihV (skipC (skipC (l.drop 1)))
            rw [hv] at hsv
            have hl2 : l2 <:+ l := List.IsSuffix.trans hsv hin1
            cases he : parse_array_elems fuel (skipC l2) with
            | error e =>
              dsimp only
              have hse := ihAE (skipC l2)
              rw [he] at hse
              cases e with
              | ep e => exact List.IsSuffix.trans hse ((skipC_suffix _).trans hl2)
              | crash => exact trivial
            | ok q =>
              obtain ⟨vs, l3⟩ := q
              dsimp only
              have hse := ihAE (skipC l2)
              rw [he] at hse
              exact List.IsSuffix.trans hse ((skipC_suffix _).trans hl2)
      · rw [if_neg m1]
        exact List.suffix_refl l
    · -- parse_array_elems
      intro l
      rw [parse_array_elems]
      by_cases m1 : headByte l = 93
      · rw [if_pos m1]
        exact List.drop_suffix 1 l
      · rw [if_neg m1]
        have hin1 : skipC (if headByte l = 44 then l.drop 1 else l) <:+ l := by
          by_cases m2 : headByte l = 44
          · rw [if_pos m2]
            exact (skipC_suffix _).trans (List.drop_suffix 1 l)
          · rw [if_neg m2]
            exact skipC_suffix l
        cases hv : parse_value fuel (skipC (if headByte l = 44 then l.drop 1 else l)) with
        | error e =>
          dsimp only
          exact trivial
        | ok p =>
          obtain ⟨v, l2⟩ := p
          dsimp only
          have hsv := ihV (skipC (if headByte l = 44 then l.drop 1 else l))
          rw [hv] at hsv
          have hl2 : l2 <:+ l := List.IsSuffix.trans hsv hin1
          cases he : parse_array_elems fuel (skipC l2) with
          | error e =>
            dsimp only
            have hse := ihAE (skipC l2)
            rw [he] at hse
            exact SuffView_mono ((skipC_suffix _).trans hl2) hse
          | ok q =>
            obtain ⟨vs, l3⟩ := q
            dsimp only
            have hse := ihAE (skipC l2)
            rw [he] at hse
            exact List.IsSuffix.trans hse ((skipC_suffix _).trans hl2)
    · -- parse_object
      intro l
      rw [parse_object]
      by_cases m1 : headByte l = 125
      · rw [if_pos m1]
        exact List.drop_suffix 1 l
      · rw [if_neg m1]
        cases hn : parse_string_or_identifier (skipC l) with
        | error e =>
          dsimp only
          exact trivial
        | ok p =>
          obtain ⟨name, r1⟩ := p
          dsimp only
          have hr1 : r1 <:+ l := (psoi_ok_suffix _ name r1 hn).trans (skipC_suffix l)
          by_cases m2 : headByte (skipC r1) = 58 ∨ headByte (skipC r1) = 61
          · rw [if_pos m2]
            have hin2 : skipC ((skipC r1).drop 1) <:+ l :=
              (skipC_suffix _).trans
                ((List.drop_suffix 1 _).trans ((skipC_suffix _).trans hr1))
            cases hv : parse_value fuel (skipC ((skipC r1).drop 1)) with
            | error e =>
              dsimp only
              exact trivial
            | ok q =>
              obtain ⟨v, r2⟩ := q
              dsimp only
              have hsv := ihV (skipC ((skipC r1).drop 1))
              rw [hv] at hsv
              have hr2 : r2 <:+ l := List.IsSuffix.trans hsv hin2
              cases hm : parse_object_members fuel (skipC r2) with
              | error e =>
                dsimp only
                have hsm := ihM (skipC r2)
                rw [hm] at hsm
                cases e with
                | ep e => exact List.IsSuffix.trans hsm ((skipC_suffix _).trans hr2)
                | crash => exact trivial
              | ok w =>
                obtain ⟨ms, r3⟩ := w
                dsimp only
                have hsm := ihM (skipC r2)
                rw [hm] at hsm
                exact List.IsSuffix.trans hsm ((skipC_suffix _).trans hr2)
          · rw [if_neg m2]
            exact (skipC_suffix r1).trans hr1
    · -- parse_object_members
      intro l
      rw [parse_object_members]
      by_cases m1 : headByte l = 125
      · rw [if_pos m1]
        exact List.drop_suffix 1 l
      · rw [if_neg m1]
        by_cases m0 : headByte l = 0
        · rw [if_pos m0]
          exact List.suffix_refl l
        · rw [if_neg m0]
          have hin1 : skipC (if headByte l = 44 then l.drop 1 else l) <:+ l := by
            by_cases m2 : headByte l = 44
            · rw [if_pos m2]
              exact (skipC_suffix _).trans (List.drop_suffix 1 l)
            · rw [if_neg m2]
              exact skipC_suffix l
          cases hn : parse_string_or_identifier
              (skipC (if headByte l = 44 then l.drop 1 else l)) with
          | error e =>
            dsimp only
            exact trivial
          | ok p =>
            obtain ⟨name, r1⟩ := p
            dsimp only
            have hr1 : r1 <:+ l := List.IsSuffix.trans (psoi_ok_suffix _ name r1 hn) hin1
            by_cases m2 : headByte (skipC r1) = 58 ∨ headByte (skipC r1) = 61
            · rw [if_pos m2]
              have hin2 : skipC ((skipC r1).drop 1) <:+ l :=
                (skipC_suffix _).trans
                  ((List.drop_suffix 1 _).trans ((skipC_suffix _).trans hr1))
              cases hv : parse_value fuel (skipC ((skipC r1).drop 1)) with
              | error e =>
                dsimp only
                exact trivial
              | ok q =>
                obtain ⟨v, r2⟩ := q
                dsimp only
                have hsv := ihV (skipC ((skipC r1).drop 1))
                rw [hv] at hsv
                have hr2 : r2 <:+ l := List.IsSuffix.trans hsv hin2
                cases hm : parse_object_members fuel (skipC r2) with
                | error e =>
                  dsimp only
                  have hsm := ihM (skipC r2)
                  rw [hm] at hsm
                  exact SuffView_mono ((skipC_suffix _).trans hr2) hsm
                | ok w =>
                  obtain ⟨ms, r3⟩ := w
                  dsimp only
                  have hsm := ihM (skipC r2)
                  rw [hm] at hsm
                  exact List.IsSuffix.trans hsm ((skipC_suffix _).trans hr2)
            · rw [if_neg m2]
              exact (skipC_suffix r1).trans hr1

/-- C5, refuted on its own example — a code bug.  Failures that return
at all do behave as claimed: `.error (.ep e)` models the C NULL return
with the process-wide `ep` cursor, and conjunct (a) proves every such
cursor is a suffix of the input, i.e. an absolute position in the text;
conjunct (b) exhibits a clean failure (`{k}`: the missing-colon check,
`ep = value; return 0;`, stores the cursor on `}` at absolute position 2
and returns before any `skip`).  But on the claim's own example
`{"k": }` no clean return is reached: for the missing member value
`parse_value` returns NULL with `ep` on `}`, line 564 of `parse_object`
passes that NULL straight to `skip`, and line 319 reads `*in` through
the null pointer — conjunct (c) shows the model crashes there.  The
program dereferences NULL instead of returning the sentinel, so the
documented behaviour on `{"k": }` describes what the error plumbing was
meant to do, not what the code does. -/
theorem claim_C5 (fuel : Nat) (l e : List Nat) :
    (sJSONparse fuel l = .error (.ep e) → e <:+ l) ∧
    (sJSONparse 10 [123, 107, 125] = .error (.ep [125]) ∧
      ([123, 107, 125] : List Nat).length - ([125] : List Nat).length = 2 ∧
      getByte [123, 107, 125] 2 = 125) ∧
    sJSONparse 10 [123, 34, 107, 34, 58, 32, 125] = .error .crash := by
  refine ⟨?_, ⟨rfl, rfl, rfl⟩, rfl⟩
  intro h
  rw [sJSONparse] at h
  by_cases hc : headByte (skipC l) = 123 ∨ headByte (skipC l) = 91
  · rw [if_pos hc] at h
    have hsv := (parse_suffix fuel).1 (skipC (skipC l))
    rw [h] at hsv
    exact List.IsSuffix.trans hsv ((skipC_suffix _).trans (skipC_suffix l))
  · rw [if_neg hc] at h
    have hsv := (parse_suffix fuel).2.2.2.1 (skipC (skipC l))
    rw [h] at hsv
    exact List.IsSuffix.trans hsv ((skipC_suffix _).trans (skipC_suffix l))

theorem claim_C5_witness :
    ([125] : List Nat) <:+ [123, 107, 125] ∧
    sJSONparse 10 [123, 107, 125] = .error (.ep [125]) := by
  obtain ⟨himp, _, _⟩ := claim_C5 10 [123, 107, 125] [125]
  exact ⟨himp rfl, rfl⟩

/-! ## Printing (src/sjson.cpp 366-373, 131-151, 409-423, 466-493, 604-689)

The printers are compiled under `WRITE_SUPPORT_ENABLED`.  `sprintf`
decimal rendering of doubles is idealised over exact rationals: each
`print_number` branch keeps its source condition (`DBL_EPSILON`
comparisons idealised to exact equality) and renders a decimal literal
with truncated 6-digit fractional parts where the C code rounds; the
round-trip claim is modulo number formatting, so only the literal's
shape matters. -/

/-- Decimal digit values of `n`, most significant first (`fuel`-driven;
any fuel above zero yields digits in range, and `n + 1` is plenty). -/
def natDigitsGo : Nat → Nat → List Nat
  | 0, _ => []
  | fuel + 1, n => if n < 10 then [n] else natDigitsGo fuel (n / 10) ++ [n % 10]

def natDigits (n : Nat) : List Nat := natDigitsGo (n + 1) n

theorem natDigitsGo_le9 : ∀ (fuel n : Nat), ∀ d ∈ natDigitsGo fuel n, d ≤ 9 := by
  intro fuel
  induction fuel with
  | zero => intro n d hd; exact absurd hd (by simp [natDigitsGo])
  | succ fuel ih =>
    intro n d hd
    rw [natDigitsGo] at hd
    by_cases hn : n < 10
    · rw [if_pos hn] at hd
      simp only [List.mem_singleton] at hd
      omega
    · rw [if_neg hn] at hd
      rcases List.mem_append.mp hd with h | h
      · exact ih (n / 10) d h
      · simp only [List.mem_singleton] at h
        omega

theorem natDigits_le9 (n : Nat) : ∀ d ∈ natDigits n, d ≤ 9 := natDigitsGo_le9 (n + 1) n

theorem natDigits_ne_nil (n : Nat) : natDigits n ≠ [] := by
  rw [natDigits, natDigitsGo]
  by_cases hn : n < 10
  · rw [if_pos hn]
    simp
  · rw [if_neg hn]
    simp

theorem natDigitsGo_head_pos : ∀ (fuel n : Nat), 1 ≤ n → n ≤ fuel →
    natDigitsGo fuel n ≠ [] ∧ (natDigitsGo fuel n).headD 0 ≠ 0 := by
  intro fuel
  induction fuel with
  | zero => intro n h1 h2; omega
  | succ fuel ih =>
    intro n h1 h2
    rw [natDigitsGo]
    by_cases hn : n < 10
    · rw [if_pos hn]
      exact ⟨by simp, by simp; omega⟩
    · rw [if_neg hn]
      have hrec := ih (n / 10) (by omega) (by omega)
      obtain ⟨x, xs, hx⟩ := List.exists_cons_of_ne_nil hrec.1
      rw [hx]
      rw [hx] at hrec
      simp only [List.cons_append, List.headD_cons] at hrec ⊢
      exact ⟨by simp, hrec.2⟩

theorem natDigits_lead (n : Nat) : natDigits n = [0] ∨ (natDigits n).headD 0 ≠ 0 := by
  by_cases hn : n = 0
  · subst hn
    exact Or.inl rfl
  · exact Or.inr (natDigitsGo_head_pos (n + 1) n (by omega) (by omega)).2

/-- Zero-pad a digit list to 6 places (`%f`/`%e` print 6 fractional
digits). -/
def padTo6 (xs : List Nat) : List Nat := List.replicate (6 - xs.length) 0 ++ xs

theorem padTo6_le9 (xs : List Nat) (h : ∀ d ∈ xs, d ≤ 9) : ∀ d ∈ padTo6 xs, d ≤ 9 := by
  intro d hd
  rcases List.mem_append.mp hd with h0 | h1
  · rw [List.eq_of_mem_replicate h0]
    omega
  · exact h d h1

theorem padTo6_ne_nil (xs : List Nat) (h : xs ≠ []) : padTo6 xs ≠ [] := by
  rw [padTo6]
  intro hc
  exact h (List.append_eq_nil.mp hc).2

/-- Exponent digits of `%e`, zero-padded to the printf minimum of two. -/
def expDigits (n : Nat) : List Nat :=
  if n < 10 then 0 :: natDigits n else natDigits n

theorem expDigits_le9 (n : Nat) : ∀ d ∈ expDigits n, d ≤ 9 := by
  intro d hd
  rw [expDigits] at hd
  by_cases hn : n < 10
  · rw [if_pos hn] at hd
    rcases List.mem_cons.mp hd with h | h
    · omega
    · exact natDigits_le9 n d h
  · rw [if_neg hn] at hd
    exact natDigits_le9 n d hd

/-- Fuel-driven decimal-exponent search of the `%e` mantissa
normalisation: divide by ten until below ten. -/
def expDown : Nat → ℚ → Nat
  | 0, _ => 0
  | fuel + 1, q => if q < 10 then 0 else expDown fuel (q / 10) + 1

/-- The upward direction: multiply by ten until at least one. -/
def expUp : Nat → ℚ → Nat
  | 0, _ => 0
  | fuel + 1, q => if 1 ≤ q then 0 else expUp fuel (q * 10) + 1

/-- The literal printed by `print_number` (lines 131-151).  The branch
conditions follow the source: `%d` when the double equals the stored
int and lies in 32-bit int range; otherwise `%.0f` for integral values,
`%e` for magnitudes below `1e-6` or above `1e9`, `%f` for the rest. -/
def print_number_lit (d : ℚ) (vi : Int) : NumLit :=
  if (vi : ℚ) = d ∧ d ≤ 2147483647 ∧ -2147483648 ≤ d then
    ⟨vi < 0, natDigits vi.natAbs, none, none⟩
  else if ((⌊d⌋ : Int) : ℚ) = d then
    ⟨d < 0, natDigits ⌊d⌋.natAbs, none, none⟩
  else if |d| < 1 / 1000000 ∨ (1000000000 : ℚ) < |d| then
    let k : Int := if 1 ≤ |d| then (expDown (⌊|d|⌋.natAbs + 1) |d| : Int)
      else -(expUp (d.den + 1) |d| : Int)
    let m : ℚ := |d| / 10 ^ k
    ⟨d < 0, natDigits ⌊m⌋.toNat,
      some (padTo6 (natDigits ⌊(m - ⌊m⌋) * 1000000⌋.toNat)),
      some (false, some (decide (k < 0)), expDigits k.natAbs)⟩
  else
    ⟨d < 0, natDigits ⌊|d|⌋.toNat,
      some (padTo6 (natDigits ⌊(|d| - ⌊|d|⌋) * 1000000⌋.toNat)), none⟩

/-- `print_number` (lines 131-151): the rendered bytes. -/
def print_number (d : ℚ) (vi : Int) : List Nat := (print_number_lit d vi).render

/-- Every literal `print_number` builds is well-formed. -/
theorem print_number_lit_wf (d : ℚ) (vi : Int) : (print_number_lit d vi).wf := by
  have hbase : ∀ (ng : Bool) (n : Nat),
      NumLit.wf ⟨ng, natDigits n, none, none⟩ := by
    intro ng n
    refine ⟨natDigits_ne_nil n, natDigits_le9 n, natDigits_lead n, ?_, ?_⟩
    · intro ds h
      exact absurd h (by simp)
    · intro u sgn ds h
      exact absurd h (by simp)
  have hfrac : ∀ (ng : Bool) (n m : Nat) (E : Option (Bool × Option Bool × List Nat)),
      (∀ u sgn ds, E = some (u, sgn, ds) → (∀ x ∈ ds, x ≤ 9) ∧ (sgn = none → ds ≠ [])) →
      NumLit.wf ⟨ng, natDigits n, some (padTo6 (natDigits m)), E⟩ := by
    intro ng n m E hE
    refine ⟨natDigits_ne_nil n, natDigits_le9 n, natDigits_lead n, ?_, hE⟩
    intro ds h
    injection h with h
    subst h
    exact ⟨padTo6_ne_nil _ (natDigits_ne_nil m), padTo6_le9 _ (natDigits_le9 m)⟩
  rw [print_number_lit]
  by_cases h1 : (vi : ℚ) = d ∧ d ≤ 2147483647 ∧ -2147483648 ≤ d
  · rw [if_pos h1]
    exact hbase _ _
  · rw [if_neg h1]
    by_cases h2 : ((⌊d⌋ : Int) : ℚ) = d
    · rw [if_pos h2]
      exact hbase _ _
    · rw [if_neg h2]
      by_cases h3 : |d| < 1 / 1000000 ∨ (1000000000 : ℚ) < |d|
      · rw [if_pos h3]
        refine hfrac _ _ _ _ ?_
        intro u sgn ds h
        injection h with h
        injection h with hu hrest
        injection hrest with hsgn hds
        subst hds
        exact ⟨expDigits_le9 _, fun hc => absurd (hsgn ▸ hc) (by simp)⟩
      · rw [if_neg h3]
        refine hfrac _ _ _ _ ?_
        intro u sgn ds h
        exact absurd h (by simp)

mutual
/-- `print_value` (lines 409-423): dispatch on the node type.  Arrays
and objects inline their bracket composition from `print_array`
(466-493) and `print_object` (604-689): `[` entries `]` with `, `
separators (`,` unformatted), and `{`, newline when formatted, the
member entries, closing indentation and `}`. -/
def print_value : SJson → Nat → Bool → List Nat
  | .nullT, _, _ => [110, 117, 108, 108]
  | .falseT, _, _ => [102, 97, 108, 115, 101]
  | .trueT, _, _ => [116, 114, 117, 101]
  | .num d vi, _, _ => print_number d vi
  | .str s, _, _ => print_string_ptr s
  | .arr vs, depth, fmt => 91 :: (print_array_elems vs depth fmt ++ [93])
  | .obj ms, depth, fmt =>
    123 :: ((if fmt then [10] else []) ++ (print_object_members ms (depth + 1) fmt ++
      ((if fmt then List.replicate depth 9 else []) ++ [125])))

/-- The entries of `print_array` (lines 466-493): printed at `depth+1`,
a comma (plus a space when formatted) between entries. -/
def print_array_elems : SJsonList → Nat → Bool → List Nat
  | .nil, _, _ => []
  | .cons v .nil, depth, fmt => print_value v (depth + 1) fmt
  | .cons v (.cons w vs), depth, fmt =>
    print_value v (depth + 1) fmt ++
      (44 :: ((if fmt then [32] else []) ++ print_array_elems (.cons w vs) depth fmt))

/-- The entries of `print_object` (lines 604-689): when formatted each
entry is indented by `depth` tabs and ends with a newline; the name is
printed as a quoted string, then `:`, a tab when formatted, the value,
and a comma after every entry but the last. -/
def print_object_members : MemberList → Nat → Bool → List Nat
  | .nil, _, _ => []
  | .cons name v .nil, depth, fmt =>
    (if fmt then List.replicate depth 9 else []) ++
      (print_string_ptr name ++ (58 :: ((if fmt then [9] else []) ++
        (print_value v depth fmt ++ (if fmt then [10] else [])))))
  | .cons name v (.cons name2 w ms), depth, fmt =>
    (if fmt then List.replicate depth 9 else []) ++
      (print_string_ptr name ++ (58 :: ((if fmt then [9] else []) ++
        (print_value v depth fmt ++ (44 :: ((if fmt then [10] else []) ++
          print_object_members (.cons name2 w ms) depth fmt))))))
end

/-- `sJSONprint` (line 368): formatted, from depth 0. -/
def sJSONprint (item : SJson) : List Nat := print_value item 0 true

/-- `sJSONprintUnformatted` (line 371). -/
def sJSONprintUnformatted (item : SJson) : List Nat := print_value item 0 false

/-- The C-string view of a byte list: the bytes before the first NUL
(a `char*` field carries no data past its terminator). -/
def cstr (s : List Nat) : List Nat := s.takeWhile (fun c => c ≠ 0)

mutual
/-- Structural tree equality modulo numbers: equal type tags and
shapes, names and string values equal as C strings, and any two
numbers identified (the "up to number formatting" clause). -/
def structEqModNum : SJson → SJson → Bool
  | .nullT, .nullT => true
  | .falseT, .falseT => true
  | .trueT, .trueT => true
  | .num _ _, .num _ _ => true
  | .str s, .str t => cstr s == cstr t
  | .arr vs, .arr ws => structEqL vs ws
  | .obj ms, .obj ns => structEqM ms ns
  | _, _ => false

def structEqL : SJsonList → SJsonList → Bool
  | .nil, .nil => true
  | .cons v vs, .cons w ws => structEqModNum v w && structEqL vs ws
  | _, _ => false

def structEqM : MemberList → MemberList → Bool
  | .nil, .nil => true
  | .cons n v ms, .cons n2 w ns =>
    (cstr n == cstr n2) && (structEqModNum v w && structEqM ms ns)
  | _, _ => false
end

mutual
/-- Fuel bound for re-parsing a printed subtree. -/
def sizeV : SJson → Nat
  | .arr vs => sizeL vs + 1
  | .obj ms => sizeM ms + 1
  | _ => 1

def sizeL : SJsonList → Nat
  | .nil => 0
  | .cons v vs => sizeV v + sizeL vs + 1

def sizeM : MemberList → Nat
  | .nil => 0
  | .cons _ v ms => sizeV v + sizeM ms + 1
end

theorem cstr_idem (s : List Nat) : cstr (cstr s) = cstr s := by
  rw [cstr, cstr, List.takeWhile_takeWhile]
  simp

theorem cstr_bytes_pos (s : List Nat) : ∀ b ∈ cstr s, 1 ≤ b := by
  intro b hb
  have := List.mem_takeWhile_imp hb
  simp only [ne_eq, decide_not, Bool.not_eq_true', decide_eq_false_iff_not] at this
  omega

/-- Decoding the printed form of a string recovers its C-string view,
with any following bytes untouched. -/
theorem parse_print_string_rest (s rest : List Nat) :
    parse_string (print_string_ptr s ++ rest) = .ok (cstr s, rest) := by
  rw [print_string_ptr]
  simp only [List.cons_append, List.append_assoc]
  rw [parse_string]
  rw [if_pos (by rw [headByte_cons])]
  rw [List.tail_cons]
  simp only [List.nil_append]
  rw [parse_print_loop (s.takeWhile (fun c => c ≠ 0)) (cstr_bytes_pos s) (34 :: rest)]
  rw [parse_string_loop.eq_def]
  simp [cstr]

/-! ### Skipping over printed whitespace -/

theorem skipWsC_append : ∀ (w : List Nat), (∀ b ∈ w, 0 < b ∧ b ≤ 32) →
    ∀ l, skipWsC (w ++ l) = skipWsC l := by
  intro w
  induction w with
  | nil => intro _ l; rw [List.nil_append]
  | cons c t ih =>
    intro hw l
    rw [List.cons_append, skipWsC, if_pos (hw c (by simp))]
    exact ih (fun b hb => hw b (by simp [hb])) l

theorem skipWsC_no (l : List Nat) (h : ¬ (0 < headByte l ∧ headByte l ≤ 32)) :
    skipWsC l = l := by
  cases l with
  | nil => rfl
  | cons c t =>
    rw [headByte_cons] at h
    rw [skipWsC, if_neg h]

theorem skipC_ws (w l : List Nat) (hw : ∀ b ∈ w, 0 < b ∧ b ≤ 32)
    (hh : 32 < headByte l) (h47 : headByte l ≠ 47) : skipC (w ++ l) = l := by
  have hws : skipWsC (w ++ l) = l := by
    rw [skipWsC_append w hw l]
    exact skipWsC_no l (by omega)
  rw [skipC, show (w ++ l).length + 2 = ((w ++ l).length + 1) + 1 from rfl, skipLoopC, hws]
  rw [if_neg (fun hc => h47 hc.1), if_neg (fun hc => h47 hc.1)]

theorem skipC_clean (l : List Nat) (hh : 32 < headByte l) (h47 : headByte l ≠ 47) :
    skipC l = l := by
  have h := skipC_ws [] l (by simp) hh h47
  rwa [List.nil_append] at h

/-! ### Heads of printed fragments -/

theorem numCont_range (b : Nat) (h : numCont b) : 46 ≤ b ∧ b ≤ 101 := by
  rw [numCont] at h
  omega

theorem render_head (lit : NumLit) (hwf : lit.wf) :
    ∃ b t, lit.render = b :: t ∧ (b = 45 ∨ (48 ≤ b ∧ b ≤ 57)) := by
  obtain ⟨hne, hle, _, _, _⟩ := hwf
  rcases lit with ⟨ng, I, F, E⟩
  simp only at hne hle
  cases ng with
  | true =>
    refine ⟨45, I.map (· + 48) ++ (fracRender F ++ expRender E), ?_, Or.inl rfl⟩
    simp [NumLit.render, List.append_assoc]
  | false =>
    obtain ⟨d0, I', hI⟩ := List.exists_cons_of_ne_nil hne
    have hd0 : d0 ≤ 9 := hle d0 (by rw [hI]; simp)
    refine ⟨d0 + 48, I'.map (· + 48) ++ (fracRender F ++ expRender E), ?_,
      Or.inr ⟨by omega, by omega⟩⟩
    simp [NumLit.render, hI, List.append_assoc]

theorem print_value_head (T : SJson) (d : Nat) (fmt : Bool) :
    ∃ b t, print_value T d fmt = b :: t ∧ 32 < b ∧ b ≠ 47 ∧ b ≠ 93 := by
  cases T with
  | nullT => exact ⟨110, _, rfl, by omega, by omega, by omega⟩
  | falseT => exact ⟨102, _, rfl, by omega, by omega, by omega⟩
  | trueT => exact ⟨116, _, rfl, by omega, by omega, by omega⟩
  | num dd vi =>
    obtain ⟨b, t, hbt, hb⟩ :=
      render_head (print_number_lit dd vi) (print_number_lit_wf dd vi)
    exact ⟨b, t, hbt, by omega, by omega, by omega⟩
  | str s =>
    refine ⟨34, (s.takeWhile (fun c => c ≠ 0)).flatMap escapeByte ++ [34], ?_,
      by omega, by omega, by omega⟩
    show print_string_ptr s = _
    rw [print_string_ptr, List.cons_append]
  | arr vs => exact ⟨91, _, rfl, by omega, by omega, by omega⟩
  | obj ms => exact ⟨123, _, rfl, by omega, by omega, by omega⟩

/-! ### Loop-level input shapes of the printed entries -/

/-- Bytes after the first array entry: for each further entry a comma
(and a space when formatted) and the entry. -/
def printElemsTail : SJsonList → Nat → Bool → List Nat
  | .nil, _, _ => []
  | .cons w vs, depth, fmt =>
    44 :: ((if fmt then [32] else []) ++
      (print_value w (depth + 1) fmt ++ printElemsTail vs depth fmt))

theorem print_array_elems_eq : ∀ (vs : SJsonList) (v : SJson) (d : Nat) (fmt : Bool),
    print_array_elems (.cons v vs) d fmt =
      print_value v (d + 1) fmt ++ printElemsTail vs d fmt
  | .nil, v, d, fmt => by
    rw [print_array_elems, printElemsTail, List.append_nil]
  | .cons w ws, v, d, fmt => by
    rw [print_array_elems, printElemsTail, print_array_elems_eq ws w d fmt]

/-- Bytes after a member's value: the member's comma and newline when
more members follow (then tabs, the next name, `:`, tab, value...), or
the trailing newline and the caller-supplied closing bytes. -/
def printMembersTail : MemberList → Nat → Bool → List Nat → List Nat
  | .nil, _, fmt, closing => (if fmt then [10] else []) ++ closing
  | .cons name v ms, depth, fmt, closing =>
    44 :: ((if fmt then [10] else []) ++ ((if fmt then List.replicate depth 9 else []) ++
      (print_string_ptr name ++ (58 :: ((if fmt then [9] else []) ++
        (print_value v depth fmt ++ printMembersTail ms depth fmt closing))))))

theorem print_object_members_eq : ∀ (ms : MemberList) (name : List Nat) (v : SJson)
    (d : Nat) (fmt : Bool) (closing : List Nat),
    print_object_members (.cons name v ms) d fmt ++ closing =
      (if fmt then List.replicate d 9 else []) ++
        (print_string_ptr name ++ (58 :: ((if fmt then [9] else []) ++
          (print_value v d fmt ++ printMembersTail ms d fmt closing))))
  | .nil, name, v, d, fmt, closing => by
    rw [print_object_members, printMembersTail]
    simp [List.append_assoc]
  | .cons n2 w ms2, name, v, d, fmt, closing => by
    rw [print_object_members, printMembersTail]
    rw [← print_object_members_eq ms2 n2 w d fmt closing]
    simp [List.append_assoc]

/-- Re-parsing a printed number: exactly the rendered bytes are
consumed, a number node results. -/
theorem parse_print_number (dd : ℚ) (vi : Int) (rest : List Nat)
    (hrest : ¬ numCont (headByte rest)) :
    parse_number (print_number dd vi ++ rest) =
      ((print_number_lit dd vi).value, ratTrunc ((print_number_lit dd vi).value), rest) :=
  parse_number_lit _ (print_number_lit_wf dd vi) rest hrest

theorem matchLit_self : ∀ (lit rest : List Nat), matchLit (lit ++ rest) lit = true
  | [], _ => rfl
  | c :: cs, rest => by
    rw [List.cons_append, matchLit, headByte_cons, List.tail_cons]
    simp [matchLit_self cs rest]

theorem sizeV_pos (T : SJson) : 0 < sizeV T := by
  cases T with
  | arr vs => rw [sizeV]; omega
  | obj ms => rw [sizeV]; omega
  | nullT => exact Nat.one_pos
  | falseT => exact Nat.one_pos
  | trueT => exact Nat.one_pos
  | num d vi => exact Nat.one_pos
  | str s => exact Nat.one_pos

theorem ws_if (fmt : Bool) (c : Nat) (h1 : 0 < c) (h2 : c ≤ 32) :
    ∀ b ∈ (if fmt then [c] else ([] : List Nat)), 0 < b ∧ b ≤ 32 := by
  intro b hb
  cases fmt with
  | true =>
    rw [if_pos rfl] at hb
    simp only [List.mem_singleton] at hb
    omega
  | false =>
    rw [if_neg (by simp)] at hb
    exact absurd hb (by simp)

theorem ws_tabs (fmt : Bool) (k : Nat) :
    ∀ b ∈ (if fmt then List.replicate k 9 else ([] : List Nat)), 0 < b ∧ b ≤ 32 := by
  intro b hb
  cases fmt with
  | true =>
    rw [if_pos rfl] at hb
    rw [List.eq_of_mem_replicate hb]
    omega
  | false =>
    rw [if_neg (by simp)] at hb
    exact absurd hb (by simp)

theorem ws_append {w1 w2 : List Nat} (h1 : ∀ b ∈ w1, 0 < b ∧ b ≤ 32)
    (h2 : ∀ b ∈ w2, 0 < b ∧ b ≤ 32) : ∀ b ∈ w1 ++ w2, 0 < b ∧ b ≤ 32 := by
  intro b hb
  rcases List.mem_append.mp hb with h | h
  · exact h1 b h
  · exact h2 b h

theorem printElemsTail_not_numCont (vs : SJsonList) (d : Nat) (fmt : Bool)
    (rest : List Nat) :
    ¬ numCont (headByte (printElemsTail vs d fmt ++ 93 :: rest)) := by
  cases vs with
  | nil =>
    rw [printElemsTail, List.nil_append, headByte_cons, numCont]
    omega
  | cons w vs2 =>
    rw [printElemsTail, List.cons_append, headByte_cons, numCont]
    omega

theorem printMembersTail_not_numCont (ms : MemberList) (d : Nat) (fmt : Bool)
    (w rest : List Nat) (hw : ∀ b ∈ w, 0 < b ∧ b ≤ 32) :
    ¬ numCont (headByte (printMembersTail ms d fmt (w ++ (125 :: rest)))) := by
  cases ms with
  | cons n v ms2 =>
    rw [printMembersTail, headByte_cons, numCont]
    omega
  | nil =>
    rw [printMembersTail]
    cases fmt with
    | true =>
      show ¬ numCont (headByte ((10 :: []) ++ (w ++ (125 :: rest))))
      rw [List.cons_append, headByte_cons, numCont]
      omega
    | false =>
      show ¬ numCont (headByte (([] : List Nat) ++ (w ++ (125 :: rest))))
      rw [List.nil_append]
      cases w with
      | nil => rw [List.nil_append, headByte_cons, numCont]; omega
      | cons c t =>
        have hc := hw c (by simp)
        rw [List.cons_append, headByte_cons, numCont]
        omega

theorem print_string_ptr_cons (s : List Nat) :
    print_string_ptr s = 34 :: ((s.takeWhile (fun c => c ≠ 0)).flatMap escapeByte ++ [34]) := by
  rw [print_string_ptr, List.cons_append]

theorem rtae_nil (fuel dp : Nat) (fmt : Bool) (rest : List Nat) (hfuel : 0 < fuel) :
    parse_array_elems fuel (skipC (printElemsTail .nil dp fmt ++ (93 :: rest))) =
      .ok (.nil, rest) := by
  cases fuel with
  | zero => omega
  | succ g =>
    rw [printElemsTail, List.nil_append]
    have hsk : skipC (93 :: rest) = 93 :: rest :=
      skipC_clean _ (by rw [headByte_cons]; omega) (by rw [headByte_cons]; omega)
    rw [hsk, parse_array_elems, if_pos (headByte_cons 93 rest)]
    rfl

theorem rtm_nil (fuel dp : Nat) (fmt : Bool) (rest w : List Nat) (hfuel : 0 < fuel)
    (hw : ∀ b ∈ w, 0 < b ∧ b ≤ 32) :
    parse_object_members fuel (skipC (printMembersTail .nil dp fmt (w ++ (125 :: rest)))) =
      .ok (.nil, rest) := by
  cases fuel with
  | zero => omega
  | succ g =>
    rw [printMembersTail, ← List.append_assoc]
    have hsk : skipC (((if fmt then [10] else []) ++ w) ++ (125 :: rest)) = 125 :: rest :=
      skipC_ws _ _ (ws_append (ws_if fmt 10 (by omega) (by omega)) hw)
        (by rw [headByte_cons]; omega) (by rw [headByte_cons]; omega)
    rw [hsk, parse_object_members, if_pos (headByte_cons 125 rest)]
    rfl

/-- The round-trip induction: re-parsing any printed subtree consumes
exactly the printed bytes and rebuilds a tree that is structurally
equal modulo numbers (strings and names come back as their C-string
views, numbers as the printed literal's value). -/
theorem roundTrip : ∀ N : Nat,
    (∀ T : SJson, sizeV T ≤ N → ∀ fuel dp fmt rest, sizeV T < fuel →
      ¬ numCont (headByte rest) →
      ∃ T', parse_value fuel (print_value T dp fmt ++ rest) = .ok (T', rest) ∧
        structEqModNum T T' = true) ∧
    (∀ vs : SJsonList, sizeL vs ≤ N → ∀ fuel dp fmt rest, sizeL vs < fuel →
      ∃ vs', parse_array_elems fuel (skipC (printElemsTail vs dp fmt ++ (93 :: rest))) =
          .ok (vs', rest) ∧ structEqL vs vs' = true) ∧
    (∀ ms : MemberList, sizeM ms ≤ N → ∀ fuel dp fmt rest w, sizeM ms < fuel →
      (∀ b ∈ w, 0 < b ∧ b ≤ 32) →
      ∃ ms', parse_object_members fuel
          (skipC (printMembersTail ms dp fmt (w ++ (125 :: rest)))) = .ok (ms', rest) ∧
        structEqM ms ms' = true) := by
  intro N
  induction N with
  | zero =>
    refine ⟨?_, ?_, ?_⟩
    · intro T hszN
      have := sizeV_pos T
      omega
    · intro vs hszN fuel dp fmt rest hfuel
      cases vs with
      | cons v vs2 =>
        rw [sizeL] at hszN
        have := sizeV_pos v
        omega
      | nil => exact ⟨.nil, rtae_nil fuel dp fmt rest hfuel, rfl⟩
    · intro ms hszN fuel dp fmt rest w hfuel hw
      cases ms with
      | cons nm v ms2 =>
        rw [sizeM] at hszN
        have := sizeV_pos v
        omega
      | nil => exact ⟨.nil, rtm_nil fuel dp fmt rest w hfuel hw, rfl⟩
  | succ N ih =>
    obtain ⟨ih1, ih2, ih3⟩ := ih
    refine ⟨?_, ?_, ?_⟩
    · -- parse_value on a printed value
      intro T hszN fuel dp fmt rest hfuel hrest
      cases T with
      | nullT =>
        cases fuel with
        | zero =>
          have hs1 : sizeV SJson.nullT = 1 := rfl
          omega
        | succ g =>
          refine ⟨.nullT, ?_, rfl⟩
          rw [show print_value .nullT dp fmt ++ rest =
            [110, 117, 108, 108] ++ rest from rfl]
          rw [parse_value, if_pos (matchLit_self [110, 117, 108, 108] rest)]
          rfl
      | falseT =>
        cases fuel with
        | zero =>
          have hs1 : sizeV SJson.falseT = 1 := rfl
          omega
        | succ g =>
          refine ⟨.falseT, ?_, rfl⟩
          rw [show print_value .falseT dp fmt ++ rest =
            [102, 97, 108, 115, 101] ++ rest from rfl]
          rw [parse_value,
            if_neg (matchLit_head_ne _ 110 _ (by rw [List.cons_append, headByte_cons]; omega)),
            if_pos (matchLit_self [102, 97, 108, 115, 101] rest)]
          rfl
      | trueT =>
        cases fuel with
        | zero =>
          have hs1 : sizeV SJson.trueT = 1 := rfl
          omega
        | succ g =>
          refine ⟨.trueT, ?_, rfl⟩
          rw [show print_value .trueT dp fmt ++ rest =
            [116, 114, 117, 101] ++ rest from rfl]
          rw [parse_value,
            if_neg (matchLit_head_ne _ 110 _ (by rw [List.cons_append, headByte_cons]; omega)),
            if_neg (matchLit_head_ne _ 102 _ (by rw [List.cons_append, headByte_cons]; omega)),
            if_pos (matchLit_self [116, 114, 117, 101] rest)]
          rfl
      | num dd vi =>
        cases fuel with
        | zero =>
          have hs1 : sizeV (SJson.num dd vi) = 1 := rfl
          omega
        | succ g =>
          obtain ⟨b, t, hbt, hb⟩ :=
            render_head (print_number_lit dd vi) (print_number_lit_wf dd vi)
          refine ⟨.num ((print_number_lit dd vi).value)
            (ratTrunc ((print_number_lit dd vi).value)), ?_, rfl⟩
          rw [show print_value (.num dd vi) dp fmt = (print_number_lit dd vi).render
            from rfl]
          have hhead : headByte ((print_number_lit dd vi).render ++ rest) = b := by
            rw [hbt, List.cons_append, headByte_cons]
          have hpn : parse_number ((print_number_lit dd vi).render ++ rest) =
              ((print_number_lit dd vi).value,
                ratTrunc ((print_number_lit dd vi).value), rest) :=
            parse_print_number dd vi rest hrest
          rw [parse_value,
            if_neg (matchLit_head_ne _ 110 _ (by omega)),
            if_neg (matchLit_head_ne _ 102 _ (by omega)),
            if_neg (matchLit_head_ne _ 116 _ (by omega)),
            if_pos (by omega :
              headByte ((print_number_lit dd vi).render ++ rest) = 45 ∨
              (48 ≤ headByte ((print_number_lit dd vi).render ++ rest) ∧
                headByte ((print_number_lit dd vi).render ++ rest) ≤ 57)),
            hpn]
      | str s =>
        cases fuel with
        | zero =>
          have hs1 : sizeV (SJson.str s) = 1 := rfl
          omega
        | succ g =>
          refine ⟨.str (cstr s), ?_, ?_⟩
          · rw [show print_value (.str s) dp fmt = print_string_ptr s from rfl]
            have hhead : headByte (print_string_ptr s ++ rest) = 34 := by
              rw [print_string_ptr_cons, List.cons_append, headByte_cons]
            rw [parse_value,
              if_neg (matchLit_head_ne _ 110 _ (by omega)),
              if_neg (matchLit_head_ne _ 102 _ (by omega)),
              if_neg (matchLit_head_ne _ 116 _ (by omega)),
              if_neg (by omega), if_neg (by omega), if_neg (by omega),
              if_pos hhead, parse_print_string_rest s rest]
          · show (cstr s == cstr (cstr s)) = true
            rw [cstr_idem]
            exact beq_self_eq_true _
      | arr vs =>
        simp only [sizeV] at hszN hfuel
        cases fuel with
        | zero => omega
        | succ g =>
        cases g with
        | zero => omega
        | succ g2 =>
        have hcanon : print_value (.arr vs) dp fmt ++ rest =
            91 :: (print_array_elems vs dp fmt ++ (93 :: rest)) := by
          rw [print_value]
          simp [List.cons_append, List.append_assoc, List.singleton_append]
        rw [hcanon]
        have hhead : headByte (91 :: (print_array_elems vs dp fmt ++ (93 :: rest))) = 91 :=
          headByte_cons _ _
        rw [parse_value,
          if_neg (matchLit_head_ne _ 110 _ (by omega)),
          if_neg (matchLit_head_ne _ 102 _ (by omega)),
          if_neg (matchLit_head_ne _ 116 _ (by omega)),
          if_neg (by omega), if_pos hhead]
        rw [parse_array, if_pos hhead]
        simp only [List.drop_succ_cons, List.drop_zero]
        cases vs with
        | nil =>
          rw [print_array_elems, List.nil_append]
          have hsk : skipC (93 :: rest) = 93 :: rest :=
            skipC_clean _ (by rw [headByte_cons]; omega) (by rw [headByte_cons]; omega)
          rw [hsk, if_pos (headByte_cons 93 rest)]
          exact ⟨.arr .nil, rfl, rfl⟩
        | cons v vs2 =>
          simp only [sizeL] at hszN hfuel
          rw [print_array_elems_eq vs2 v dp fmt, List.append_assoc]
          obtain ⟨b, t, hbt, hb32, hb47, hb93⟩ := print_value_head v (dp + 1) fmt
          have hhv : headByte (print_value v (dp + 1) fmt ++
              (printElemsTail vs2 dp fmt ++ (93 :: rest))) = b := by
            rw [hbt, List.cons_append, headByte_cons]
          have hsk1 : skipC (print_value v (dp + 1) fmt ++
              (printElemsTail vs2 dp fmt ++ (93 :: rest))) =
              print_value v (dp + 1) fmt ++
                (printElemsTail vs2 dp fmt ++ (93 :: rest)) :=
            skipC_clean _ (by omega) (by omega)
          rw [hsk1, if_neg (by omega), hsk1]
          obtain ⟨v', hv, hsev⟩ := ih1 v (by omega) g2 (dp + 1) fmt _ (by omega)
            (printElemsTail_not_numCont vs2 dp fmt rest)
          rw [hv]
          dsimp only
          obtain ⟨vs'', he, hseL⟩ := ih2 vs2 (by omega) g2 dp fmt rest (by omega)
          rw [he]
          dsimp only
          refine ⟨.arr (.cons v' vs''), rfl, ?_⟩
          show (structEqModNum v v' && structEqL vs2 vs'') = true
          rw [hsev, hseL]
          rfl
      | obj ms =>
        simp only [sizeV] at hszN hfuel
        cases fuel with
        | zero => omega
        | succ g =>
        cases g with
        | zero => omega
        | succ g2 =>
        have hcanon : print_value (.obj ms) dp fmt ++ rest =
            123 :: ((if fmt then [10] else []) ++ (print_object_members ms (dp + 1) fmt ++
              ((if fmt then List.replicate dp 9 else []) ++ (125 :: rest)))) := by
          rw [print_value]
          simp [List.cons_append, List.append_assoc, List.singleton_append]
        rw [hcanon]
        have hhead : headByte (123 :: ((if fmt then [10] else []) ++
            (print_object_members ms (dp + 1) fmt ++
              ((if fmt then List.replicate dp 9 else []) ++ (125 :: rest))))) = 123 :=
          headByte_cons _ _
        rw [parse_value,
          if_neg (matchLit_head_ne _ 110 _ (by omega)),
          if_neg (matchLit_head_ne _ 102 _ (by omega)),
          if_neg (matchLit_head_ne _ 116 _ (by omega)),
          if_neg (by omega), if_neg (by omega), if_pos hhead]
        simp only [List.drop_succ_cons, List.drop_zero]
        cases ms with
        | nil =>
          rw [print_object_members, List.nil_append, ← List.append_assoc]
          have hsk : skipC (((if fmt then [10] else []) ++
              (if fmt then List.replicate dp 9 else [])) ++ (125 :: rest)) = 125 :: rest :=
            skipC_ws _ _ (ws_append (ws_if fmt 10 (by omega) (by omega)) (ws_tabs fmt dp))
              (by rw [headByte_cons]; omega) (by rw [headByte_cons]; omega)
          rw [hsk, parse_object, if_pos (headByte_cons 125 rest)]
          exact ⟨.obj .nil, rfl, rfl⟩
        | cons nm v ms2 =>
          simp only [sizeM] at hszN hfuel
          rw [print_object_members_eq ms2 nm v (dp + 1) fmt
            ((if fmt then List.replicate dp 9 else []) ++ (125 :: rest)),
            ← List.append_assoc]
          have hh34 : headByte (print_string_ptr nm ++
              (58 :: ((if fmt then [9] else []) ++ (print_value v (dp + 1) fmt ++
                printMembersTail ms2 (dp + 1) fmt
                  ((if fmt then List.replicate dp 9 else []) ++ (125 :: rest)))))) = 34 := by
            rw [print_string_ptr_cons, List.cons_append, headByte_cons]
          have hsk : skipC (((if fmt then [10] else []) ++
              (if fmt then List.replicate (dp + 1) 9 else [])) ++
              (print_string_ptr nm ++ (58 :: ((if fmt then [9] else []) ++
                (print_value v (dp + 1) fmt ++ printMembersTail ms2 (dp + 1) fmt
                  ((if fmt then List.replicate dp 9 else []) ++ (125 :: rest))))))) =
              print_string_ptr nm ++ (58 :: ((if fmt then [9] else []) ++
                (print_value v (dp + 1) fmt ++ printMembersTail ms2 (dp + 1) fmt
                  ((if fmt then List.replicate dp 9 else []) ++ (125 :: rest))))) :=
            skipC_ws _ _
              (ws_append (ws_if fmt 10 (by omega) (by omega)) (ws_tabs fmt (dp + 1)))
              (by omega) (by omega)
          rw [hsk, parse_object, if_neg (by omega)]
          have hsk2 : skipC (print_string_ptr nm ++ (58 :: ((if fmt then [9] else []) ++
              (print_value v (dp + 1) fmt ++ printMembersTail ms2 (dp + 1) fmt
                ((if fmt then List.replicate dp 9 else []) ++ (125 :: rest)))))) =
              print_string_ptr nm ++ (58 :: ((if fmt then [9] else []) ++
                (print_value v (dp + 1) fmt ++ printMembersTail ms2 (dp + 1) fmt
                  ((if fmt then List.replicate dp 9 else []) ++ (125 :: rest))))) :=
            skipC_clean _ (by omega) (by omega)
          rw [hsk2]
          have hpsoi : parse_string_or_identifier (print_string_ptr nm ++
              (58 :: ((if fmt then [9] else []) ++ (print_value v (dp + 1) fmt ++
                printMembersTail ms2 (dp + 1) fmt
                  ((if fmt then List.replicate dp 9 else []) ++ (125 :: rest)))))) =
              .ok (cstr nm, 58 :: ((if fmt then [9] else []) ++
                (print_value v (dp + 1) fmt ++ printMembersTail ms2 (dp + 1) fmt
                  ((if fmt then List.replicate dp 9 else []) ++ (125 :: rest))))) := by
            rw [parse_string_or_identifier, if_pos hh34]
            exact parse_print_string_rest nm _
          rw [hpsoi]
          dsimp only
          have hsk3 : skipC (58 :: ((if fmt then [9] else []) ++
              (print_value v (dp + 1) fmt ++ printMembersTail ms2 (dp + 1) fmt
                ((if fmt then List.replicate dp 9 else []) ++ (125 :: rest))))) =
              58 :: ((if fmt then [9] else []) ++
                (print_value v (dp + 1) fmt ++ printMembersTail ms2 (dp + 1) fmt
                  ((if fmt then List.replicate dp 9 else []) ++ (125 :: rest)))) :=
            skipC_clean _ (by rw [headByte_cons]; omega) (by rw [headByte_cons]; omega)
          rw [hsk3, if_pos (Or.inl (headByte_cons 58 _))]
          simp only [List.drop_succ_cons, List.drop_zero]
          obtain ⟨b, t, hbt, hb32, hb47, hb93⟩ := print_value_head v (dp + 1) fmt
          have hhv : headByte (print_value v (dp + 1) fmt ++
              printMembersTail ms2 (dp + 1) fmt
                ((if fmt then List.replicate dp 9 else []) ++ (125 :: rest))) = b := by
            rw [hbt, List.cons_append, headByte_cons]
          have hsk4 : skipC ((if fmt then [9] else []) ++
              (print_value v (dp + 1) fmt ++ printMembersTail ms2 (dp + 1) fmt
                ((if fmt then List.replicate dp 9 else []) ++ (125 :: rest)))) =
              print_value v (dp + 1) fmt ++ printMembersTail ms2 (dp + 1) fmt
                ((if fmt then List.replicate dp 9 else []) ++ (125 :: rest)) :=
            skipC_ws _ _ (ws_if fmt 9 (by omega) (by omega)) (by omega) (by omega)
          rw [hsk4]
          obtain ⟨v', hv, hsev⟩ := ih1 v (by omega) g2 (dp + 1) fmt _ (by omega)
            (printMembersTail_not_numCont ms2 (dp + 1) fmt _ rest (ws_tabs fmt dp))
          rw [hv]
          dsimp only
          obtain ⟨ms'', hm, hsem⟩ := ih3 ms2 (by omega) g2 (dp + 1) fmt rest _ (by omega)
            (ws_tabs fmt dp)
          rw [hm]
          dsimp only
          refine ⟨.obj (.cons (cstr nm) v' ms''), rfl, ?_⟩
          show ((cstr nm == cstr (cstr nm)) &&
            (structEqModNum v v' && structEqM ms2 ms'')) = true
          rw [cstr_idem, hsev, hsem]
          simp
    · -- parse_array_elems on printed further entries
      intro vs hszN fuel dp fmt rest hfuel
      cases vs with
      | nil => exact ⟨.nil, rtae_nil fuel dp fmt rest hfuel, rfl⟩
      | cons v vs2 =>
        simp only [sizeL] at hszN hfuel
        cases fuel with
        | zero => omega
        | succ g =>
        rw [printElemsTail]
        simp only [List.cons_append, List.append_assoc]
        have hsk0 : skipC (44 :: ((if fmt then [32] else []) ++
            (print_value v (dp + 1) fmt ++ (printElemsTail vs2 dp fmt ++ (93 :: rest))))) =
            44 :: ((if fmt then [32] else []) ++
              (print_value v (dp + 1) fmt ++ (printElemsTail vs2 dp fmt ++ (93 :: rest)))) :=
          skipC_clean _ (by rw [headByte_cons]; omega) (by rw [headByte_cons]; omega)
        rw [hsk0, parse_array_elems, if_neg (by rw [headByte_cons]; omega),
          if_pos (headByte_cons 44 _)]
        simp only [List.drop_succ_cons, List.drop_zero]
        obtain ⟨b, t, hbt, hb32, hb47, hb93⟩ := print_value_head v (dp + 1) fmt
        have hhv : headByte (print_value v (dp + 1) fmt ++
            (printElemsTail vs2 dp fmt ++ (93 :: rest))) = b := by
          rw [hbt, List.cons_append, headByte_cons]
        have hsk1 : skipC ((if fmt then [32] else []) ++
            (print_value v (dp + 1) fmt ++ (printElemsTail vs2 dp fmt ++ (93 :: rest)))) =
            print_value v (dp + 1) fmt ++ (printElemsTail vs2 dp fmt ++ (93 :: rest)) :=
          skipC_ws _ _ (ws_if fmt 32 (by omega) (by omega)) (by omega) (by omega)
        rw [hsk1]
        obtain ⟨v', hv, hsev⟩ := ih1 v (by omega) g (dp + 1) fmt _ (by omega)
          (printElemsTail_not_numCont vs2 dp fmt rest)
        rw [hv]
        dsimp only
        obtain ⟨vs'', he, hseL⟩ := ih2 vs2 (by omega) g dp fmt rest (by omega)
        rw [he]
        dsimp only
        refine ⟨.cons v' vs'', rfl, ?_⟩
        show (structEqModNum v v' && structEqL vs2 vs'') = true
        rw [hsev, hseL]
        rfl
    · -- parse_object_members on printed further members
      intro ms hszN fuel dp fmt rest w hfuel hw
      cases ms with
      | nil => exact ⟨.nil, rtm_nil fuel dp fmt rest w hfuel hw, rfl⟩
      | cons nm v ms2 =>
        simp only [sizeM] at hszN hfuel
        cases fuel with
        | zero => omega
        | succ g =>
        rw [printMembersTail]
        have hsk0 : skipC (44 :: ((if fmt then [10] else []) ++
            ((if fmt then List.replicate dp 9 else []) ++ (print_string_ptr nm ++
              (58 :: ((if fmt then [9] else []) ++ (print_value v dp fmt ++
                printMembersTail ms2 dp fmt (w ++ (125 :: rest))))))))) =
            44 :: ((if fmt then [10] else []) ++
              ((if fmt then List.replicate dp 9 else []) ++ (print_string_ptr nm ++
                (58 :: ((if fmt then [9] else []) ++ (print_value v dp fmt ++
                  printMembersTail ms2 dp fmt (w ++ (125 :: rest)))))))) :=
          skipC_clean _ (by rw [headByte_cons]; omega) (by rw [headByte_cons]; omega)
        rw [hsk0, parse_object_members, if_neg (by rw [headByte_cons]; omega),
          if_neg (by rw [headByte_cons]; omega), if_pos (headByte_cons 44 _)]
        simp only [List.drop_succ_cons, List.drop_zero]
        rw [← List.append_assoc]
        have hh34 : headByte (print_string_ptr nm ++
            (58 :: ((if fmt then [9] else []) ++ (print_value v dp fmt ++
              printMembersTail ms2 dp fmt (w ++ (125 :: rest)))))) = 34 := by
          rw [print_string_ptr_cons, List.cons_append, headByte_cons]
        have hsk1 : skipC (((if fmt then [10] else []) ++
            (if fmt then List.replicate dp 9 else [])) ++ (print_string_ptr nm ++
              (58 :: ((if fmt then [9] else []) ++ (print_value v dp fmt ++
                printMembersTail ms2 dp fmt (w ++ (125 :: rest))))))) =
            print_string_ptr nm ++ (58 :: ((if fmt then [9] else []) ++
              (print_value v dp fmt ++ printMembersTail ms2 dp fmt (w ++ (125 :: rest))))) :=
          skipC_ws _ _ (ws_append (ws_if fmt 10 (by omega) (by omega)) (ws_tabs fmt dp))
            (by omega) (by omega)
        rw [hsk1]
        have hpsoi : parse_string_or_identifier (print_string_ptr nm ++
            (58 :: ((if fmt then [9] else []) ++ (print_value v dp fmt ++
              printMembersTail ms2 dp fmt (w ++ (125 :: rest)))))) =
            .ok (cstr nm, 58 :: ((if fmt then [9] else []) ++ (print_value v dp fmt ++
              printMembersTail ms2 dp fmt (w ++ (125 :: rest))))) := by
          rw [parse_string_or_identifier, if_pos hh34]
          exact parse_print_string_rest nm _
        rw [hpsoi]
        dsimp only
        have hsk3 : skipC (58 :: ((if fmt then [9] else []) ++ (print_value v dp fmt ++
            printMembersTail ms2 dp fmt (w ++ (125 :: rest))))) =
            58 :: ((if fmt then [9] else []) ++ (print_value v dp fmt ++
              printMembersTail ms2 dp fmt (w ++ (125 :: rest)))) :=
          skipC_clean _ (by rw [headByte_cons]; omega) (by rw [headByte_cons]; omega)
        rw [hsk3, if_pos (Or.inl (headByte_cons 58 _))]
        simp only [List.drop_succ_cons, List.drop_zero]
        obtain ⟨b, t, hbt, hb32, hb47, hb93⟩ := print_value_head v dp fmt
        have hhv : headByte (print_value v dp fmt ++
            printMembersTail ms2 dp fmt (w ++ (125 :: rest))) = b := by
          rw [hbt, List.cons_append, headByte_cons]
        have hsk4 : skipC ((if fmt then [9] else []) ++ (print_value v dp fmt ++
            printMembersTail ms2 dp fmt (w ++ (125 :: rest)))) =
            print_value v dp fmt ++ printMembersTail ms2 dp fmt (w ++ (125 :: rest)) :=
          skipC_ws _ _ (ws_if fmt 9 (by omega) (by omega)) (by omega) (by omega)
        rw [hsk4]
        obtain ⟨v', hv, hsev⟩ := ih1 v (by omega) g dp fmt _ (by omega)
          (printMembersTail_not_numCont ms2 dp fmt w rest hw)
        rw [hv]
        dsimp only
        obtain ⟨ms'', hm, hsem⟩ := ih3 ms2 (by omega) g dp fmt rest w (by omega) hw
        rw [hm]
        dsimp only
        refine ⟨.cons (cstr nm) v' ms'', rfl, ?_⟩
        show ((cstr nm == cstr (cstr nm)) &&
          (structEqModNum v v' && structEqM ms2 ms'')) = true
        rw [cstr_idem, hsev, hsem]
        simp

theorem parse_array_shape (fuel : Nat) (l : List Nat) (v : SJson) (r : List Nat)
    (h : parse_array fuel l = .ok (v, r)) : ∃ vs, v = .arr vs := by
  cases fuel with
  | zero => exact Except.noConfusion h
  | succ g =>
    rw [parse_array] at h
    by_cases h91 : headByte l = 91
    · rw [if_pos h91] at h
      dsimp only at h
      by_cases h93 : headByte (skipC (l.drop 1)) = 93
      · rw [if_pos h93] at h
        injection h with h
        injection h with h1 h2
        exact ⟨.nil, h1.symm⟩
      · rw [if_neg h93] at h
        cases hv : parse_value g (skipC (skipC (l.drop 1))) with
        | error e => rw [hv] at h; exact Except.noConfusion h
        | ok p =>
          obtain ⟨v0, l2⟩ := p
          rw [hv] at h
          dsimp only at h
          cases he : parse_array_elems g (skipC l2) with
          | error e => rw [he] at h; exact Except.noConfusion h
          | ok q =>
            obtain ⟨vs0, l3⟩ := q
            rw [he] at h
            dsimp only at h
            injection h with h
            injection h with h1 h2
            exact ⟨.cons v0 vs0, h1.symm⟩
    · rw [if_neg h91] at h
      exact Except.noConfusion h

theorem parse_object_shape (fuel : Nat) (l : List Nat) (v : SJson) (r : List Nat)
    (h : parse_object fuel l = .ok (v, r)) : ∃ ms, v = .obj ms := by
  cases fuel with
  | zero => exact Except.noConfusion h
  | succ g =>
    rw [parse_object] at h
    by_cases h125 : headByte l = 125
    · rw [if_pos h125] at h
      injection h with h
      injection h with h1 h2
      exact ⟨.nil, h1.symm⟩
    · rw [if_neg h125] at h
      cases hn : parse_string_or_identifier (skipC l) with
      | error e => rw [hn] at h; exact Except.noConfusion h
      | ok p =>
        obtain ⟨name, r1⟩ := p
        rw [hn] at h
        dsimp only at h
        by_cases hcolon : headByte (skipC r1) = 58 ∨ headByte (skipC r1) = 61
        · rw [if_pos hcolon] at h
          cases hv : parse_value g (skipC ((skipC r1).drop 1)) with
          | error e => rw [hv] at h; exact Except.noConfusion h
          | ok q =>
            obtain ⟨v0, r2⟩ := q
            rw [hv] at h
            dsimp only at h
            cases hm : parse_object_members g (skipC r2) with
            | error e => rw [hm] at h; exact Except.noConfusion h
            | ok w =>
              obtain ⟨ms0, r3⟩ := w
              rw [hm] at h
              dsimp only at h
              injection h with h
              injection h with h1 h2
              exact ⟨.cons name v0 ms0, h1.symm⟩
        · rw [if_neg hcolon] at h
          exact Except.noConfusion h

theorem parse_value_shape (fuel : Nat) (l : List Nat) (v : SJson) (r : List Nat)
    (hl : headByte l = 123 ∨ headByte l = 91)
    (h : parse_value fuel l = .ok (v, r)) :
    (∃ vs, v = .arr vs) ∨ (∃ ms, v = .obj ms) := by
  cases fuel with
  | zero => exact Except.noConfusion h
  | succ g =>
    rw [parse_value,
      if_neg (matchLit_head_ne _ 110 _ (by omega)),
      if_neg (matchLit_head_ne _ 102 _ (by omega)),
      if_neg (matchLit_head_ne _ 116 _ (by omega)),
      if_neg (by omega)] at h
    by_cases h91 : headByte l = 91
    · rw [if_pos h91] at h
      exact Or.inl (parse_array_shape g l v r h)
    · rw [if_neg h91, if_pos (by omega : headByte l = 123)] at h
      exact Or.inr (parse_object_shape g _ v r h)

/-- A document accepted by `sJSONparse` always parses to an array or an
object node (both entry branches build only those). -/
theorem sJSONparse_shape (fuel : Nat) (l : List Nat) (T : SJson) (r : List Nat)
    (h : sJSONparse fuel l = .ok (T, r)) :
    (∃ vs, T = .arr vs) ∨ (∃ ms, T = .obj ms) := by
  rw [sJSONparse] at h
  by_cases hc : headByte (skipC l) = 123 ∨ headByte (skipC l) = 91
  · rw [if_pos hc] at h
    have hid : skipC (skipC l) = skipC l := skipC_clean _ (by omega) (by omega)
    rw [hid] at h
    exact parse_value_shape fuel _ T r hc h
  · rw [if_neg hc] at h
    exact Or.inr (parse_object_shape fuel _ T r h)

/-- C1: for every well-formed document — any input text `sJSONparse`
accepts — re-serializing the returned tree with `sJSONprint` or
`sJSONprintUnformatted` and re-parsing that output with `sJSONparse`
(under sufficient fuel) succeeds, consumes the whole output, and yields
a tree structurally equal to the original modulo number formatting:
same shapes and type tags, names and string values equal as C strings,
numbers identified.  Doubles are idealised as exact rationals and the
`sprintf` number renderings as decimal literals of the same shape. -/
theorem claim_C1 (D drest : List Nat) (fuel : Nat) (T : SJson) (fmt : Bool)
    (hparse : sJSONparse fuel D = .ok (T, drest)) :
    ∃ fuel2 T',
      sJSONparse fuel2 (if fmt then sJSONprint T else sJSONprintUnformatted T) =
        .ok (T', []) ∧
      structEqModNum T T' = true := by
  have hshape := sJSONparse_shape fuel D T drest hparse
  obtain ⟨T', hT', hse⟩ := (roundTrip (sizeV T)).1 T (Nat.le_refl _) (sizeV T + 1) 0 fmt []
    (by omega)
    (by
      have h0 : headByte ([] : List Nat) = 0 := rfl
      rw [numCont]
      omega)
  rw [List.append_nil] at hT'
  refine ⟨sizeV T + 1, T', ?_, hse⟩
  have hpr : (if fmt then sJSONprint T else sJSONprintUnformatted T) =
      print_value T 0 fmt := by
    cases fmt with
    | true => rfl
    | false => rfl
  rw [hpr]
  rcases hshape with ⟨vs, hT⟩ | ⟨ms, hT⟩
  · subst hT
    have hh : headByte (print_value (.arr vs) 0 fmt) = 91 := by
      rw [print_value, headByte_cons]
    have hskip : skipC (print_value (.arr vs) 0 fmt) = print_value (.arr vs) 0 fmt :=
      skipC_clean _ (by omega) (by omega)
    rw [sJSONparse, hskip, if_pos (Or.inr hh), hskip]
    exact hT'
  · subst hT
    have hh : headByte (print_value (.obj ms) 0 fmt) = 123 := by
      rw [print_value, headByte_cons]
    have hskip : skipC (print_value (.obj ms) 0 fmt) = print_value (.obj ms) 0 fmt :=
      skipC_clean _ (by omega) (by omega)
    rw [sJSONparse, hskip, if_pos (Or.inl hh), hskip]
    exact hT'

theorem claim_C1_witness :
    sJSONparse 10 [123, 34, 107, 34, 58, 34, 118, 34, 125] =
      .ok (.obj (.cons [107] (.str [118]) .nil), []) ∧
    (∃ fuel2 T',
      sJSONparse fuel2 (sJSONprint (.obj (.cons [107] (.str [118]) .nil))) =
        .ok (T', []) ∧
      structEqModNum (.obj (.cons [107] (.str [118]) .nil)) T' = true) ∧
    (∃ fuel2 T',
      sJSONparse fuel2 (sJSONprintUnformatted (.obj (.cons [107] (.str [118]) .nil))) =
        .ok (T', []) ∧
      structEqModNum (.obj (.cons [107] (.str [118]) .nil)) T' = true) := by
  refine ⟨rfl, ?_, ?_⟩
  · exact claim_C1 [123, 34, 107, 34, 58, 34, 118, 34, 125] [] 10
      (.obj (.cons [107] (.str [118]) .nil)) true rfl
  · exact claim_C1 [123, 34, 107, 34, 58, 34, 118, 34, 125] [] 10
      (.obj (.cons [107] (.str [118]) .nil)) false rfl

end SJSON
